import Mathlib

/-!
Verification of the tox repository's specification.

The repository has two parts relevant to the claims:

* the `earlgrey` Earley parser crate.  Its implementation files
  (grammar builder, recognizer, forest walker) are not available here;
  only its test suite `earlgrey/src/parser_test.rs` is.  The embedding
  below is therefore modelled from the natural-language specification
  (spec.md sections 3 and 4), with the test suite fixing the concrete
  expected behaviour.
* the `lox` tree interpreter (`lox/src/lox_parser.rs`,
  `lox/src/lox_interpreter.rs`), embedded directly from the source.
-/

namespace Earlgrey

/-- Modelled from the spec (section 3, "Symbol"; the earlgrey grammar
module is not in the sources): a symbol is either a nonterminal carrying
a unique name, or a terminal carrying a unique name together with a
match-predicate over input lexemes.  Equality is by name. -/
inductive Symbol where
  | nt (name : String)
  | term (name : String) (pred : String → Bool)

/-- Name of a symbol (both variants carry one). -/
def Symbol.name : Symbol → String
  | .nt n => n
  | .term n _ => n

/-- True when the two symbols are the same variant (used for the
DuplicateSymbol check of the builder). -/
def Symbol.sameVariant : Symbol → Symbol → Bool
  | .nt _, .nt _ => true
  | .term _ _, .term _ _ => true
  | _, _ => false

/-- Modelled from the spec (section 3, "Rule"): an ordered pair of a head
nonterminal name and a finite, possibly empty, list of symbol names. -/
structure GRule where
  head : String
  body : List String
deriving DecidableEq

/-- Modelled from the spec (section 6, "Rule labels"): the canonical
printed form of a rule, `"HEAD -> s1 s2 ... sk"`, with `"HEAD -> "`
(trailing space) for epsilon productions.  Rules are value-identified by
this label. -/
def GRule.label (r : GRule) : String :=
  r.head ++ " -> " ++ String.intercalate " " r.body

/-- Modelled from the spec (section 3, "Grammar"): immutable bundle of the
declared symbols, the ordered rule list and the start symbol name. -/
structure Grammar where
  symbols : List Symbol
  rules : List GRule
  start : String

/-- Look a declared symbol up by name. -/
def lookupSym (syms : List Symbol) (n : String) : Option Symbol :=
  syms.find? (fun s => s.name == n)

/-- Modelled from the spec (section 4.1): grammar construction error
taxonomy. -/
inductive BuildErr where
  | duplicateSymbol (name : String)
  | unknownSymbol (name : String)
  | unknownStart (name : String)
  | noRulesForStart (name : String)
deriving DecidableEq

/-- Modelled from the spec (section 4.1): the grammar builder is a mutable
staging area accumulating symbols and rules; the first error sticks and
is reported by `intoGrammar`. -/
structure GrammarBuilder where
  symbols : List Symbol
  rules : List GRule
  err : Option BuildErr

/-- Fresh builder, mirroring `GrammarBuilder::new()`. -/
def GrammarBuilder.new : GrammarBuilder := ⟨[], [], none⟩

/-- Modelled from the spec (section 4.1, `declare_nonterminal` /
`declare_terminal`): registers a symbol; fails with DuplicateSymbol when
the name is already declared with a different variant, and keeps the
first declaration when re-declared with the same variant (equality of
symbols is by name). -/
def GrammarBuilder.addSymbol (b : GrammarBuilder) (s : Symbol) : GrammarBuilder :=
  match b.err with
  | some _ => b
  | none =>
    match lookupSym b.symbols s.name with
    | some old =>
      if old.sameVariant s then b
      else { b with err := some (.duplicateSymbol s.name) }
    | none => { b with symbols := b.symbols ++ [s] }

/-- Declare a nonterminal, mirroring `.symbol("S")` in the tests. -/
def GrammarBuilder.symbolNT (b : GrammarBuilder) (n : String) : GrammarBuilder :=
  b.addSymbol (.nt n)

/-- Declare a terminal with its predicate, mirroring
`.symbol(("b", |n| n == "b"))` in the tests. -/
def GrammarBuilder.symbolT (b : GrammarBuilder) (n : String)
    (p : String → Bool) : GrammarBuilder :=
  b.addSymbol (.term n p)

/-- Modelled from the spec (section 4.1, `add_rule`; section 3: rules are
value-identified by their printed form, so a rule whose label is already
present is not added again): registers a rule, failing with UnknownSymbol
when the head is not a declared nonterminal or a body name is
undeclared. -/
def GrammarBuilder.rule (b : GrammarBuilder) (head : String)
    (body : List String) : GrammarBuilder :=
  match b.err with
  | some _ => b
  | none =>
    match lookupSym b.symbols head with
    | some (.nt _) =>
      if body.all (fun n => (lookupSym b.symbols n).isSome) then
        let r : GRule := ⟨head, body⟩
        if b.rules.any (fun r0 => r0.label == r.label) then b
        else { b with rules := b.rules ++ [r] }
      else
        { b with err := some (.unknownSymbol head) }
    | _ => { b with err := some (.unknownSymbol head) }

/-- Modelled from the spec (section 4.1, `finalize`): freeze the builder
into an immutable Grammar, failing with UnknownStart when the start
symbol is undeclared and NoRulesForStart when it has no productions. -/
def GrammarBuilder.intoGrammar (b : GrammarBuilder) (start : String) :
    Except BuildErr Grammar :=
  match b.err with
  | some e => .error e
  | none =>
    if (lookupSym b.symbols start).isNone then .error (.unknownStart start)
    else if b.rules.all (fun r => r.head != start) then
      .error (.noRulesForStart start)
    else .ok ⟨b.symbols, b.rules, start⟩

/-- One step of the nullability least fixed point (spec section 9,
"Nullability detection"): add every head whose body consists entirely of
already-known-nullable symbols. -/
def nullStep (rules : List GRule) (acc : List String) : List String :=
  rules.foldl
    (fun acc r =>
      if acc.contains r.head then acc
      else if r.body.all (fun n => acc.contains n) then acc ++ [r.head]
      else acc)
    acc

/-- Iterate a function n times. -/
def iterateN (f : α → α) : Nat → α → α
  | 0, a => a
  | n + 1, a => iterateN f n (f a)

/-- Modelled from the spec (section 9): the set of nullable nonterminals,
computed once per grammar by least fixed point over rule bodies.  At most
one new head is added per pass, so `rules.length` passes reach the fixed
point. -/
def nullableSet (g : Grammar) : List String :=
  iterateN (nullStep g.rules) (g.rules.length + 1) []

/-- Modelled from the spec (section 3, "Earley Item"): a rule (referenced
by its stable index into the grammar, per section 5), a dot position and
the input position where matching began.  The end position is implicit:
it is the index of the state set holding the item (section 3, "State set
S_i"). -/
structure EItem where
  rule : Nat
  dot : Nat
  start : Nat
deriving DecidableEq

/-- Modelled from the spec (section 3, "Back-pointer records"): how an
item's dot reached its current position.  Three shapes: advance over a
nullable symbol at predict time (Aycock-Horspool), advance by scanning a
token (recording the matched lexeme), and advance by a completed child
item, referenced by its stable index within the item's own state set
(section 5).  The predecessor of a completion is determined by the
invariant of section 3 (its end equals the cause's start), so it is
recovered by lookup when walking. -/
inductive Deriv where
  | nullable
  | scan (lexeme : String)
  | complete (causeIdx : Nat)
deriving DecidableEq

/-- Modelled from the spec (section 3, "State set"): an ordered,
insertion-preserving sequence of items, deduplicated by item identity,
each carrying its set of derivations. -/
abbrev StateSet := List (EItem × List Deriv)

/-- Modelled from the spec (sections 3 and 4.2): insert an item into a
state set.  A new item is appended; when the item-tuple is already
present, the new derivation (if any, and if not already recorded) is
merged into the existing item's derivation set. -/
def insertItem : StateSet → EItem → Option Deriv → StateSet
  | [], it, d => [(it, d.toList)]
  | e :: rest, it, d =>
    if e.fst = it then
      (match d with
       | none => e
       | some dv => if dv ∈ e.snd then e else (e.fst, e.snd ++ [dv])) :: rest
    else e :: insertItem rest it d

/-- The rule of an item, when its index is in range. -/
def ruleOf (g : Grammar) (it : EItem) : Option GRule :=
  g.rules.get? it.rule

/-- The symbol name after the dot of an item, if the item is
incomplete. -/
def nextSym (g : Grammar) (it : EItem) : Option String :=
  match ruleOf g it with
  | some r => r.body.get? it.dot
  | none => none

/-- An item is complete when its dot has reached the end of the rule
body (spec section 3). -/
def isComplete (g : Grammar) (it : EItem) : Bool :=
  match ruleOf g it with
  | some r => it.dot == r.body.length
  | none => false

/-- Modelled from the spec (section 4.2, steps 1-3): process one item of
the state set under construction.  `prev` holds the closed sets
S_0 .. S_{i-1}, `cur` is S_i (growing), `nxt` collects scans into
S_{i+1}, `tok` is the token at position i (if any) and `j` is the index
of the item to process.

Predict inserts `(rule, 0, i)` for every rule of the predicted
nonterminal and, when that nonterminal is nullable, also the
dot-advanced item with a Predict-from-nullable derivation
(Aycock-Horspool).  Scan advances over a matching terminal into the next
set.  Complete advances every predecessor in the cause's start set; an
epsilon-span cause (start = i) is skipped, because such an advancement
is exactly the one recorded by the Predict-from-nullable derivation
(the walker of section 4.4 enumerates all epsilon derivations of the
nullable symbol there, so recording the completion too would duplicate
parses, contradicting the epsilon-ambiguity test expectations of
section 8). -/
def processStep (g : Grammar) (nulls : List String) (prev : List StateSet)
    (i : Nat) (tok : Option String) (cur nxt : StateSet) (j : Nat) :
    StateSet × StateSet :=
  match cur.get? j with
  | none => (cur, nxt)
  | some (it, _) =>
    match ruleOf g it with
    | none => (cur, nxt)
    | some r =>
      match r.body.get? it.dot with
      | some sym =>
        match lookupSym g.symbols sym with
        | some (.nt _) =>
          let cur1 := g.rules.enum.foldl
            (fun acc kr =>
              if kr.snd.head == sym then insertItem acc ⟨kr.fst, 0, i⟩ none
              else acc)
            cur
          let cur2 :=
            if nulls.contains sym then
              insertItem cur1 ⟨it.rule, it.dot + 1, it.start⟩ (some .nullable)
            else cur1
          (cur2, nxt)
        | some (.term _ pred) =>
          match tok with
          | some lex =>
            if pred lex then
              (cur, insertItem nxt ⟨it.rule, it.dot + 1, it.start⟩
                      (some (.scan lex)))
            else (cur, nxt)
          | none => (cur, nxt)
        | none => (cur, nxt)
      | none =>
        if it.start = i then (cur, nxt)
        else
          match prev.get? it.start with
          | none => (cur, nxt)
          | some ss =>
            let cur1 := ss.foldl
              (fun acc p =>
                if nextSym g p.fst == some r.head then
                  insertItem acc ⟨p.fst.rule, p.fst.dot + 1, p.fst.start⟩
                    (some (.complete j))
                else acc)
              cur
            (cur1, nxt)

/-- Modelled from the spec (section 4.2): the worklist that grows S_i to
fixed point, processing each item exactly once, including items added
during processing.  The fuel bounds the number of processed items; it is
chosen at the call site from the item-count bound of section 4.2. -/
def closeLoop (g : Grammar) (nulls : List String) (prev : List StateSet)
    (i : Nat) (tok : Option String) :
    Nat → StateSet → StateSet → Nat → StateSet × StateSet
  | 0, cur, nxt, _ => (cur, nxt)
  | fuel + 1, cur, nxt, j =>
    if j < cur.length then
      let (c, n) := processStep g nulls prev i tok cur nxt j
      closeLoop g nulls prev i tok fuel c n (j + 1)
    else (cur, nxt)

/-- Bound on the number of distinct items of one state set: each rule
contributes |body| + 1 dot positions, and the start position ranges over
i + 1 values (spec section 4.2, "Termination"). -/
def ruleSlots (g : Grammar) : Nat :=
  g.rules.foldl (fun acc r => acc + r.body.length + 1) 0

/-- Close state set S_i and collect the scans into S_{i+1}. -/
def closeSet (g : Grammar) (nulls : List String) (prev : List StateSet)
    (tok : Option String) (cur : StateSet) : StateSet × StateSet :=
  closeLoop g nulls prev prev.length tok
    (ruleSlots g * (prev.length + 1) + cur.length + 1) cur [] 0

/-- Build the chart S_0 .. S_n by closing each set and scanning into the
next (spec section 4.2).  `prev` holds the closed sets, `cur` the seed of
the set being closed, `rest` the remaining input. -/
def chartLoop (g : Grammar) (nulls : List String) :
    List StateSet → StateSet → List String → List StateSet
  | prev, cur, [] => prev ++ [(closeSet g nulls prev none cur).fst]
  | prev, cur, t :: rest =>
    chartLoop g nulls (prev ++ [(closeSet g nulls prev (some t) cur).fst])
      (closeSet g nulls prev (some t) cur).snd rest

/-- Modelled from the spec (section 4.2, "Seed"): S_0 starts with an item
`(rule, 0, 0, 0)` for every rule whose head is the start symbol. -/
def seedSet (g : Grammar) : StateSet :=
  g.rules.enum.foldl
    (fun acc kr =>
      if kr.snd.head == g.start then insertItem acc ⟨kr.fst, 0, 0⟩ none
      else acc)
    []

/-- The full chart of a parse: state sets S_0 .. S_n. -/
def buildChart (g : Grammar) (toks : List String) : List StateSet :=
  chartLoop g (nullableSet g) [] (seedSet g) toks

/-- Modelled from the spec (section 4.2): recognition error taxonomy. -/
inductive ParseError where
  | unexpectedToken (pos : Nat) (lexeme : String)
  | unexpectedEOF (pos : Nat)
  | noParse
deriving DecidableEq

/-- Modelled from the spec (section 3, "Parse-state artifact"): the chart
exposed to the walkers.  Scanned lexemes are carried by the Scan
derivations, and the grammar is passed to the walkers separately
(mirroring `Tree::builder(grammar).eval_all(&ps)` in the tests). -/
structure ParseState where
  chart : List StateSet
deriving Inhabited

/-- Accepting items of the final state set: complete items whose rule head
is the start symbol and whose start is 0 (spec section 4.2,
"Acceptance"), with their stable indices. -/
def acceptingIdx (g : Grammar) (ss : StateSet) : List Nat :=
  (ss.enum.filter
    (fun e =>
      e.snd.fst.start == 0 && isComplete g e.snd.fst &&
      (match ruleOf g e.snd.fst with
       | some r => r.head == g.start
       | none => false))).map (·.fst)

/-- Modelled from the spec (section 4.2, public contract):
`recognize(grammar, tokens)`.  The chart is built; if some S_{i+1} with
i < n received no items the token at position i could not be scanned
(UnexpectedToken); otherwise the input is recognized iff the final set
has an accepting item, else NoParse. -/
def EarleyParser.parse (g : Grammar) (toks : List String) :
    Except ParseError ParseState :=
  let chart := buildChart g toks
  match (chart.drop 1).findIdx? (fun s => s.isEmpty) with
  | some i => .error (.unexpectedToken i ((toks.get? i).getD ""))
  | none =>
    match chart.getLast? with
    | none => .error .noParse
    | some last =>
      if (acceptingIdx g last).isEmpty then .error .noParse
      else .ok ⟨chart⟩

/-- Modelled from the spec (section 6, "Tree printed form"; the earlgrey
util module is not in the sources): concrete syntax trees, a leaf
carrying a terminal name and lexeme, a node carrying a rule label and
children. -/
inductive Tree where
  | leaf (tname lexeme : String)
  | node (label : String) (children : List Tree)

mutual

/-- Decidable structural equality of trees (the Rust side compares the
`Debug` print of trees, which is injective, so structural equality is
the right notion). -/
def Tree.decEq : (a b : Tree) → Decidable (a = b)
  | .leaf a b, .leaf c d =>
    if h1 : a = c then
      if h2 : b = d then .isTrue (by rw [h1, h2])
      else .isFalse (fun h => by cases h; exact h2 rfl)
    else .isFalse (fun h => by cases h; exact h1 rfl)
  | .leaf _ _, .node _ _ => .isFalse (fun h => by cases h)
  | .node _ _, .leaf _ _ => .isFalse (fun h => by cases h)
  | .node l cs, .node m ds =>
    if h1 : l = m then
      match Tree.decEqList cs ds with
      | .isTrue h2 => .isTrue (by rw [h1, h2])
      | .isFalse h2 => .isFalse (fun h => by cases h; exact h2 rfl)
    else .isFalse (fun h => by cases h; exact h1 rfl)

/-- Decidable equality of lists of trees. -/
def Tree.decEqList : (a b : List Tree) → Decidable (a = b)
  | [], [] => .isTrue rfl
  | [], _ :: _ => .isFalse (fun h => by cases h)
  | _ :: _, [] => .isFalse (fun h => by cases h)
  | x :: xs, y :: ys =>
    match Tree.decEq x y, Tree.decEqList xs ys with
    | .isTrue h1, .isTrue h2 => .isTrue (by rw [h1, h2])
    | .isFalse h1, _ => .isFalse (fun h => by cases h; exact h1 rfl)
    | .isTrue _, .isFalse h2 => .isFalse (fun h => by cases h; exact h2 rfl)

end

instance : DecidableEq Tree := Tree.decEq

/-- Modelled from the spec (section 4.4, "Enumeration strategy"): the list
of all reconstructions of `body[0..dot]` of the item at index `idx` of
state set `e`, against the input span `[start, e]`.  Recursion is over
the item's derivations:

* dot = 0 has exactly one reconstruction, the empty sequence;
* a Scan derivation crosses the reconstructions of the same item at
  dot - 1 (found in the previous set) with the scanned leaf;
* a Complete derivation crosses the reconstructions of the predecessor
  (the same item at dot - 1, found in the cause's start set, per the
  invariant of section 3) with the materializations of the cause;
* a Predict-from-nullable derivation crosses the reconstructions of the
  same item at dot - 1 (same set) with all epsilon derivations of the
  nullable symbol, i.e. the materializations of every complete item of
  that symbol spanning `[e, e]` in this set.

Re-entry of an item already on the walker stack (`visited`) is pruned,
as permitted by section 4.4 for unbounded epsilon-ambiguity; the fuel
bounds the stack depth and is chosen at the call site to exceed the
total item count, which the weakly-decreasing set index and the pruning
make a bound on the stack depth. -/
def recon (g : Grammar) (chart : List StateSet) :
    Nat → List (Nat × Nat) → Nat → Nat → List (List Tree)
  | 0, _, _, _ => []
  | fuel + 1, visited, e, idx =>
    if (e, idx) ∈ visited then []
    else
      match chart.get? e with
      | none => []
      | some ss =>
        match ss.get? idx with
        | none => []
        | some (it, ds) =>
          match g.rules.get? it.rule with
          | none => []
          | some r =>
            if it.dot = 0 then [[]]
            else
              let vis := (e, idx) :: visited
              let pre := EItem.mk it.rule (it.dot - 1) it.start
              (ds.map (fun d =>
                match d with
                | .scan lex =>
                  let tname := (r.body.get? (it.dot - 1)).getD ""
                  match (chart.getD (e - 1) []).findIdx? (fun p => p.fst = pre) with
                  | some pIdx =>
                    (recon g chart fuel vis (e - 1) pIdx).map
                      (fun kids => kids ++ [Tree.leaf tname lex])
                  | none => []
                | .nullable =>
                  let nname := (r.body.get? (it.dot - 1)).getD ""
                  let preds :=
                    match ss.findIdx? (fun p => p.fst = pre) with
                    | some pIdx => recon g chart fuel vis e pIdx
                    | none => []
                  let epsKids := (ss.enum.filter
                    (fun c =>
                      c.snd.fst.start == e && isComplete g c.snd.fst &&
                      (match ruleOf g c.snd.fst with
                       | some cr => cr.head == nname
                       | none => false))).map
                    (fun c =>
                      (recon g chart fuel vis e c.fst).map
                        (fun kids =>
                          Tree.node ((ruleOf g c.snd.fst).elim "" GRule.label) kids))
                  preds.flatMap (fun kids => epsKids.flatten.map (fun c => kids ++ [c]))
                | .complete cIdx =>
                  match ss.get? cIdx with
                  | none => []
                  | some (c, _) =>
                    match g.rules.get? c.rule with
                    | none => []
                    | some cr =>
                      let causes := (recon g chart fuel vis e cIdx).map
                        (fun kids => Tree.node cr.label kids)
                      let preds :=
                        match (chart.getD c.start []).findIdx? (fun p => p.fst = pre) with
                        | some pIdx => recon g chart fuel vis c.start pIdx
                        | none => []
                      preds.flatMap (fun kids => causes.map (fun cc => kids ++ [cc]))
                )).flatten

/-- Fuel for the walker: one more than the total number of items of the
chart (the walker stack never revisits an item, so its depth is bounded
by the item count). -/
def chartFuel (chart : List StateSet) : Nat :=
  chart.foldl (fun acc s => acc + s.length) 0 + 1

/-- Modelled from the spec (section 4.4, "Tree Builder"): `eval_all`
returns the list of all parses, the union over the accepting items of
their materializations. -/
def evalAll (g : Grammar) (ps : ParseState) : List Tree :=
  match ps.chart.getLast? with
  | none => []
  | some last =>
    (acceptingIdx g last).flatMap
      (fun idx =>
        match last.get? idx with
        | none => []
        | some (it, _) =>
          (recon g ps.chart (chartFuel ps.chart) [] (ps.chart.length - 1) idx).map
            (fun kids => Tree.node ((ruleOf g it).elim "" GRule.label) kids))

/-- Modelled from the spec (section 4.4): `eval_one` returns one parse; it
is the first parse of the enumeration, which by the insertion order of
state sets is the derivation that completes earliest (in particular, the
canonical shortest epsilon-parse on empty input, as section 4.4's
cycle policy requires). -/
def evalOne (g : Grammar) (ps : ParseState) : Option Tree :=
  (evalAll g ps).head?

/-- Build a grammar from a builder, parse the token list and return all
trees, mirroring the test flow
`GrammarBuilder...into_grammar(s).unwrap(); EarleyParser::new(g).parse(input).unwrap(); Tree::builder(g).eval_all(&ps).unwrap()`. -/
def runTrees (b : GrammarBuilder) (start : String) (toks : List String) :
    Option (List Tree) :=
  match b.intoGrammar start with
  | .error _ => none
  | .ok g =>
    match EarleyParser.parse g toks with
    | .error _ => none
    | .ok ps => some (evalAll g ps)

/-- Like `runTrees` but returning the single parse of `eval_one`
(`Tree::builder(g).eval(&ps)` in the tests). -/
def runOne (b : GrammarBuilder) (start : String) (toks : List String) :
    Option Tree :=
  match b.intoGrammar start with
  | .error _ => none
  | .ok g =>
    match EarleyParser.parse g toks with
    | .error _ => none
    | .ok ps => evalOne g ps

/-- Whether the recognizer accepts the token list for the grammar built by
the builder (`EarleyParser::new(g).parse(input).is_ok()`). -/
def recognizes (b : GrammarBuilder) (start : String) (toks : List String) : Bool :=
  match b.intoGrammar start with
  | .error _ => false
  | .ok g => (EarleyParser.parse g toks).toBool

/-- Modelled from the spec (section 4.4, "Semantic Evaluator"): the user
registers a leaf function mapping (terminal name, lexeme) to a value and
per-rule-label actions mapping child values to a value. -/
structure EarleyEvaler (V : Type) where
  leafFn : String → String → V
  actions : List (String × (List V → V))

mutual

/-- Modelled from the spec (section 4.4): fold the user's leaf function
and actions over one materialized derivation.  A rule label without a
registered action defaults to identity when the body has length 1 and is
an UnhandledRule error otherwise.  The semantic evaluator shares the
tree builder's enumeration strategy, so it is modelled as this fold over
the trees the shared enumeration produces. -/
def applyEv (ev : EarleyEvaler V) : Tree → Except String V
  | .leaf tname lex => .ok (ev.leafFn tname lex)
  | .node lb cs =>
    (applyEvList ev cs).bind (fun vs =>
      match ev.actions.find? (fun a => a.fst == lb) with
      | some a => .ok (a.snd vs)
      | none =>
        match vs with
        | [v] => .ok v
        | _ => .error ("UnhandledRule " ++ lb))

/-- Evaluate a list of children left to right, propagating the first
error. -/
def applyEvList (ev : EarleyEvaler V) : List Tree → Except String (List V)
  | [] => .ok []
  | t :: ts =>
    (applyEv ev t).bind (fun v => (applyEvList ev ts).map (fun vs => v :: vs))

end

/-- Modelled from the spec (section 4.4): `eval_all` of the semantic
evaluator, one value per enumerated derivation. -/
def EarleyEvaler.evalAllV (ev : EarleyEvaler V) (g : Grammar) (ps : ParseState) :
    Except String (List V) :=
  (evalAll g ps).mapM (applyEv ev)

/-- Build, parse and run the semantic evaluator, mirroring the
`eval_actions` test flow. -/
def runValues (ev : EarleyEvaler V) (b : GrammarBuilder) (start : String)
    (toks : List String) : Option (Except String (List V)) :=
  match b.intoGrammar start with
  | .error _ => none
  | .ok g =>
    match EarleyParser.parse g toks with
    | .error _ => none
    | .ok ps => some (ev.evalAllV g ps)

/-- Parse a decimal digit string as a number (the model of
`f64::from_str` on the integral lexemes the tests supply; see
`evalActionsEv`). -/
def parseDigits (s : String) : Int :=
  (s.toList.foldl (fun acc c => acc * 10 + (c.toNat - 48)) 0 : Nat)

/-! Concrete grammars of the earlgrey test suite
(`earlgrey/src/parser_test.rs`).  Rust character-class predicates such as
`"1234567890".contains(n)` are written with list membership over the
same characters, which agrees with them on the lexemes the tokenizers
produce. -/

/-- The grammar of the `grammar_ambiguous` test: `S -> S S | b`. -/
def bAmbiguous : GrammarBuilder :=
  GrammarBuilder.new
    |>.symbolNT "S"
    |>.symbolT "b" (fun n => n == "b")
    |>.rule "S" ["S", "S"]
    |>.rule "S" ["b"]

/-- The grammar of the `grammar_ambiguous_epsilon` test:
`S -> S S X | b`, `X -> `. -/
def bAmbiguousEps : GrammarBuilder :=
  GrammarBuilder.new
    |>.symbolNT "S"
    |>.symbolNT "X"
    |>.symbolT "b" (fun n => n == "b")
    |>.rule "S" ["S", "S", "X"]
    |>.rule "X" []
    |>.rule "S" ["b"]

/-- The precedence math grammar of `grammar_math()` in the tests
(Sum/Mul/Pow/Num). -/
def bMathPrec : GrammarBuilder :=
  GrammarBuilder.new
    |>.symbolNT "Sum"
    |>.symbolNT "Mul"
    |>.symbolNT "Pow"
    |>.symbolNT "Num"
    |>.symbolT "Number" (fun n => n.toList.all (fun c => "1234567890".toList.contains c))
    |>.symbolT "[+-]" (fun n => n.length == 1 && n.toList.all (fun c => "+-".toList.contains c))
    |>.symbolT "[*/]" (fun n => n.length == 1 && n.toList.all (fun c => "*/".toList.contains c))
    |>.symbolT "[^]" (fun n => n == "^")
    |>.symbolT "(" (fun n => n == "(")
    |>.symbolT ")" (fun n => n == ")")
    |>.rule "Sum" ["Sum", "[+-]", "Mul"]
    |>.rule "Sum" ["Mul"]
    |>.rule "Mul" ["Mul", "[*/]", "Pow"]
    |>.rule "Mul" ["Pow"]
    |>.rule "Pow" ["Num", "[^]", "Pow"]
    |>.rule "Pow" ["Num"]
    |>.rule "Num" ["(", "Sum", ")"]
    |>.rule "Num" ["Number"]

/-- The grammar of the `left_recurse` test: `S -> S + N | N`,
`N -> [0-9]`. -/
def bLeftRec : GrammarBuilder :=
  GrammarBuilder.new
    |>.symbolNT "S"
    |>.symbolNT "N"
    |>.symbolT "[+]" (fun n => n == "+")
    |>.symbolT "[0-9]" (fun n => n.toList.all (fun c => "1234567890".toList.contains c))
    |>.rule "S" ["S", "[+]", "N"]
    |>.rule "S" ["N"]
    |>.rule "N" ["[0-9]"]

/-- The grammar of the `right_recurse` test: `P -> N ^ P | N`,
`N -> [0-9]`. -/
def bRightRec : GrammarBuilder :=
  GrammarBuilder.new
    |>.symbolNT "P"
    |>.symbolNT "N"
    |>.symbolT "[^]" (fun n => n == "^")
    |>.symbolT "[0-9]" (fun n => n.toList.all (fun c => "1234567890".toList.contains c))
    |>.rule "P" ["N", "[^]", "P"]
    |>.rule "P" ["N"]
    |>.rule "N" ["[0-9]"]

/-- The grammar of the `grammar_example` test: all words containing
"main", with a nullable `Letters` nonterminal. -/
def bMainWords : GrammarBuilder :=
  GrammarBuilder.new
    |>.symbolNT "Program"
    |>.symbolNT "Letters"
    |>.symbolT "oneletter" (fun l => l.length == 1 && l.toList.all Char.isAlpha)
    |>.symbolT "m" (fun l => l == "m")
    |>.symbolT "a" (fun l => l == "a")
    |>.symbolT "i" (fun l => l == "i")
    |>.symbolT "n" (fun l => l == "n")
    |>.rule "Program" ["Letters", "m", "a", "i", "n", "Letters"]
    |>.rule "Letters" ["oneletter", "Letters"]
    |>.rule "Letters" []

/-- The grammar of the `bogus_empty` test: `A -> | B`, `B -> A`
(unboundedly epsilon-ambiguous). -/
def bBogusEmpty : GrammarBuilder :=
  GrammarBuilder.new
    |>.symbolNT "A"
    |>.symbolNT "B"
    |>.rule "A" []
    |>.rule "A" ["B"]
    |>.rule "B" ["A"]

/-- The grammar of the `bogus_epsilon` test: balanced parentheses
`P -> ( P ) | P P | ` (unboundedly epsilon-ambiguous). -/
def bBogusEps : GrammarBuilder :=
  GrammarBuilder.new
    |>.symbolNT "P"
    |>.symbolT "(" (fun l => l == "(")
    |>.symbolT ")" (fun l => l == ")")
    |>.rule "P" ["(", "P", ")"]
    |>.rule "P" ["P", "P"]
    |>.rule "P" []

/-- The grammar of the `math_ambiguous` test: `E -> E + E | E * E | n`. -/
def bMathAmbiguous : GrammarBuilder :=
  GrammarBuilder.new
    |>.symbolNT "E"
    |>.symbolT "+" (fun n => n == "+")
    |>.symbolT "*" (fun n => n == "*")
    |>.symbolT "n" (fun n => n.toList.all (fun c => "1234567890".toList.contains c))
    |>.rule "E" ["E", "+", "E"]
    |>.rule "E" ["E", "*", "E"]
    |>.rule "E" ["n"]

/-- The grammar of `small_math()` in the tests, used by `eval_actions`:
the same symbols with rule `E -> E * E` declared first. -/
def bSmallMath : GrammarBuilder :=
  GrammarBuilder.new
    |>.symbolNT "E"
    |>.symbolT "+" (fun n => n == "+")
    |>.symbolT "*" (fun n => n == "*")
    |>.symbolT "n" (fun n => n.toList.all (fun c => "1234567890".toList.contains c))
    |>.rule "E" ["E", "*", "E"]
    |>.rule "E" ["E", "+", "E"]
    |>.rule "E" ["n"]

/-- The semantic evaluator of the `eval_actions` test: leaves map `n`
tokens to their numeric value (f64 in Rust, modelled as integers: the
test only exercises integral values, addition and multiplication), with
actions computing `+` and `*`. -/
def evalActionsEv : EarleyEvaler Int :=
  ⟨fun symbol token => if symbol == "n" then parseDigits token else 0,
   [("E -> E + E", fun nodes => nodes.getD 0 0 + nodes.getD 2 0),
    ("E -> E * E", fun nodes => nodes.getD 0 0 * nodes.getD 2 0),
    ("E -> n", fun nodes => nodes.getD 0 0)]⟩

/-- The input of the `grammar_ambiguous` tests: "b b b" split on
spaces. -/
def toksBBB : List String := ["b", "b", "b"]

/-- The input of `math_grammar_test`: "1+(2*3-4)" tokenized keeping the
delimiters. -/
def toksMathPrec : List String := ["1", "+", "(", "2", "*", "3", "-", "4", ")"]

/-- The input of `math_ambiguous`: "0*1*2*3*4*5" tokenized keeping the
delimiters. -/
def toksCatalan : List String :=
  ["0", "*", "1", "*", "2", "*", "3", "*", "4", "*", "5"]

/-- The input of `eval_actions`: "3+4*2" tokenized keeping the
delimiters. -/
def toksActions : List String := ["3", "+", "4", "*", "2"]

/-- The input of `grammar_example`: "containsmainword" as one-character
tokens. -/
def toksMain : List String :=
  ["c", "o", "n", "t", "a", "i", "n", "s", "m", "a", "i", "n", "w", "o", "r", "d"]

/-- The left-linear association of `b b b` under `S -> S S | b`
(first expected tree of the `grammar_ambiguous` test). -/
def tAmbLeft : Tree :=
  .node "S -> S S" [.node "S -> S S" [.node "S -> b" [.leaf "b" "b"],
    .node "S -> b" [.leaf "b" "b"]], .node "S -> b" [.leaf "b" "b"]]

/-- The right-linear association of `b b b` under `S -> S S | b`
(second expected tree of the `grammar_ambiguous` test). -/
def tAmbRight : Tree :=
  .node "S -> S S" [.node "S -> b" [.leaf "b" "b"],
    .node "S -> S S" [.node "S -> b" [.leaf "b" "b"], .node "S -> b" [.leaf "b" "b"]]]

/-- The left-linear association under the epsilon-padded grammar, with
`Node("X -> ", [])` children inserted. -/
def tEpsLeft : Tree :=
  .node "S -> S S X" [.node "S -> S S X" [.node "S -> b" [.leaf "b" "b"],
    .node "S -> b" [.leaf "b" "b"], .node "X -> " []],
    .node "S -> b" [.leaf "b" "b"], .node "X -> " []]

/-- The right-linear association under the epsilon-padded grammar. -/
def tEpsRight : Tree :=
  .node "S -> S S X" [.node "S -> b" [.leaf "b" "b"],
    .node "S -> S S X" [.node "S -> b" [.leaf "b" "b"],
      .node "S -> b" [.leaf "b" "b"], .node "X -> " []], .node "X -> " []]

/-- The unique tree of `math_grammar_test` for "1+(2*3-4)": the root is
`Sum -> Sum [+-] Mul` and inside the parentheses `Mul -> Mul [*/] Pow`
groups `2*3` before `- 4` is applied at the `Sum` level. -/
def tMathPrec : Tree :=
  .node "Sum -> Sum [+-] Mul" [.node "Sum -> Mul" [.node "Mul -> Pow"
    [.node "Pow -> Num" [.node "Num -> Number" [.leaf "Number" "1"]]]],
    .leaf "[+-]" "+", .node "Mul -> Pow" [.node "Pow -> Num"
    [.node "Num -> ( Sum )" [.leaf "(" "(",
      .node "Sum -> Sum [+-] Mul" [.node "Sum -> Mul"
        [.node "Mul -> Mul [*/] Pow" [.node "Mul -> Pow" [.node "Pow -> Num"
          [.node "Num -> Number" [.leaf "Number" "2"]]], .leaf "[*/]" "*",
          .node "Pow -> Num" [.node "Num -> Number" [.leaf "Number" "3"]]]],
        .leaf "[+-]" "-", .node "Mul -> Pow" [.node "Pow -> Num"
          [.node "Num -> Number" [.leaf "Number" "4"]]]],
      .leaf ")" ")"]]]]

/-- The 42 trees of the `math_ambiguous` test for "0*1*2*3*4*5", in the
order the enumeration produces them: one per binary association of the
six operands. -/
def c4Trees : List Tree := [
  .node "E -> E * E" [.node "E -> E * E" [.node "E -> E * E" [.node "E -> E * E" [.node "E -> E * E" [.node "E -> n" [.leaf "n" "0"], .leaf "*" "*", .node "E -> n" [.leaf "n" "1"]], .leaf "*" "*", .node "E -> n" [.leaf "n" "2"]], .leaf "*" "*", .node "E -> n" [.leaf "n" "3"]], .leaf "*" "*", .node "E -> n" [.leaf "n" "4"]], .leaf "*" "*", .node "E -> n" [.leaf "n" "5"]],
  .node "E -> E * E" [.node "E -> E * E" [.node "E -> E * E" [.node "E -> E * E" [.node "E -> n" [.leaf "n" "0"], .leaf "*" "*", .node "E -> E * E" [.node "E -> n" [.leaf "n" "1"], .leaf "*" "*", .node "E -> n" [.leaf "n" "2"]]], .leaf "*" "*", .node "E -> n" [.leaf "n" "3"]], .leaf "*" "*", .node "E -> n" [.leaf "n" "4"]], .leaf "*" "*", .node "E -> n" [.leaf "n" "5"]],
  .node "E -> E * E" [.node "E -> E * E" [.node "E -> E * E" [.node "E -> E * E" [.node "E -> n" [.leaf "n" "0"], .leaf "*" "*", .node "E -> n" [.leaf "n" "1"]], .leaf "*" "*", .node "E -> E * E" [.node "E -> n" [.leaf "n" "2"], .leaf "*" "*", .node "E -> n" [.leaf "n" "3"]]], .leaf "*" "*", .node "E -> n" [.leaf "n" "4"]], .leaf "*" "*", .node "E -> n" [.leaf "n" "5"]],
  .node "E -> E * E" [.node "E -> E * E" [.node "E -> E * E" [.node "E -> n" [.leaf "n" "0"], .leaf "*" "*", .node "E -> E * E" [.node "E -> E * E" [.node "E -> n" [.leaf "n" "1"], .leaf "*" "*", .node "E -> n" [.leaf "n" "2"]], .leaf "*" "*", .node "E -> n" [.leaf "n" "3"]]], .leaf "*" "*", .node "E -> n" [.leaf "n" "4"]], .leaf "*" "*", .node "E -> n" [.leaf "n" "5"]],
  .node "E -> E * E" [.node "E -> E * E" [.node "E -> E * E" [.node "E -> n" [.leaf "n" "0"], .leaf "*" "*", .node "E -> E * E" [.node "E -> n" [.leaf "n" "1"], .leaf "*" "*", .node "E -> E * E" [.node "E -> n" [.leaf "n" "2"], .leaf "*" "*", .node "E -> n" [.leaf "n" "3"]]]], .leaf "*" "*", .node "E -> n" [.leaf "n" "4"]], .leaf "*" "*", .node "E -> n" [.leaf "n" "5"]],
  .node "E -> E * E" [.node "E -> E * E" [.node "E -> E * E" [.node "E -> E * E" [.node "E -> n" [.leaf "n" "0"], .leaf "*" "*", .node "E -> n" [.leaf "n" "1"]], .leaf "*" "*", .node "E -> n" [.leaf "n" "2"]], .leaf "*" "*", .node "E -> E * E" [.node "E -> n" [.leaf "n" "3"], .leaf "*" "*", .node "E -> n" [.leaf "n" "4"]]], .leaf "*" "*", .node "E -> n" [.leaf "n" "5"]],
  .node "E -> E * E" [.node "E -> E * E" [.node "E -> E * E" [.node "E -> n" [.leaf "n" "0"], .leaf "*" "*", .node "E -> E * E" [.node "E -> n" [.leaf "n" "1"], .leaf "*" "*", .node "E -> n" [.leaf "n" "2"]]], .leaf "*" "*", .node "E -> E * E" [.node "E -> n" [.leaf "n" "3"], .leaf "*" "*", .node "E -> n" [.leaf "n" "4"]]], .leaf "*" "*", .node "E -> n" [.leaf "n" "5"]],
  .node "E -> E * E" [.node "E -> E * E" [.node "E -> E * E" [.node "E -> n" [.leaf "n" "0"], .leaf "*" "*", .node "E -> n" [.leaf "n" "1"]], .leaf "*" "*", .node "E -> E * E" [.node "E -> E * E" [.node "E -> n" [.leaf "n" "2"], .leaf "*" "*", .node "E -> n" [.leaf "n" "3"]], .leaf "*" "*", .node "E -> n" [.leaf "n" "4"]]], .leaf "*" "*", .node "E -> n" [.leaf "n" "5"]],
  .node "E -> E * E" [.node "E -> E * E" [.node "E -> E * E" [.node "E -> n" [.leaf "n" "0"], .leaf "*" "*", .node "E -> n" [.leaf "n" "1"]], .leaf "*" "*", .node "E -> E * E" [.node "E -> n" [.leaf "n" "2"], .leaf "*" "*", .node "E -> E * E" [.node "E -> n" [.leaf "n" "3"], .leaf "*" "*", .node "E -> n" [.leaf "n" "4"]]]], .leaf "*" "*", .node "E -> n" [.leaf "n" "5"]],
  .node "E -> E * E" [.node "E -> E * E" [.node "E -> n" [.leaf "n" "0"], .leaf "*" "*", .node "E -> E * E" [.node "E -> E * E" [.node "E -> E * E" [.node "E -> n" [.leaf "n" "1"], .leaf "*" "*", .node "E -> n" [.leaf "n" "2"]], .leaf "*" "*", .node "E -> n" [.leaf "n" "3"]], .leaf "*" "*", .node "E -> n" [.leaf "n" "4"]]], .leaf "*" "*", .node "E -> n" [.leaf "n" "5"]],
  .node "E -> E * E" [.node "E -> E * E" [.node "E -> n" [.leaf "n" "0"], .leaf "*" "*", .node "E -> E * E" [.node "E -> E * E" [.node "E -> n" [.leaf "n" "1"], .leaf "*" "*", .node "E -> E * E" [.node "E -> n" [.leaf "n" "2"], .leaf "*" "*", .node "E -> n" [.leaf "n" "3"]]], .leaf "*" "*", .node "E -> n" [.leaf "n" "4"]]], .leaf "*" "*", .node "E -> n" [.leaf "n" "5"]],
  .node "E -> E * E" [.node "E -> E * E" [.node "E -> n" [.leaf "n" "0"], .leaf "*" "*", .node "E -> E * E" [.node "E -> E * E" [.node "E -> n" [.leaf "n" "1"], .leaf "*" "*", .node "E -> n" [.leaf "n" "2"]], .leaf "*" "*", .node "E -> E * E" [.node "E -> n" [.leaf "n" "3"], .leaf "*" "*", .node "E -> n" [.leaf "n" "4"]]]], .leaf "*" "*", .node "E -> n" [.leaf "n" "5"]],
  .node "E -> E * E" [.node "E -> E * E" [.node "E -> n" [.leaf "n" "0"], .leaf "*" "*", .node "E -> E * E" [.node "E -> n" [.leaf "n" "1"], .leaf "*" "*", .node "E -> E * E" [.node "E -> E * E" [.node "E -> n" [.leaf "n" "2"], .leaf "*" "*", .node "E -> n" [.leaf "n" "3"]], .leaf "*" "*", .node "E -> n" [.leaf "n" "4"]]]], .leaf "*" "*", .node "E -> n" [.leaf "n" "5"]],
  .node "E -> E * E" [.node "E -> E * E" [.node "E -> n" [.leaf "n" "0"], .leaf "*" "*", .node "E -> E * E" [.node "E -> n" [.leaf "n" "1"], .leaf "*" "*", .node "E -> E * E" [.node "E -> n" [.leaf "n" "2"], .leaf "*" "*", .node "E -> E * E" [.node "E -> n" [.leaf "n" "3"], .leaf "*" "*", .node "E -> n" [.leaf "n" "4"]]]]], .leaf "*" "*", .node "E -> n" [.leaf "n" "5"]],
  .node "E -> E * E" [.node "E -> E * E" [.node "E -> E * E" [.node "E -> E * E" [.node "E -> n" [.leaf "n" "0"], .leaf "*" "*", .node "E -> n" [.leaf "n" "1"]], .leaf "*" "*", .node "E -> n" [.leaf "n" "2"]], .leaf "*" "*", .node "E -> n" [.leaf "n" "3"]], .leaf "*" "*", .node "E -> E * E" [.node "E -> n" [.leaf "n" "4"], .leaf "*" "*", .node "E -> n" [.leaf "n" "5"]]],
  .node "E -> E * E" [.node "E -> E * E" [.node "E -> E * E" [.node "E -> n" [.leaf "n" "0"], .leaf "*" "*", .node "E -> E * E" [.node "E -> n" [.leaf "n" "1"], .leaf "*" "*", .node "E -> n" [.leaf "n" "2"]]], .leaf "*" "*", .node "E -> n" [.leaf "n" "3"]], .leaf "*" "*", .node "E -> E * E" [.node "E -> n" [.leaf "n" "4"], .leaf "*" "*", .node "E -> n" [.leaf "n" "5"]]],
  .node "E -> E * E" [.node "E -> E * E" [.node "E -> E * E" [.node "E -> n" [.leaf "n" "0"], .leaf "*" "*", .node "E -> n" [.leaf "n" "1"]], .leaf "*" "*", .node "E -> E * E" [.node "E -> n" [.leaf "n" "2"], .leaf "*" "*", .node "E -> n" [.leaf "n" "3"]]], .leaf "*" "*", .node "E -> E * E" [.node "E -> n" [.leaf "n" "4"], .leaf "*" "*", .node "E -> n" [.leaf "n" "5"]]],
  .node "E -> E * E" [.node "E -> E * E" [.node "E -> n" [.leaf "n" "0"], .leaf "*" "*", .node "E -> E * E" [.node "E -> E * E" [.node "E -> n" [.leaf "n" "1"], .leaf "*" "*", .node "E -> n" [.leaf "n" "2"]], .leaf "*" "*", .node "E -> n" [.leaf "n" "3"]]], .leaf "*" "*", .node "E -> E * E" [.node "E -> n" [.leaf "n" "4"], .leaf "*" "*", .node "E -> n" [.leaf "n" "5"]]],
  .node "E -> E * E" [.node "E -> E * E" [.node "E -> n" [.leaf "n" "0"], .leaf "*" "*", .node "E -> E * E" [.node "E -> n" [.leaf "n" "1"], .leaf "*" "*", .node "E -> E * E" [.node "E -> n" [.leaf "n" "2"], .leaf "*" "*", .node "E -> n" [.leaf "n" "3"]]]], .leaf "*" "*", .node "E -> E * E" [.node "E -> n" [.leaf "n" "4"], .leaf "*" "*", .node "E -> n" [.leaf "n" "5"]]],
  .node "E -> E * E" [.node "E -> E * E" [.node "E -> E * E" [.node "E -> n" [.leaf "n" "0"], .leaf "*" "*", .node "E -> n" [.leaf "n" "1"]], .leaf "*" "*", .node "E -> n" [.leaf "n" "2"]], .leaf "*" "*", .node "E -> E * E" [.node "E -> E * E" [.node "E -> n" [.leaf "n" "3"], .leaf "*" "*", .node "E -> n" [.leaf "n" "4"]], .leaf "*" "*", .node "E -> n" [.leaf "n" "5"]]],
  .node "E -> E * E" [.node "E -> E * E" [.node "E -> E * E" [.node "E -> n" [.leaf "n" "0"], .leaf "*" "*", .node "E -> n" [.leaf "n" "1"]], .leaf "*" "*", .node "E -> n" [.leaf "n" "2"]], .leaf "*" "*", .node "E -> E * E" [.node "E -> n" [.leaf "n" "3"], .leaf "*" "*", .node "E -> E * E" [.node "E -> n" [.leaf "n" "4"], .leaf "*" "*", .node "E -> n" [.leaf "n" "5"]]]],
  .node "E -> E * E" [.node "E -> E * E" [.node "E -> n" [.leaf "n" "0"], .leaf "*" "*", .node "E -> E * E" [.node "E -> n" [.leaf "n" "1"], .leaf "*" "*", .node "E -> n" [.leaf "n" "2"]]], .leaf "*" "*", .node "E -> E * E" [.node "E -> E * E" [.node "E -> n" [.leaf "n" "3"], .leaf "*" "*", .node "E -> n" [.leaf "n" "4"]], .leaf "*" "*", .node "E -> n" [.leaf "n" "5"]]],
  .node "E -> E * E" [.node "E -> E * E" [.node "E -> n" [.leaf "n" "0"], .leaf "*" "*", .node "E -> E * E" [.node "E -> n" [.leaf "n" "1"], .leaf "*" "*", .node "E -> n" [.leaf "n" "2"]]], .leaf "*" "*", .node "E -> E * E" [.node "E -> n" [.leaf "n" "3"], .leaf "*" "*", .node "E -> E * E" [.node "E -> n" [.leaf "n" "4"], .leaf "*" "*", .node "E -> n" [.leaf "n" "5"]]]],
  .node "E -> E * E" [.node "E -> E * E" [.node "E -> n" [.leaf "n" "0"], .leaf "*" "*", .node "E -> n" [.leaf "n" "1"]], .leaf "*" "*", .node "E -> E * E" [.node "E -> E * E" [.node "E -> E * E" [.node "E -> n" [.leaf "n" "2"], .leaf "*" "*", .node "E -> n" [.leaf "n" "3"]], .leaf "*" "*", .node "E -> n" [.leaf "n" "4"]], .leaf "*" "*", .node "E -> n" [.leaf "n" "5"]]],
  .node "E -> E * E" [.node "E -> E * E" [.node "E -> n" [.leaf "n" "0"], .leaf "*" "*", .node "E -> n" [.leaf "n" "1"]], .leaf "*" "*", .node "E -> E * E" [.node "E -> E * E" [.node "E -> n" [.leaf "n" "2"], .leaf "*" "*", .node "E -> E * E" [.node "E -> n" [.leaf "n" "3"], .leaf "*" "*", .node "E -> n" [.leaf "n" "4"]]], .leaf "*" "*", .node "E -> n" [.leaf "n" "5"]]],
  .node "E -> E * E" [.node "E -> E * E" [.node "E -> n" [.leaf "n" "0"], .leaf "*" "*", .node "E -> n" [.leaf "n" "1"]], .leaf "*" "*", .node "E -> E * E" [.node "E -> E * E" [.node "E -> n" [.leaf "n" "2"], .leaf "*" "*", .node "E -> n" [.leaf "n" "3"]], .leaf "*" "*", .node "E -> E * E" [.node "E -> n" [.leaf "n" "4"], .leaf "*" "*", .node "E -> n" [.leaf "n" "5"]]]],
  .node "E -> E * E" [.node "E -> E * E" [.node "E -> n" [.leaf "n" "0"], .leaf "*" "*", .node "E -> n" [.leaf "n" "1"]], .leaf "*" "*", .node "E -> E * E" [.node "E -> n" [.leaf "n" "2"], .leaf "*" "*", .node "E -> E * E" [.node "E -> E * E" [.node "E -> n" [.leaf "n" "3"], .leaf "*" "*", .node "E -> n" [.leaf "n" "4"]], .leaf "*" "*", .node "E -> n" [.leaf "n" "5"]]]],
  .node "E -> E * E" [.node "E -> E * E" [.node "E -> n" [.leaf "n" "0"], .leaf "*" "*", .node "E -> n" [.leaf "n" "1"]], .leaf "*" "*", .node "E -> E * E" [.node "E -> n" [.leaf "n" "2"], .leaf "*" "*", .node "E -> E * E" [.node "E -> n" [.leaf "n" "3"], .leaf "*" "*", .node "E -> E * E" [.node "E -> n" [.leaf "n" "4"], .leaf "*" "*", .node "E -> n" [.leaf "n" "5"]]]]],
  .node "E -> E * E" [.node "E -> n" [.leaf "n" "0"], .leaf "*" "*", .node "E -> E * E" [.node "E -> E * E" [.node "E -> E * E" [.node "E -> E * E" [.node "E -> n" [.leaf "n" "1"], .leaf "*" "*", .node "E -> n" [.leaf "n" "2"]], .leaf "*" "*", .node "E -> n" [.leaf "n" "3"]], .leaf "*" "*", .node "E -> n" [.leaf "n" "4"]], .leaf "*" "*", .node "E -> n" [.leaf "n" "5"]]],
  .node "E -> E * E" [.node "E -> n" [.leaf "n" "0"], .leaf "*" "*", .node "E -> E * E" [.node "E -> E * E" [.node "E -> E * E" [.node "E -> n" [.leaf "n" "1"], .leaf "*" "*", .node "E -> E * E" [.node "E -> n" [.leaf "n" "2"], .leaf "*" "*", .node "E -> n" [.leaf "n" "3"]]], .leaf "*" "*", .node "E -> n" [.leaf "n" "4"]], .leaf "*" "*", .node "E -> n" [.leaf "n" "5"]]],
  .node "E -> E * E" [.node "E -> n" [.leaf "n" "0"], .leaf "*" "*", .node "E -> E * E" [.node "E -> E * E" [.node "E -> E * E" [.node "E -> n" [.leaf "n" "1"], .leaf "*" "*", .node "E -> n" [.leaf "n" "2"]], .leaf "*" "*", .node "E -> E * E" [.node "E -> n" [.leaf "n" "3"], .leaf "*" "*", .node "E -> n" [.leaf "n" "4"]]], .leaf "*" "*", .node "E -> n" [.leaf "n" "5"]]],
  .node "E -> E * E" [.node "E -> n" [.leaf "n" "0"], .leaf "*" "*", .node "E -> E * E" [.node "E -> E * E" [.node "E -> n" [.leaf "n" "1"], .leaf "*" "*", .node "E -> E * E" [.node "E -> E * E" [.node "E -> n" [.leaf "n" "2"], .leaf "*" "*", .node "E -> n" [.leaf "n" "3"]], .leaf "*" "*", .node "E -> n" [.leaf "n" "4"]]], .leaf "*" "*", .node "E -> n" [.leaf "n" "5"]]],
  .node "E -> E * E" [.node "E -> n" [.leaf "n" "0"], .leaf "*" "*", .node "E -> E * E" [.node "E -> E * E" [.node "E -> n" [.leaf "n" "1"], .leaf "*" "*", .node "E -> E * E" [.node "E -> n" [.leaf "n" "2"], .leaf "*" "*", .node "E -> E * E" [.node "E -> n" [.leaf "n" "3"], .leaf "*" "*", .node "E -> n" [.leaf "n" "4"]]]], .leaf "*" "*", .node "E -> n" [.leaf "n" "5"]]],
  .node "E -> E * E" [.node "E -> n" [.leaf "n" "0"], .leaf "*" "*", .node "E -> E * E" [.node "E -> E * E" [.node "E -> E * E" [.node "E -> n" [.leaf "n" "1"], .leaf "*" "*", .node "E -> n" [.leaf "n" "2"]], .leaf "*" "*", .node "E -> n" [.leaf "n" "3"]], .leaf "*" "*", .node "E -> E * E" [.node "E -> n" [.leaf "n" "4"], .leaf "*" "*", .node "E -> n" [.leaf "n" "5"]]]],
  .node "E -> E * E" [.node "E -> n" [.leaf "n" "0"], .leaf "*" "*", .node "E -> E * E" [.node "E -> E * E" [.node "E -> n" [.leaf "n" "1"], .leaf "*" "*", .node "E -> E * E" [.node "E -> n" [.leaf "n" "2"], .leaf "*" "*", .node "E -> n" [.leaf "n" "3"]]], .leaf "*" "*", .node "E -> E * E" [.node "E -> n" [.leaf "n" "4"], .leaf "*" "*", .node "E -> n" [.leaf "n" "5"]]]],
  .node "E -> E * E" [.node "E -> n" [.leaf "n" "0"], .leaf "*" "*", .node "E -> E * E" [.node "E -> E * E" [.node "E -> n" [.leaf "n" "1"], .leaf "*" "*", .node "E -> n" [.leaf "n" "2"]], .leaf "*" "*", .node "E -> E * E" [.node "E -> E * E" [.node "E -> n" [.leaf "n" "3"], .leaf "*" "*", .node "E -> n" [.leaf "n" "4"]], .leaf "*" "*", .node "E -> n" [.leaf "n" "5"]]]],
  .node "E -> E * E" [.node "E -> n" [.leaf "n" "0"], .leaf "*" "*", .node "E -> E * E" [.node "E -> E * E" [.node "E -> n" [.leaf "n" "1"], .leaf "*" "*", .node "E -> n" [.leaf "n" "2"]], .leaf "*" "*", .node "E -> E * E" [.node "E -> n" [.leaf "n" "3"], .leaf "*" "*", .node "E -> E * E" [.node "E -> n" [.leaf "n" "4"], .leaf "*" "*", .node "E -> n" [.leaf "n" "5"]]]]],
  .node "E -> E * E" [.node "E -> n" [.leaf "n" "0"], .leaf "*" "*", .node "E -> E * E" [.node "E -> n" [.leaf "n" "1"], .leaf "*" "*", .node "E -> E * E" [.node "E -> E * E" [.node "E -> E * E" [.node "E -> n" [.leaf "n" "2"], .leaf "*" "*", .node "E -> n" [.leaf "n" "3"]], .leaf "*" "*", .node "E -> n" [.leaf "n" "4"]], .leaf "*" "*", .node "E -> n" [.leaf "n" "5"]]]],
  .node "E -> E * E" [.node "E -> n" [.leaf "n" "0"], .leaf "*" "*", .node "E -> E * E" [.node "E -> n" [.leaf "n" "1"], .leaf "*" "*", .node "E -> E * E" [.node "E -> E * E" [.node "E -> n" [.leaf "n" "2"], .leaf "*" "*", .node "E -> E * E" [.node "E -> n" [.leaf "n" "3"], .leaf "*" "*", .node "E -> n" [.leaf "n" "4"]]], .leaf "*" "*", .node "E -> n" [.leaf "n" "5"]]]],
  .node "E -> E * E" [.node "E -> n" [.leaf "n" "0"], .leaf "*" "*", .node "E -> E * E" [.node "E -> n" [.leaf "n" "1"], .leaf "*" "*", .node "E -> E * E" [.node "E -> E * E" [.node "E -> n" [.leaf "n" "2"], .leaf "*" "*", .node "E -> n" [.leaf "n" "3"]], .leaf "*" "*", .node "E -> E * E" [.node "E -> n" [.leaf "n" "4"], .leaf "*" "*", .node "E -> n" [.leaf "n" "5"]]]]],
  .node "E -> E * E" [.node "E -> n" [.leaf "n" "0"], .leaf "*" "*", .node "E -> E * E" [.node "E -> n" [.leaf "n" "1"], .leaf "*" "*", .node "E -> E * E" [.node "E -> n" [.leaf "n" "2"], .leaf "*" "*", .node "E -> E * E" [.node "E -> E * E" [.node "E -> n" [.leaf "n" "3"], .leaf "*" "*", .node "E -> n" [.leaf "n" "4"]], .leaf "*" "*", .node "E -> n" [.leaf "n" "5"]]]]],
  .node "E -> E * E" [.node "E -> n" [.leaf "n" "0"], .leaf "*" "*", .node "E -> E * E" [.node "E -> n" [.leaf "n" "1"], .leaf "*" "*", .node "E -> E * E" [.node "E -> n" [.leaf "n" "2"], .leaf "*" "*", .node "E -> E * E" [.node "E -> n" [.leaf "n" "3"], .leaf "*" "*", .node "E -> E * E" [.node "E -> n" [.leaf "n" "4"], .leaf "*" "*", .node "E -> n" [.leaf "n" "5"]]]]]]
]

end Earlgrey

namespace Earlgrey

/-- Modelled from the spec (section 8, Completeness; glossary "CFG"):
derivability of a token string from a sequence of symbol names.  The
empty sequence derives the empty string; a terminal derives any one
lexeme its predicate accepts; a nonterminal derives, through any of its
rules, the concatenation of strings derived by the rule body.  A
finite derivation of the grammar is a `SymDerives` witness for the body
of a start rule. -/
inductive SymDerives (g : Grammar) : List String → List String → Prop where
  | nil : SymDerives g [] []
  | consTerm (name : String) (pred : String → Bool) (lex : String)
      (ns ts : List String) :
      lookupSym g.symbols name = some (.term name pred) → pred lex = true →
      SymDerives g ns ts → SymDerives g (name :: ns) (lex :: ts)
  | consNT (r : GRule) (ns ts1 ts2 : List String) :
      r ∈ g.rules → SymDerives g r.body ts1 → SymDerives g ns ts2 →
      SymDerives g (r.head :: ns) (ts1 ++ ts2)

/-- The item tuples of a state set, in order, without their derivation
sets. -/
def items (ss : StateSet) : List EItem := ss.map Prod.fst

/-- An item admissible in state set `bound`: its rule index is in range,
its dot within the rule body, and its start position at most `bound`
(the item-count bound of spec section 4.2). -/
def ValidItem (g : Grammar) (bound : Nat) (it : EItem) : Prop :=
  (∃ r, g.rules.get? it.rule = some r ∧ it.dot ≤ r.body.length) ∧ it.start ≤ bound

/-- Number of dot positions contributed by the first `k` rules. -/
def slotBase (g : Grammar) (k : Nat) : Nat :=
  (g.rules.take k).foldl (fun acc r => acc + r.body.length + 1) 0

/-- Injective encoding of valid items below `ruleSlots g * (bound + 1)`. -/
def itemCode (g : Grammar) (bound : Nat) (it : EItem) : Nat :=
  (slotBase g it.rule + it.dot) * (bound + 1) + it.start

/-- The token string `ts` occurs in `toks` starting at position `i`. -/
def sliceAt (toks : List String) (i : Nat) (ts : List String) : Prop :=
  (toks.drop i).take ts.length = ts

/-- The Earley consequences of one item of state set `i` (spec section
4.2, steps 1-3), as membership obligations on the item lists `curI`
(state set `i`) and `nxtI` (state set `i + 1`): predictions and
nullable-advances land in `curI`, scans in `nxtI`, and completions (of
non-epsilon spans) advance every matching predecessor of the cause's
start set into `curI`. -/
def StepConsequences (g : Grammar) (nulls : List String) (prev : List StateSet)
    (i : Nat) (tok : Option String) (it : EItem) (curI nxtI : List EItem) : Prop :=
  (∀ sym x, nextSym g it = some sym → lookupSym g.symbols sym = some (.nt x) →
    (∀ k r', g.rules.get? k = some r' → r'.head = sym → EItem.mk k 0 i ∈ curI) ∧
    (nulls.contains sym = true →
      EItem.mk it.rule (it.dot + 1) it.start ∈ curI)) ∧
  (∀ sym nm pred lex, nextSym g it = some sym →
    lookupSym g.symbols sym = some (.term nm pred) →
    tok = some lex → pred lex = true →
    EItem.mk it.rule (it.dot + 1) it.start ∈ nxtI) ∧
  (∀ r, ruleOf g it = some r → nextSym g it = none → it.start ≠ i →
    ∀ ss, prev.get? it.start = some ss →
    ∀ pe, pe ∈ ss → nextSym g pe.fst = some r.head →
    EItem.mk pe.fst.rule (pe.fst.dot + 1) pe.fst.start ∈ curI)

/-- State set `i` of a completed chart is closed under the Earley
consequences of each of its items, relative to the chart. -/
def ChartClosedAt (g : Grammar) (toks : List String) (R : List StateSet)
    (i : Nat) : Prop :=
  ∀ ss, R.get? i = some ss → ∀ it, it ∈ items ss →
    StepConsequences g (nullableSet g) (R.take i) i (toks.get? i) it
      (items ss) (items ((R.get? (i + 1)).getD []))

end Earlgrey

namespace Earlgrey

/-- The compiled grammar of the left-recursive builder (the fallback arm
is unreachable: construction succeeds). -/
def gLeftRec : Grammar :=
  match bLeftRec.intoGrammar "S" with
  | .ok g => g
  | .error _ => ⟨[], [], "S"⟩

end Earlgrey


namespace Earlgrey

mutual

/-- Number of leaves of a tree: a leaf counts one, a node the sum over
its children.  A subtree's leaf count is the number of input tokens its
span covers. -/
def Tree.leafCount : Tree → Nat
  | .leaf _ _ => 1
  | .node _ kids => Tree.leafCountList kids

def Tree.leafCountList : List Tree → Nat
  | [] => 0
  | t :: ts => Tree.leafCount t + Tree.leafCountList ts

end

/-- The derivation-level invariant of state set `i`: a dot-0 item starts
at `i`; derivation sets are duplicate-free; a Complete derivation points
at a complete cause of the same set spanning from strictly before `i`;
a Scan derivation only occurs from set 1 on. -/
def DerivInv (g : Grammar) (i : Nat) (ss : StateSet) : Prop :=
  (∀ p ∈ ss, p.fst.dot = 0 → p.fst.start = i) ∧
  (∀ p ∈ ss, p.snd.Nodup) ∧
  (∀ p ∈ ss, ∀ j, Deriv.complete j ∈ p.snd →
    ∃ c, (items ss).get? j = some c ∧ isComplete g c = true ∧ c.start < i) ∧
  (∀ p ∈ ss, ∀ lex, Deriv.scan lex ∈ p.snd → 1 ≤ i)

end Earlgrey


namespace Earlgrey

end Earlgrey


namespace Lox

/-- Token types of the lox scanner (`lox/src/lox_scanner.rs`, whose
declaration is consumed by the sources at hand): the variants used by
`lox_parser.rs` and `lox_interpreter.rs`.  The `f64` payload of `Num` is
modelled as a rational number. -/
inductive TT where
  | OPAREN | CPAREN | OBRACE | CBRACE | SEMICOLON | ASSIGN
  | EQ | NE | GT | GE | LT | LE | MINUS | PLUS | SLASH | STAR
  | BANG | DOLLAR | AND | OR | TRUE | FALSE | NIL | VAR | PRINT
  | IF | ELSE | WHILE | FOR
  | Str (s : String) | Id (s : String) | Num (n : ℚ)
deriving DecidableEq

/-- A scanned token: its type, lexeme and source line. -/
structure Token where
  token : TT
  lexeme : String
  line : Nat
deriving DecidableEq

/-- Modelled from the spec (section 1: the tokenizer/scanner is an
external collaborator exposing a cursor with `peek`, `next` and
positional backtracking over a finite token sequence): a position into a
fixed token buffer. -/
structure Scanner where
  buf : List Token
  pos : Nat
deriving DecidableEq

/-- Modelled from the spec: `Scanner::next` returns the token under the
cursor and advances, or `None` at the end of the buffer. -/
def Scanner.next (s : Scanner) : Option Token × Scanner :=
  match s.buf.get? s.pos with
  | some t => (some t, { s with pos := s.pos + 1 })
  | none => (none, s)

/-- Modelled from the spec: `Scanner::set_pos` repositions the cursor
(positional backtracking). -/
def Scanner.setPos (s : Scanner) (p : Nat) : Scanner := { s with pos := p }

/-- The parser state of `lox_parser.rs`: the scanner plus the error
flag. -/
structure LoxParser where
  scanner : Scanner
  errors : Bool
deriving DecidableEq

/-- The token-type comparison inside `LoxParser::accept`
(`lox_parser.rs` lines 48-53): payload-carrying variants match on the
variant alone, all others by equality. -/
def ttMatch (tok ttype : TT) : Bool :=
  match tok with
  | .Str _ => (match ttype with | .Str _ => true | _ => false)
  | .Id _ => (match ttype with | .Id _ => true | _ => false)
  | .Num _ => (match ttype with | .Num _ => true | _ => false)
  | other => other == ttype

/-- `LoxParser::accept` (`lox_parser.rs` lines 45-58): remember the
scanner position, take the next token, and if its type matches a member
of `tokenTypes` return true (leaving the token consumed); otherwise
backtrack to the remembered position and return false. -/
def LoxParser.accept (p : LoxParser) (tokenTypes : List TT) : Bool × LoxParser :=
  let backtrack := p.scanner.pos
  match p.scanner.next with
  | (some token, s1) =>
    let found := tokenTypes.any (fun ttype => ttMatch token.token ttype)
    if found then (true, { p with scanner := s1 })
    else (false, { p with scanner := s1.setPos backtrack })
  | (none, s1) => (false, { p with scanner := s1.setPos backtrack })

/-- Runtime values of the lox interpreter (`lox_interpreter.rs`, enum
`V`).  The `Rc<Callable>` payload is modelled by the callable's `id`
string, which is what the interpreter's equality and printing use. -/
inductive V where
  | Nil
  | Num (n : ℚ)
  | Bool (b : Bool)
  | Str (s : String)
  | Callable (id : String)
deriving DecidableEq

/-- `V::is_truthy` (`lox_interpreter.rs` lines 28-34): nil and false are
falsy, everything else truthy. -/
def V.is_truthy (v : V) :=
  match v with
  | .Nil => false
  | .Bool b => b
  | _ => true

/-- `Debug`/`Display` printing of values (`lox_interpreter.rs` lines
55-71), used by string concatenation. -/
def V.debugStr : V → String
  | .Nil => "nil"
  | .Bool b => if b then "true" else "false"
  | .Num n => toString n
  | .Str s => "\"" ++ s ++ "\""
  | .Callable c => "\"" ++ c ++ "\""

/-- `V::num` (`lox_interpreter.rs` lines 35-40). -/
def V.num : V → Except String ℚ
  | .Num n => .ok n
  | o => .error ("expected V::Num, found " ++ o.debugStr)

/-- `V::str` (`lox_interpreter.rs` lines 41-46). -/
def V.str : V → Except String String
  | .Str s => .ok s
  | o => .error ("expected V::Str, found " ++ o.debugStr)

/-- Expressions of the lox parser (`lox_parser.rs`, enum `Expr`). -/
inductive Expr where
  | Logical (lhs : Expr) (op : Token) (rhs : Expr)
  | Binary (lhs : Expr) (op : Token) (rhs : Expr)
  | Unary (op : Token) (e : Expr)
  | Bool (b : Bool)
  | Nil
  | Num (n : ℚ)
  | Str (s : String)
  | Grouping (e : Expr)
  | Var (name : String)
  | Assign (name : String) (e : Expr)

/-- Modelled from the spec (the environment lives in the out-of-scope
`lox_environment.rs`): a flat list of bindings; `get` and `assign` fail
on undefined variables, `assign` updates in place. -/
def Env := List (String × V)

/-- Environment lookup. -/
def Env.get (env : Env) (name : String) : Except String V :=
  match List.find? (fun p => p.fst == name) env with
  | some p => .ok p.snd
  | none => .error ("undefined variable " ++ name)

/-- Environment assignment: update an existing binding, error when the
variable is not defined. -/
def Env.assign (env : Env) (name : String) (v : V) : Except String (V × Env) :=
  if List.any env (fun p => p.fst == name) then
    .ok (v, List.map (fun p => if p.fst == name then (name, v) else p) env)
  else .error ("undefined variable " ++ name)

/-- `LoxInterpreter::eval` (`lox_interpreter.rs` lines 142-211), with the
mutable interpreter environment threaded explicitly: evaluation returns
the value together with the possibly-updated environment, and `?`
becomes `Except` propagation.  The `Expr::Call` arm of the interpreter
matches a constructor that the parser's `Expr` (the declaration in the
sources) does not have, so it has no counterpart here. -/
def eval : Env → Expr → Except String (V × Env)
  | env, .Nil => .ok (.Nil, env)
  | env, .Num n => .ok (.Num n, env)
  | env, .Str s => .ok (.Str s, env)
  | env, .Bool b => .ok (.Bool b, env)
  | env, .Grouping e => eval env e
  | env, .Unary op e => do
    let (v, env1) ← eval env e
    match op.token with
    | .MINUS => (v.num).map (fun n => (.Num (-n), env1))
    | .BANG => .ok (.Bool (!v.is_truthy), env1)
    | .DOLLAR => (v.str).bind (fun s => (Env.get env1 s).map (fun w => (w, env1)))
    | _ => .error "LoxIntepreter: bad Unary op"
  | env, .Binary lhs op rhs => do
    let (lv, env1) ← eval env lhs
    let (rv, env2) ← eval env1 rhs
    match op.token with
    | .SLASH => do
      let a ← lv.num
      let b ← rv.num
      .ok (.Num (a / b), env2)
    | .STAR => do
      let a ← lv.num
      let b ← rv.num
      .ok (.Num (a * b), env2)
    | .MINUS => do
      let a ← lv.num
      let b ← rv.num
      .ok (.Num (a - b), env2)
    | .PLUS =>
      match lv, rv with
      | .Num l, .Num r => .ok (.Num (l + r), env2)
      | .Str l, .Str r => .ok (.Str (l ++ r), env2)
      | .Str l, other => .ok (.Str (l ++ other.debugStr), env2)
      | other, .Str r => .ok (.Str (other.debugStr ++ r), env2)
      | _, _ => .error ("cant " ++ lv.debugStr ++ " + " ++ rv.debugStr)
    | .GT => do
      let a ← lv.num
      let b ← rv.num
      .ok (.Bool (decide (a > b)), env2)
    | .GE => do
      let a ← lv.num
      let b ← rv.num
      .ok (.Bool (decide (a ≥ b)), env2)
    | .LT => do
      let a ← lv.num
      let b ← rv.num
      .ok (.Bool (decide (a < b)), env2)
    | .LE => do
      let a ← lv.num
      let b ← rv.num
      .ok (.Bool (decide (a ≤ b)), env2)
    | .EQ => .ok (.Bool (decide (lv = rv)), env2)
    | .NE => .ok (.Bool (decide (lv ≠ rv)), env2)
    | _ => .error "LoxIntepreter: bad binop"
  | env, .Logical lhs op rhs => do
    let (lv, env1) ← eval env lhs
    match op.token with
    | .OR => if lv.is_truthy then .ok (lv, env1) else eval env1 rhs
    | .AND => if !lv.is_truthy then .ok (lv, env1) else eval env1 rhs
    | _ => eval env1 rhs
  | env, .Var name => (Env.get env name).map (fun v => (v, env))
  | env, .Assign name e => do
    let (v, env1) ← eval env e
    Env.assign env1 name v

/-- A one-token parser state used to witness the accept theorem on a
concrete input. -/
def acceptP : LoxParser := ⟨⟨[⟨.PLUS, "+", 1⟩], 0⟩, false⟩

end Lox

namespace Earlgrey

set_option maxRecDepth 1000000 in
set_option maxHeartbeats 2000000 in
/-- Claim C1: for the grammar S -> SS | b on the input of three b tokens,
parsing succeeds and eval_all returns exactly two trees, the left-linear
and the right-linear association, with no spurious third; for the
epsilon-padded grammar S -> S S X, X -> epsilon, S -> b on the same
input, eval_all returns exactly the two analogous trees, each with
Node("X -> ", []) children inserted. -/
theorem claim_C1_ambiguous_two_trees :
    runTrees bAmbiguous "S" toksBBB = some [tAmbLeft, tAmbRight] ∧
    runTrees bAmbiguousEps "S" toksBBB = some [tEpsLeft, tEpsRight] :=
  ⟨rfl, rfl⟩

set_option maxRecDepth 1000000 in
set_option maxHeartbeats 2000000 in
/-- Claim C3: on the unboundedly epsilon-ambiguous grammars
A -> epsilon | B, B -> A and P -> ( P ) | P P | epsilon, eval_one on
empty input terminates (it is a total function here) and returns the
canonical shortest epsilon-parse: Node("A -> ", []) respectively
Node("P -> ", []). -/
theorem claim_C3_epsilon_eval_one :
    runOne bBogusEmpty "A" [] = some (.node "A -> " []) ∧
    runOne bBogusEps "P" [] = some (.node "P -> " []) :=
  ⟨rfl, rfl⟩

set_option maxRecDepth 1000000 in
set_option maxHeartbeats 4000000 in
/-- Claim C4: for the grammar E -> E + E | E * E | n on the 6-operand
input 0*1*2*3*4*5, eval_all returns exactly the 42 = Catalan(5) listed
parse trees, pairwise distinct, one per binary association of the six
leaves. -/
theorem claim_C4_catalan_trees :
    runTrees bMathAmbiguous "E" toksCatalan = some c4Trees ∧
    c4Trees.length = 42 ∧ c4Trees.Nodup :=
  ⟨rfl, rfl, by decide⟩

set_option maxRecDepth 1000000 in
set_option maxHeartbeats 4000000 in
/-- Claim C6: for the precedence math grammar on "1+(2*3-4)", eval_all
returns exactly one tree, whose root rule is "Sum -> Sum [+-] Mul" and
in which "Mul -> Mul [*/] Pow" binds 2*3 tighter than -4 (see
`tMathPrec`), and eval_one returns that unique tree, an element of the
eval_all result. -/
theorem claim_C6_precedence_math :
    runTrees bMathPrec "Sum" toksMathPrec = some [tMathPrec] ∧
    runOne bMathPrec "Sum" toksMathPrec = some tMathPrec ∧
    tMathPrec ∈ [tMathPrec] :=
  ⟨rfl, rfl, by decide⟩

set_option maxRecDepth 1000000 in
set_option maxHeartbeats 2000000 in
/-- Claim C7: for the grammar E -> E + E | E * E | n on "3+4*2" with the
numeric leaf function and arithmetic actions, the semantic evaluator's
eval_all returns exactly the two values 11 and 14, one per parse of the
ambiguous input (f64 values modelled as integers on this integral
input). -/
theorem claim_C7_eval_actions :
    runValues evalActionsEv bSmallMath "E" toksActions = some (.ok [14, 11]) ∧
    (11 : Int) ∈ [(14 : Int), 11] ∧ (14 : Int) ∈ [(14 : Int), 11] :=
  ⟨rfl, by decide, by decide⟩

end Earlgrey

namespace Earlgrey

theorem items_insertItem (s : StateSet) (it : EItem) (d : Option Deriv) :
    items (insertItem s it d) =
      if it ∈ items s then items s else items s ++ [it] := by
  induction s with
  | nil => simp [insertItem, items]
  | cons e rest ih =>
    by_cases he : e.fst = it
    · subst he
      rw [if_pos (show e.fst ∈ items (e :: rest) by simp [items])]
      show items (insertItem (e :: rest) e.fst d) = items (e :: rest)
      unfold insertItem
      rw [if_pos rfl]
      cases d with
      | none => rfl
      | some dv =>
        by_cases hd : dv ∈ e.snd <;> simp [hd, items]
    · simp only [insertItem, if_neg he, items, List.map_cons]
      have hmem : (it ∈ e.fst :: List.map Prod.fst rest) ↔ (it ∈ List.map Prod.fst rest) := by
        constructor
        · intro h
          rcases List.mem_cons.mp h with h1 | h1
          · exact absurd h1.symm he
          · exact h1
        · exact fun h => List.mem_cons_of_mem _ h
      by_cases hm : it ∈ List.map Prod.fst rest
      · rw [if_pos (hmem.mpr hm)]
        simpa [items, hm] using congrArg (List.cons e.fst) (by simpa [items, hm] using ih)
      · rw [if_neg (fun h => hm (hmem.mp h))]
        simpa [items, hm] using congrArg (List.cons e.fst) (by simpa [items, hm] using ih)

theorem items_insertItem_ext (s : StateSet) (it : EItem) (d : Option Deriv) :
    ∃ ext, items (insertItem s it d) = items s ++ ext := by
  rw [items_insertItem]
  by_cases h : it ∈ items s
  · exact ⟨[], by simp [h]⟩
  · exact ⟨[it], by simp [h]⟩

theorem mem_items_insertItem_self (s : StateSet) (it : EItem) (d : Option Deriv) :
    it ∈ items (insertItem s it d) := by
  rw [items_insertItem]
  by_cases h : it ∈ items s <;> simp [h]

theorem mem_items_insertItem_of_mem (s : StateSet) (it x : EItem) (d : Option Deriv)
    (h : x ∈ items s) : x ∈ items (insertItem s it d) := by
  rcases items_insertItem_ext s it d with ⟨ext, he⟩
  rw [he]
  exact List.mem_append_left _ h

theorem nodup_items_insertItem (s : StateSet) (it : EItem) (d : Option Deriv)
    (h : (items s).Nodup) : (items (insertItem s it d)).Nodup := by
  rw [items_insertItem]
  by_cases hm : it ∈ items s
  · simpa [hm] using h
  · rw [if_neg hm]
    refine List.Nodup.append h (List.nodup_singleton it) ?_
    intro a ha hb
    rw [List.mem_singleton] at hb
    subst hb
    exact hm ha

theorem valid_items_insertItem (g : Grammar) (bound : Nat) (s : StateSet)
    (it : EItem) (d : Option Deriv)
    (hs : ∀ x ∈ items s, ValidItem g bound x) (hit : ValidItem g bound it) :
    ∀ x ∈ items (insertItem s it d), ValidItem g bound x := by
  intro x hx
  rw [items_insertItem] at hx
  by_cases hm : it ∈ items s
  · rw [if_pos hm] at hx
    exact hs x hx
  · rw [if_neg hm] at hx
    rcases List.mem_append.mp hx with h1 | h1
    · exact hs x h1
    · rw [List.mem_singleton.mp h1]
      exact hit

end Earlgrey

namespace Earlgrey

section FoldInsert

variable {α : Type} (P : α → Bool) (f : α → EItem) (dv : α → Option Deriv)

theorem foldl_insert_ext (l : List α) (s : StateSet) :
    ∃ ext, items (l.foldl
      (fun acc x => if P x then insertItem acc (f x) (dv x) else acc) s) =
      items s ++ ext := by
  induction l generalizing s with
  | nil => exact ⟨[], by simp⟩
  | cons a l ih =>
    simp only [List.foldl_cons]
    by_cases hp : P a
    · rw [if_pos hp]
      rcases ih (insertItem s (f a) (dv a)) with ⟨ext1, h1⟩
      rcases items_insertItem_ext s (f a) (dv a) with ⟨ext0, h0⟩
      exact ⟨ext0 ++ ext1, by rw [h1, h0, List.append_assoc]⟩
    · rw [if_neg hp]
      exact ih s

theorem foldl_insert_mem_of_mem (l : List α) (s : StateSet) (x : EItem)
    (h : x ∈ items s) :
    x ∈ items (l.foldl
      (fun acc y => if P y then insertItem acc (f y) (dv y) else acc) s) := by
  rcases foldl_insert_ext P f dv l s with ⟨ext, he⟩
  rw [he]
  exact List.mem_append_left _ h

theorem foldl_insert_mem (l : List α) (s : StateSet) (a : α)
    (ha : a ∈ l) (hp : P a = true) :
    f a ∈ items (l.foldl
      (fun acc y => if P y then insertItem acc (f y) (dv y) else acc) s) := by
  induction l generalizing s with
  | nil => cases ha
  | cons b l ih =>
    simp only [List.foldl_cons]
    rcases List.mem_cons.mp ha with hb | hb
    · subst hb
      rw [if_pos hp]
      exact foldl_insert_mem_of_mem P f dv l _ _ (mem_items_insertItem_self _ _ _)
    · exact ih _ hb

theorem foldl_insert_nodup (l : List α) (s : StateSet)
    (h : (items s).Nodup) :
    (items (l.foldl
      (fun acc y => if P y then insertItem acc (f y) (dv y) else acc) s)).Nodup := by
  induction l generalizing s with
  | nil => exact h
  | cons b l ih =>
    simp only [List.foldl_cons]
    by_cases hp : P b
    · rw [if_pos hp]
      exact ih _ (nodup_items_insertItem _ _ _ h)
    · rw [if_neg hp]
      exact ih _ h

theorem foldl_insert_valid (g : Grammar) (bound : Nat) (l : List α) (s : StateSet)
    (h : ∀ x ∈ items s, ValidItem g bound x)
    (hf : ∀ a ∈ l, P a = true → ValidItem g bound (f a)) :
    ∀ x ∈ items (l.foldl
      (fun acc y => if P y then insertItem acc (f y) (dv y) else acc) s),
      ValidItem g bound x := by
  induction l generalizing s with
  | nil => exact h
  | cons b l ih =>
    simp only [List.foldl_cons]
    by_cases hp : P b
    · rw [if_pos hp]
      exact ih _ (valid_items_insertItem g bound s (f b) (dv b) h
        (hf b (List.mem_cons_self _ _) hp))
        (fun a ha hpa => hf a (List.mem_cons_of_mem _ ha) hpa)
    · rw [if_neg hp]
      exact ih _ h (fun a ha hpa => hf a (List.mem_cons_of_mem _ ha) hpa)

end FoldInsert

end Earlgrey


namespace Earlgrey

theorem nextSym_of_rule (g : Grammar) (it : EItem) (r : GRule)
    (hr : ruleOf g it = some r) : nextSym g it = r.body.get? it.dot := by
  simp only [nextSym, hr]

theorem nextSym_of_none (g : Grammar) (it : EItem)
    (hr : ruleOf g it = none) : nextSym g it = none := by
  simp only [nextSym, hr]

theorem exists_rule_of_nextSym (g : Grammar) (it : EItem) (sym : String)
    (hns : nextSym g it = some sym) :
    ∃ r, ruleOf g it = some r ∧ r.body.get? it.dot = some sym := by
  unfold nextSym at hns
  rcases hr : ruleOf g it with _ | r
  · rw [hr] at hns
    cases hns
  · rw [hr] at hns
    exact ⟨r, rfl, hns⟩

theorem dot_lt_of_body_get (r : GRule) (d : Nat) (sym : String)
    (h : r.body.get? d = some sym) : d < r.body.length :=
  List.get?_eq_some.mp h |>.choose

end Earlgrey

namespace Earlgrey

theorem processStep_spec (g : Grammar) (nulls : List String) (prev : List StateSet)
    (i : Nat) (tok : Option String) (cur nxt : StateSet) (j : Nat)
    (hnod : (items cur).Nodup) (hnodn : (items nxt).Nodup)
    (hval : ∀ x ∈ items cur, ValidItem g i x)
    (hvaln : ∀ x ∈ items nxt, ValidItem g (i + 1) x)
    (hprevval : ∀ m ss, prev.get? m = some ss → ∀ x ∈ items ss, ValidItem g m x) :
    (∃ e1, items (processStep g nulls prev i tok cur nxt j).1 = items cur ++ e1) ∧
    (∃ e2, items (processStep g nulls prev i tok cur nxt j).2 = items nxt ++ e2) ∧
    (items (processStep g nulls prev i tok cur nxt j).1).Nodup ∧
    (items (processStep g nulls prev i tok cur nxt j).2).Nodup ∧
    (∀ x ∈ items (processStep g nulls prev i tok cur nxt j).1, ValidItem g i x) ∧
    (∀ x ∈ items (processStep g nulls prev i tok cur nxt j).2, ValidItem g (i + 1) x) ∧
    (∀ e, cur.get? j = some e →
      StepConsequences g nulls prev i tok e.fst
        (items (processStep g nulls prev i tok cur nxt j).1)
        (items (processStep g nulls prev i tok cur nxt j).2)) := by
  rcases hj : cur.get? j with _ | ed
  · simp only [processStep, hj]
    refine ⟨⟨[], by simp⟩, ⟨[], by simp⟩, hnod, hnodn, hval, hvaln, ?_⟩
    intro e he
    cases he
  obtain ⟨it, ds⟩ := ed
  have hitmem : it ∈ items cur := by
    have := List.get?_mem hj
    exact List.mem_map_of_mem Prod.fst this
  have hitval : ValidItem g i it := hval it hitmem
  rcases hr : ruleOf g it with _ | r
  · simp only [processStep, hj, hr]
    refine ⟨⟨[], by simp⟩, ⟨[], by simp⟩, hnod, hnodn, hval, hvaln, ?_⟩
    intro e he
    injection he with he
    subst he
    refine ⟨?_, ?_, ?_⟩
    · intro sym x hns hlk
      rcases exists_rule_of_nextSym g it sym hns with ⟨r0, hr0, _⟩
      rw [hr] at hr0
      cases hr0
    · intro sym nm pred lex hns hlk htok hpl
      rcases exists_rule_of_nextSym g it sym hns with ⟨r0, hr0, _⟩
      rw [hr] at hr0
      cases hr0
    · intro r0 hr0 hns hsi ss hss pe hpe hpef
      rw [hr] at hr0
      cases hr0
  rcases hb : r.body.get? it.dot with _ | sym
  -- complete case
  · have hnone : nextSym g it = none := by
      rw [nextSym_of_rule g it r hr, hb]
    by_cases hsi : it.start = i
    · simp only [processStep, hj, hr, hb, if_pos hsi]
      refine ⟨⟨[], by simp⟩, ⟨[], by simp⟩, hnod, hnodn, hval, hvaln, ?_⟩
      intro e he
      injection he with he
      subst he
      refine ⟨?_, ?_, ?_⟩
      · intro sym x hns hlk
        rw [hnone] at hns
        cases hns
      · intro sym nm pred lex hns hlk htok hpl
        rw [hnone] at hns
        cases hns
      · intro r0 hr0 hns hsi2 ss hss pe hpe hpef
        exact absurd hsi hsi2
    · rcases hp : prev.get? it.start with _ | ss
      · simp only [processStep, hj, hr, hb, if_neg hsi, hp]
        refine ⟨⟨[], by simp⟩, ⟨[], by simp⟩, hnod, hnodn, hval, hvaln, ?_⟩
        intro e he
        injection he with he
        subst he
        refine ⟨?_, ?_, ?_⟩
        · intro sym x hns hlk
          rw [hnone] at hns
          cases hns
        · intro sym nm pred lex hns hlk htok hpl
          rw [hnone] at hns
          cases hns
        · intro r0 hr0 hns hsi2 ss hss pe hpe hpef
          rw [hp] at hss
          cases hss
      · simp only [processStep, hj, hr, hb, if_neg hsi, hp]
        have hssval : ∀ x ∈ items ss, ValidItem g it.start x :=
          hprevval it.start ss hp
        have hfv : ∀ pe ∈ ss,
            ((fun (pe : EItem × List Deriv) => nextSym g pe.fst == some r.head) pe) = true →
            ValidItem g i
              ((fun (pe : EItem × List Deriv) =>
                EItem.mk pe.fst.rule (pe.fst.dot + 1) pe.fst.start) pe) := by
          intro pe hpe hpp
          have hpef : nextSym g pe.fst = some r.head := by
            have := hpp
            simpa using this
          rcases exists_rule_of_nextSym g pe.fst r.head hpef with ⟨r1, hr1, hb1⟩
          have hd1 : pe.fst.dot < r1.body.length := dot_lt_of_body_get r1 _ _ hb1
          have hv := hssval pe.fst (List.mem_map_of_mem Prod.fst hpe)
          exact ⟨⟨r1, hr1, by show pe.fst.dot + 1 ≤ r1.body.length; omega⟩, le_trans hv.2 (le_trans hitval.2 (le_refl i))⟩
        refine ⟨foldl_insert_ext _ _ _ ss cur, ⟨[], by simp⟩,
          foldl_insert_nodup _ _ _ ss cur hnod, hnodn,
          foldl_insert_valid _ _ _ g i ss cur hval hfv, hvaln, ?_⟩
        intro e he
        injection he with he
        subst he
        refine ⟨?_, ?_, ?_⟩
        · intro sym x hns hlk
          rw [hnone] at hns
          cases hns
        · intro sym nm pred lex hns hlk htok hpl
          rw [hnone] at hns
          cases hns
        · intro r0 hr0 hns hsi2 ss2 hss2 pe hpe hpef
          rw [hr] at hr0
          injection hr0 with hr0
          subst hr0
          rw [hp] at hss2
          injection hss2 with hss2
          subst hss2
          exact foldl_insert_mem _ _ _ ss cur pe hpe (by simpa using hpef)
  -- incomplete: next symbol sym
  · have hsome : nextSym g it = some sym := by
      rw [nextSym_of_rule g it r hr, hb]
    have hdlt : it.dot < r.body.length := dot_lt_of_body_get r _ _ hb
    have hadv : ValidItem g i (EItem.mk it.rule (it.dot + 1) it.start) :=
      ⟨⟨r, hr, by show it.dot + 1 ≤ r.body.length; omega⟩, hitval.2⟩
    rcases hl : lookupSym g.symbols sym with _ | s0
    · simp only [processStep, hj, hr, hb, hl]
      refine ⟨⟨[], by simp⟩, ⟨[], by simp⟩, hnod, hnodn, hval, hvaln, ?_⟩
      intro e he
      injection he with he
      subst he
      refine ⟨?_, ?_, ?_⟩
      · intro sym2 x hns hlk
        rw [hsome] at hns
        injection hns with hns
        subst hns
        rw [hl] at hlk
        cases hlk
      · intro sym2 nm pred lex hns hlk htok hpl
        rw [hsome] at hns
        injection hns with hns
        subst hns
        rw [hl] at hlk
        cases hlk
      · intro r0 hr0 hns hsi ss hss pe hpe hpef
        rw [hsome] at hns
        cases hns
    rcases s0 with x0 | ⟨nm0, pred0⟩
    -- nonterminal: predict + AH
    · have hfv : ∀ kr ∈ g.rules.enum,
          ((fun (kr : Nat × GRule) => kr.snd.head == sym) kr) = true →
          ValidItem g i ((fun (kr : Nat × GRule) => EItem.mk kr.fst 0 i) kr) := by
        intro kr hkr hpp
        have hk : g.rules.get? kr.fst = some kr.snd := by
          have := List.mem_enum_iff_get?.mp hkr
          simpa using this
        exact ⟨⟨kr.snd, hk, Nat.zero_le _⟩, le_refl i⟩
      have hext1 := foldl_insert_ext
        (fun (kr : Nat × GRule) => kr.snd.head == sym)
        (fun kr => EItem.mk kr.fst 0 i) (fun _ => none) g.rules.enum cur
      have hnod1 := foldl_insert_nodup
        (fun (kr : Nat × GRule) => kr.snd.head == sym)
        (fun kr => EItem.mk kr.fst 0 i) (fun _ => none) g.rules.enum cur hnod
      have hval1 := foldl_insert_valid
        (fun (kr : Nat × GRule) => kr.snd.head == sym)
        (fun kr => EItem.mk kr.fst 0 i) (fun _ => none) g i g.rules.enum cur hval hfv
      by_cases hn : nulls.contains sym
      · simp only [processStep, hj, hr, hb, hl, if_pos hn]
        rcases hext1 with ⟨ext1, hext1⟩
        rcases items_insertItem_ext
          (g.rules.enum.foldl (fun acc kr =>
            if kr.snd.head == sym then insertItem acc (EItem.mk kr.fst 0 i) none
            else acc) cur)
          (EItem.mk it.rule (it.dot + 1) it.start) (some .nullable) with ⟨ext2, hext2⟩
        refine ⟨⟨ext1 ++ ext2, by rw [hext2, hext1, List.append_assoc]⟩, ⟨[], by simp⟩,
          nodup_items_insertItem _ _ _ hnod1, hnodn,
          valid_items_insertItem g i _ _ _ hval1 hadv, hvaln, ?_⟩
        intro e he
        injection he with he
        subst he
        refine ⟨?_, ?_, ?_⟩
        · intro sym2 x hns hlk
          rw [hsome] at hns
          injection hns with hns
          subst hns
          constructor
          · intro k r' hk hhead
            refine mem_items_insertItem_of_mem _ _ _ _ ?_
            refine foldl_insert_mem _ _ _ g.rules.enum cur (k, r') ?_ ?_
            · exact List.mem_enum_iff_get?.mpr (by simpa using hk)
            · simpa using hhead
          · intro hcont
            exact mem_items_insertItem_self _ _ _
        · intro sym2 nm pred lex hns hlk htok hpl
          rw [hsome] at hns
          injection hns with hns
          subst hns
          rw [hl] at hlk
          cases hlk
        · intro r0 hr0 hns hsi ss hss pe hpe hpef
          rw [hsome] at hns
          cases hns
      · simp only [processStep, hj, hr, hb, hl, if_neg hn]
        refine ⟨hext1, ⟨[], by simp⟩, hnod1, hnodn, hval1, hvaln, ?_⟩
        intro e he
        injection he with he
        subst he
        refine ⟨?_, ?_, ?_⟩
        · intro sym2 x hns hlk
          rw [hsome] at hns
          injection hns with hns
          subst hns
          constructor
          · intro k r' hk hhead
            refine foldl_insert_mem _ _ _ g.rules.enum cur (k, r') ?_ ?_
            · exact List.mem_enum_iff_get?.mpr (by simpa using hk)
            · simpa using hhead
          · intro hcont
            exact absurd hcont hn
        · intro sym2 nm pred lex hns hlk htok hpl
          rw [hsome] at hns
          injection hns with hns
          subst hns
          rw [hl] at hlk
          cases hlk
        · intro r0 hr0 hns hsi ss hss pe hpe hpef
          rw [hsome] at hns
          cases hns
    -- terminal: scan
    · have hadv1 : ValidItem g (i + 1) (EItem.mk it.rule (it.dot + 1) it.start) :=
        ⟨⟨r, hr, by show it.dot + 1 ≤ r.body.length; omega⟩,
          by show it.start ≤ i + 1; have := hitval.2; omega⟩
      have hconseq12 :
          ∀ curI : List EItem,
          (∀ sym2 x, nextSym g it = some sym2 →
            lookupSym g.symbols sym2 = some (.nt x) →
            (∀ k r', g.rules.get? k = some r' → r'.head = sym2 →
              EItem.mk k 0 i ∈ curI) ∧
            (nulls.contains sym2 = true →
              EItem.mk it.rule (it.dot + 1) it.start ∈ curI)) ∧
          (∀ r0, ruleOf g it = some r0 → nextSym g it = none → it.start ≠ i →
            ∀ ss, prev.get? it.start = some ss →
            ∀ pe, pe ∈ ss → nextSym g pe.fst = some r0.head →
            EItem.mk pe.fst.rule (pe.fst.dot + 1) pe.fst.start ∈ curI) := by
        intro curI
        constructor
        · intro sym2 x hns hlk
          rw [hsome] at hns
          injection hns with hns
          subst hns
          rw [hl] at hlk
          cases hlk
        · intro r0 hr0 hns hsi ss hss pe hpe hpef
          rw [hsome] at hns
          cases hns
      rcases tok with _ | lex
      · simp only [processStep, hj, hr, hb, hl]
        refine ⟨⟨[], by simp⟩, ⟨[], by simp⟩, hnod, hnodn, hval, hvaln, ?_⟩
        intro e he
        injection he with he
        subst he
        refine ⟨(hconseq12 _).1, ?_, (hconseq12 _).2⟩
        intro sym2 nm pred lex hns hlk htok hpl
        cases htok
      · by_cases hpl : pred0 lex
        · simp only [processStep, hj, hr, hb, hl, if_pos hpl]
          refine ⟨⟨[], by simp⟩,
            items_insertItem_ext nxt _ _,
            hnod, nodup_items_insertItem _ _ _ hnodn, hval,
            valid_items_insertItem g (i + 1) _ _ _ hvaln hadv1, ?_⟩
          intro e he
          injection he with he
          subst he
          refine ⟨(hconseq12 _).1, ?_, (hconseq12 _).2⟩
          intro sym2 nm pred lex2 hns hlk htok hpl2
          rw [hsome] at hns
          injection hns with hns
          subst hns
          rw [hl] at hlk
          injection hlk with hlk
          cases hlk
          injection htok with htok
          subst htok
          exact mem_items_insertItem_self _ _ _
        · simp only [processStep, hj, hr, hb, hl, if_neg hpl]
          refine ⟨⟨[], by simp⟩, ⟨[], by simp⟩, hnod, hnodn, hval, hvaln, ?_⟩
          intro e he
          injection he with he
          subst he
          refine ⟨(hconseq12 _).1, ?_, (hconseq12 _).2⟩
          intro sym2 nm pred lex2 hns hlk htok hpl2
          rw [hsome] at hns
          injection hns with hns
          subst hns
          rw [hl] at hlk
          injection hlk with hlk
          cases hlk
          injection htok with htok
          subst htok
          exact absurd hpl2 hpl

end Earlgrey

namespace Earlgrey

theorem slotBase_succ (g : Grammar) (k : Nat) (r : GRule)
    (hk : g.rules.get? k = some r) :
    slotBase g (k + 1) = slotBase g k + r.body.length + 1 := by
  unfold slotBase
  rw [List.take_succ, show g.rules[k]? = some r from by
    rw [← List.get?_eq_getElem?]; exact hk]
  simp [List.foldl_append]

theorem slotBase_mono (g : Grammar) (k1 k2 : Nat) (h : k1 ≤ k2) :
    slotBase g k1 ≤ slotBase g k2 := by
  induction k2 with
  | zero => simpa [Nat.le_zero.mp h]
  | succ k ih =>
    rcases Nat.lt_or_ge k1 (k + 1) with h1 | h1
    · have h2 : k1 ≤ k := by omega
      refine le_trans (ih h2) ?_
      rcases hk : g.rules.get? k with _ | r
      · unfold slotBase
        rw [List.take_succ, show g.rules[k]? = none from by
          rw [← List.get?_eq_getElem?]; exact hk]
        simp
      · rw [slotBase_succ g k r hk]
        omega
    · have : k1 = k + 1 := by omega
      rw [this]

theorem ruleSlots_eq_slotBase (g : Grammar) :
    ruleSlots g = slotBase g g.rules.length := by
  unfold ruleSlots slotBase
  rw [List.take_length]

theorem slot_lt_ruleSlots (g : Grammar) (k : Nat) (r : GRule) (dot : Nat)
    (hk : g.rules.get? k = some r) (hd : dot ≤ r.body.length) :
    slotBase g k + dot < ruleSlots g := by
  have hk1 : k < g.rules.length := List.get?_eq_some.mp hk |>.choose
  have h1 : slotBase g k + dot < slotBase g (k + 1) := by
    rw [slotBase_succ g k r hk]
    omega
  have h2 : slotBase g (k + 1) ≤ slotBase g g.rules.length :=
    slotBase_mono g _ _ (by omega)
  rw [ruleSlots_eq_slotBase]
  omega

theorem itemCode_lt (g : Grammar) (bound : Nat) (it : EItem)
    (hv : ValidItem g bound it) :
    itemCode g bound it < ruleSlots g * (bound + 1) := by
  rcases hv with ⟨⟨r, hk, hd⟩, hs⟩
  have hslot : slotBase g it.rule + it.dot < ruleSlots g :=
    slot_lt_ruleSlots g it.rule r it.dot hk hd
  unfold itemCode
  calc (slotBase g it.rule + it.dot) * (bound + 1) + it.start
      < (slotBase g it.rule + it.dot) * (bound + 1) + (bound + 1) := by omega
    _ = (slotBase g it.rule + it.dot + 1) * (bound + 1) := by ring
    _ ≤ ruleSlots g * (bound + 1) := Nat.mul_le_mul_right _ (by omega)

theorem slot_inj (g : Grammar) (k1 k2 d1 d2 : Nat) (r1 r2 : GRule)
    (hk1 : g.rules.get? k1 = some r1) (hk2 : g.rules.get? k2 = some r2)
    (hd1 : d1 ≤ r1.body.length) (hd2 : d2 ≤ r2.body.length)
    (h : slotBase g k1 + d1 = slotBase g k2 + d2) : k1 = k2 ∧ d1 = d2 := by
  rcases Nat.lt_trichotomy k1 k2 with hlt | heq | hgt
  · exfalso
    have h1 : slotBase g k1 + d1 < slotBase g (k1 + 1) := by
      rw [slotBase_succ g k1 r1 hk1]
      omega
    have h2 : slotBase g (k1 + 1) ≤ slotBase g k2 := slotBase_mono g _ _ (by omega)
    omega
  · subst heq
    rw [hk1] at hk2
    injection hk2 with hk2
    subst hk2
    omega
  · exfalso
    have h1 : slotBase g k2 + d2 < slotBase g (k2 + 1) := by
      rw [slotBase_succ g k2 r2 hk2]
      omega
    have h2 : slotBase g (k2 + 1) ≤ slotBase g k1 := slotBase_mono g _ _ (by omega)
    omega

theorem itemCode_inj (g : Grammar) (bound : Nat) (it1 it2 : EItem)
    (hv1 : ValidItem g bound it1) (hv2 : ValidItem g bound it2)
    (h : itemCode g bound it1 = itemCode g bound it2) : it1 = it2 := by
  rcases hv1 with ⟨⟨r1, hk1, hd1⟩, hs1⟩
  rcases hv2 with ⟨⟨r2, hk2, hd2⟩, hs2⟩
  unfold itemCode at h
  have hstart : it1.start = it2.start := by
    have h1 := Nat.add_mul_mod_self_left it1.start (bound + 1) 0
    have e1 : ((slotBase g it1.rule + it1.dot) * (bound + 1) + it1.start) % (bound + 1)
        = it1.start := by
      rw [Nat.add_comm, Nat.add_mul_mod_self_right]
      exact Nat.mod_eq_of_lt (by omega)
    have e2 : ((slotBase g it2.rule + it2.dot) * (bound + 1) + it2.start) % (bound + 1)
        = it2.start := by
      rw [Nat.add_comm, Nat.add_mul_mod_self_right]
      exact Nat.mod_eq_of_lt (by omega)
    rw [← e1, ← e2, h]
  have hslot : slotBase g it1.rule + it1.dot = slotBase g it2.rule + it2.dot := by
    have := h
    rw [hstart] at this
    have h2 : (slotBase g it1.rule + it1.dot) * (bound + 1)
        = (slotBase g it2.rule + it2.dot) * (bound + 1) := by omega
    exact Nat.eq_of_mul_eq_mul_right (by omega) h2
  rcases slot_inj g it1.rule it2.rule it1.dot it2.dot r1 r2 hk1 hk2 hd1 hd2 hslot
    with ⟨hk, hd⟩
  cases it1
  cases it2
  simp_all

theorem nodup_valid_length_le (g : Grammar) (bound : Nat) (l : List EItem)
    (hn : l.Nodup) (hv : ∀ x ∈ l, ValidItem g bound x) :
    l.length ≤ ruleSlots g * (bound + 1) := by
  have hmapnd : (l.map (itemCode g bound)).Nodup := by
    refine List.Nodup.map_on ?_ hn
    intro x hx y hy hxy
    exact itemCode_inj g bound x y (hv x hx) (hv y hy) hxy
  have hsub : l.map (itemCode g bound) ⊆ List.range (ruleSlots g * (bound + 1)) := by
    intro c hc
    rcases List.mem_map.mp hc with ⟨x, hx, rfl⟩
    exact List.mem_range.mpr (itemCode_lt g bound x (hv x hx))
  have := (hmapnd.subperm hsub).length_le
  simpa using this

end Earlgrey

namespace Earlgrey

theorem StepConsequences_mono (g : Grammar) (nulls : List String)
    (prev : List StateSet) (i : Nat) (tok : Option String) (it : EItem)
    (curI nxtI curI2 nxtI2 : List EItem)
    (h : StepConsequences g nulls prev i tok it curI nxtI)
    (hc : ∀ x ∈ curI, x ∈ curI2) (hn : ∀ x ∈ nxtI, x ∈ nxtI2) :
    StepConsequences g nulls prev i tok it curI2 nxtI2 := by
  rcases h with ⟨h1, h2, h3⟩
  refine ⟨?_, ?_, ?_⟩
  · intro sym x hns hlk
    rcases h1 sym x hns hlk with ⟨ha, hb⟩
    exact ⟨fun k r' hk hh => hc _ (ha k r' hk hh), fun hcont => hc _ (hb hcont)⟩
  · intro sym nm pred lex hns hlk htok hpl
    exact hn _ (h2 sym nm pred lex hns hlk htok hpl)
  · intro r hr hns hsi ss hss pe hpe hpef
    exact hc _ (h3 r hr hns hsi ss hss pe hpe hpef)

theorem closeLoop_spec (g : Grammar) (nulls : List String) (prev : List StateSet)
    (i : Nat) (tok : Option String)
    (hprevval : ∀ m ss, prev.get? m = some ss → ∀ x ∈ items ss, ValidItem g m x) :
    ∀ (fuel : Nat) (cur nxt : StateSet) (j : Nat),
    (items cur).Nodup → (items nxt).Nodup →
    (∀ x ∈ items cur, ValidItem g i x) →
    (∀ x ∈ items nxt, ValidItem g (i + 1) x) →
    (∃ e1, items (closeLoop g nulls prev i tok fuel cur nxt j).1 = items cur ++ e1) ∧
    (∃ e2, items (closeLoop g nulls prev i tok fuel cur nxt j).2 = items nxt ++ e2) ∧
    (items (closeLoop g nulls prev i tok fuel cur nxt j).1).Nodup ∧
    (items (closeLoop g nulls prev i tok fuel cur nxt j).2).Nodup ∧
    (∀ x ∈ items (closeLoop g nulls prev i tok fuel cur nxt j).1, ValidItem g i x) ∧
    (∀ x ∈ items (closeLoop g nulls prev i tok fuel cur nxt j).2, ValidItem g (i + 1) x) ∧
    (fuel + j ≥ (closeLoop g nulls prev i tok fuel cur nxt j).1.length →
      ∀ idx x, j ≤ idx →
      (items (closeLoop g nulls prev i tok fuel cur nxt j).1).get? idx = some x →
      StepConsequences g nulls prev i tok x
        (items (closeLoop g nulls prev i tok fuel cur nxt j).1)
        (items (closeLoop g nulls prev i tok fuel cur nxt j).2)) := by
  intro fuel
  induction fuel with
  | zero =>
    intro cur nxt j hnod hnodn hval hvaln
    simp only [closeLoop]
    refine ⟨⟨[], by simp⟩, ⟨[], by simp⟩, hnod, hnodn, hval, hvaln, ?_⟩
    intro hfuel idx x hidx hget
    exfalso
    have : idx < (items cur).length := by
      rcases List.get?_eq_some.mp hget with ⟨hlt, _⟩
      exact hlt
    have hlen : (items cur).length = cur.length := by simp [items]
    omega
  | succ fuel ih =>
    intro cur nxt j hnod hnodn hval hvaln
    by_cases hj : j < cur.length
    · have hstep := processStep_spec g nulls prev i tok cur nxt j hnod hnodn
        hval hvaln hprevval
      rcases hstep with ⟨⟨e1, he1⟩, ⟨e2, he2⟩, hnod1, hnodn1, hval1, hvaln1, hcons⟩
      have hloop : closeLoop g nulls prev i tok (fuel + 1) cur nxt j =
          closeLoop g nulls prev i tok fuel
            (processStep g nulls prev i tok cur nxt j).1
            (processStep g nulls prev i tok cur nxt j).2 (j + 1) := by
        rw [closeLoop]
        rw [if_pos hj]
      rcases ih (processStep g nulls prev i tok cur nxt j).1
        (processStep g nulls prev i tok cur nxt j).2 (j + 1)
        hnod1 hnodn1 hval1 hvaln1 with
        ⟨⟨f1, hf1⟩, ⟨f2, hf2⟩, hnod2, hnodn2, hval2, hvaln2, hproc⟩
      rw [hloop]
      refine ⟨⟨e1 ++ f1, by rw [hf1, he1, List.append_assoc]⟩,
        ⟨e2 ++ f2, by rw [hf2, he2, List.append_assoc]⟩,
        hnod2, hnodn2, hval2, hvaln2, ?_⟩
      intro hfuel idx x hidx hget
      rcases Nat.lt_or_ge idx (j + 1) with hidx2 | hidx2
      · have hidxj : idx = j := by omega
        rw [hidxj] at hget
        have hcurj : cur.get? j = some (cur.get ⟨j, hj⟩) := List.get?_eq_get hj
        have hx : x = (cur.get ⟨j, hj⟩).fst := by
          have hitems : (items cur).get? j = some (cur.get ⟨j, hj⟩).fst := by
            simp only [items, List.get?_map, hcurj, Option.map_some']
          have hpre : (items (closeLoop g nulls prev i tok fuel
              (processStep g nulls prev i tok cur nxt j).1
              (processStep g nulls prev i tok cur nxt j).2 (j + 1)).1).get? j
              = (items cur).get? j := by
            rw [hf1, he1, List.append_assoc]
            refine List.get?_append ?_
            simp only [items, List.length_map]
            exact hj
          rw [hpre, hitems] at hget
          injection hget with hget
          exact hget.symm
        subst hx
        have hsc := hcons (cur.get ⟨j, hj⟩) hcurj
        refine StepConsequences_mono g nulls prev i tok _ _ _ _ _ hsc ?_ ?_
        · intro y hy
          rw [hf1]
          exact List.mem_append_left _ hy
        · intro y hy
          rw [hf2]
          exact List.mem_append_left _ hy
      · exact hproc (by omega) idx x hidx2 hget
    · have hloop : closeLoop g nulls prev i tok (fuel + 1) cur nxt j = (cur, nxt) := by
        rw [closeLoop]
        rw [if_neg hj]
      rw [hloop]
      refine ⟨⟨[], by simp⟩, ⟨[], by simp⟩, hnod, hnodn, hval, hvaln, ?_⟩
      intro hfuel idx x hidx hget
      exfalso
      have hget2 : (items cur).get? idx = some x := hget
      rcases List.get?_eq_some.mp hget2 with ⟨hlt, _⟩
      have hlen : (items cur).length = cur.length := by simp [items]
      omega

end Earlgrey

namespace Earlgrey

theorem closeSet_spec (g : Grammar) (nulls : List String) (prev : List StateSet)
    (tok : Option String) (cur : StateSet)
    (hprevval : ∀ m ss, prev.get? m = some ss → ∀ x ∈ items ss, ValidItem g m x)
    (hnod : (items cur).Nodup)
    (hval : ∀ x ∈ items cur, ValidItem g prev.length x) :
    (∃ e1, items (closeSet g nulls prev tok cur).1 = items cur ++ e1) ∧
    (items (closeSet g nulls prev tok cur).1).Nodup ∧
    (∀ x ∈ items (closeSet g nulls prev tok cur).1, ValidItem g prev.length x) ∧
    (items (closeSet g nulls prev tok cur).2).Nodup ∧
    (∀ x ∈ items (closeSet g nulls prev tok cur).2, ValidItem g (prev.length + 1) x) ∧
    (∀ idx x, (items (closeSet g nulls prev tok cur).1).get? idx = some x →
      StepConsequences g nulls prev prev.length tok x
        (items (closeSet g nulls prev tok cur).1)
        (items (closeSet g nulls prev tok cur).2)) := by
  have hspec := closeLoop_spec g nulls prev prev.length tok hprevval
    (ruleSlots g * (prev.length + 1) + cur.length + 1) cur [] 0
    hnod (by simp [items]) hval (by simp [items])
  rcases hspec with ⟨he1, ⟨e2, he2⟩, hnod1, hnodn1, hval1, hvaln1, hproc⟩
  have hlen : (closeLoop g nulls prev prev.length tok
      (ruleSlots g * (prev.length + 1) + cur.length + 1) cur [] 0).1.length ≤
      ruleSlots g * (prev.length + 1) := by
    have hl2 : (items (closeLoop g nulls prev prev.length tok
        (ruleSlots g * (prev.length + 1) + cur.length + 1) cur [] 0).1).length ≤
        ruleSlots g * (prev.length + 1) :=
      nodup_valid_length_le g prev.length _ hnod1 hval1
    simpa [items] using hl2
  refine ⟨he1, hnod1, hval1, hnodn1, hvaln1, ?_⟩
  intro idx x hget
  exact hproc (by omega) idx x (Nat.zero_le _) hget

end Earlgrey

namespace Earlgrey

theorem StepConsequences_tok_none (g : Grammar) (nulls : List String)
    (prev : List StateSet) (i : Nat) (it : EItem) (curI nxtI nxtI2 : List EItem)
    (h : StepConsequences g nulls prev i none it curI nxtI) :
    StepConsequences g nulls prev i none it curI nxtI2 := by
  rcases h with ⟨h1, h2, h3⟩
  refine ⟨h1, ?_, h3⟩
  intro sym nm pred lex hns hlk htok hpl
  cases htok

theorem chartLoop_spec (g : Grammar) (toks : List String) :
    ∀ (rest : List String) (prev : List StateSet) (cur : StateSet),
    rest = toks.drop prev.length →
    (∀ m ss, prev.get? m = some ss → ∀ x ∈ items ss, ValidItem g m x) →
    (items cur).Nodup →
    (∀ x ∈ items cur, ValidItem g prev.length x) →
    (∃ suf, chartLoop g (nullableSet g) prev cur rest = prev ++ suf) ∧
    (chartLoop g (nullableSet g) prev cur rest).length =
      prev.length + rest.length + 1 ∧
    (∀ ss, (chartLoop g (nullableSet g) prev cur rest).get? prev.length = some ss →
      ∃ ext, items ss = items cur ++ ext) ∧
    (∀ m ss, (chartLoop g (nullableSet g) prev cur rest).get? m = some ss →
      ∀ x ∈ items ss, ValidItem g m x) ∧
    (∀ i, prev.length ≤ i →
      ChartClosedAt g toks (chartLoop g (nullableSet g) prev cur rest) i) := by
  intro rest
  induction rest with
  | nil =>
    intro prev cur hrest hprevval hnod hval
    simp only [chartLoop]
    have hcs := closeSet_spec g (nullableSet g) prev none cur hprevval hnod hval
    rcases hcs with ⟨⟨e1, he1⟩, hnod1, hval1, hnodn1, hvaln1, hproc⟩
    have hget : (prev ++ [(closeSet g (nullableSet g) prev none cur).1]).get?
        prev.length = some (closeSet g (nullableSet g) prev none cur).1 :=
      List.get?_concat_length prev _
    refine ⟨⟨[(closeSet g (nullableSet g) prev none cur).1], rfl⟩, by simp, ?_, ?_, ?_⟩
    · intro ss hss
      rw [hget] at hss
      injection hss with hss
      subst hss
      exact ⟨e1, he1⟩
    · intro m ss hss x hx
      rcases Nat.lt_trichotomy m prev.length with hm | hm | hm
      · rw [List.get?_append hm] at hss
        exact hprevval m ss hss x hx
      · subst hm
        rw [hget] at hss
        injection hss with hss
        subst hss
        exact hval1 x hx
      · exfalso
        have : (prev ++ [(closeSet g (nullableSet g) prev none cur).1]).length = prev.length + 1 := by simp
        rcases List.get?_eq_some.mp hss with ⟨hlt, _⟩
        omega
    · intro i hi
      intro ss hss it hit
      have hi2 : i = prev.length := by
        rcases List.get?_eq_some.mp hss with ⟨hlt, _⟩
        simp only [List.length_append, List.length_singleton] at hlt
        omega
      subst hi2
      rw [hget] at hss
      injection hss with hss
      subst hss
      have htok : toks.get? prev.length = none := by
        have h0 : (toks.drop prev.length).get? 0 = toks.get? (prev.length + 0) :=
          List.get?_drop toks prev.length 0
        rw [← hrest] at h0
        simpa using h0.symm
      have htake : (prev ++ [(closeSet g (nullableSet g) prev none cur).1]).take
          prev.length = prev := List.take_left prev _
      rw [htok, htake]
      refine StepConsequences_tok_none g (nullableSet g) prev prev.length it _
        (items (closeSet g (nullableSet g) prev none cur).2) _ ?_
      rcases List.mem_iff_get?.mp hit with ⟨idx, hidx⟩
      exact hproc idx it hidx
  | cons t rest ih =>
    intro prev cur hrest hprevval hnod hval
    simp only [chartLoop]
    have hcs := closeSet_spec g (nullableSet g) prev (some t) cur hprevval hnod hval
    rcases hcs with ⟨⟨e1, he1⟩, hnod1, hval1, hnodn1, hvaln1, hproc⟩
    have htokt : toks.get? prev.length = some t := by
      have h0 : (toks.drop prev.length).get? 0 = toks.get? (prev.length + 0) :=
        List.get?_drop toks prev.length 0
      rw [← hrest] at h0
      simp only [List.get?_cons_zero] at h0
      simpa using h0.symm
    have hrest2 : rest = toks.drop (prev.length + 1) := by
      have : toks.drop (prev.length + 1) = (toks.drop prev.length).tail := by
        rw [← List.drop_drop]
        simp [List.drop_one]
      rw [this, ← hrest]
      rfl
    have hprevval2 : ∀ m ss,
        (prev ++ [(closeSet g (nullableSet g) prev (some t) cur).1]).get? m = some ss →
        ∀ x ∈ items ss, ValidItem g m x := by
      intro m ss hss x hx
      rcases Nat.lt_trichotomy m prev.length with hm | hm | hm
      · rw [List.get?_append hm] at hss
        exact hprevval m ss hss x hx
      · subst hm
        rw [List.get?_concat_length] at hss
        injection hss with hss
        subst hss
        exact hval1 x hx
      · exfalso
        rcases List.get?_eq_some.mp hss with ⟨hlt, _⟩
        simp only [List.length_append, List.length_singleton] at hlt
        omega
    have hlen2 : (prev ++ [(closeSet g (nullableSet g) prev (some t) cur).1]).length
        = prev.length + 1 := by simp
    have ihres := ih (prev ++ [(closeSet g (nullableSet g) prev (some t) cur).1])
      (closeSet g (nullableSet g) prev (some t) cur).2
      (by rw [hlen2, hrest2]) hprevval2 hnodn1 (by rw [hlen2]; exact hvaln1)
    rcases ihres with ⟨⟨suf, hsuf⟩, hlen3, hext3, hval3, hclosed3⟩
    refine ⟨⟨(closeSet g (nullableSet g) prev (some t) cur).1 :: suf, by
        rw [hsuf]; simp⟩, by
        have h3 := hlen3
        simp only [List.length_append, List.length_singleton, List.length_cons] at h3 ⊢
        omega, ?_, hval3, ?_⟩
    · intro ss hss
      have : (chartLoop g (nullableSet g)
          (prev ++ [(closeSet g (nullableSet g) prev (some t) cur).1])
          (closeSet g (nullableSet g) prev (some t) cur).2 rest).get? prev.length
          = some (closeSet g (nullableSet g) prev (some t) cur).1 := by
        rw [hsuf]
        rw [List.get?_append]
        · exact List.get?_concat_length prev _
        · simp
      rw [this] at hss
      injection hss with hss
      subst hss
      exact ⟨e1, he1⟩
    · intro i hi
      rcases Nat.lt_or_ge i (prev.length + 1) with hi2 | hi2
      · have hi3 : i = prev.length := by omega
        subst hi3
        intro ss hss it hit
        have hgetc : (chartLoop g (nullableSet g)
            (prev ++ [(closeSet g (nullableSet g) prev (some t) cur).1])
            (closeSet g (nullableSet g) prev (some t) cur).2 rest).get? prev.length
            = some (closeSet g (nullableSet g) prev (some t) cur).1 := by
          rw [hsuf]
          rw [List.get?_append]
          · exact List.get?_concat_length prev _
          · simp
        rw [hgetc] at hss
        injection hss with hss
        subst hss
        have htake : (chartLoop g (nullableSet g)
            (prev ++ [(closeSet g (nullableSet g) prev (some t) cur).1])
            (closeSet g (nullableSet g) prev (some t) cur).2 rest).take prev.length
            = prev := by
          rw [hsuf]
          rw [List.append_assoc]
          exact List.take_left prev _
        rw [htake, htokt]
        rcases List.mem_iff_get?.mp hit with ⟨idx, hidx⟩
        have hsc := hproc idx it hidx
        refine StepConsequences_mono g (nullableSet g) prev prev.length (some t) it
          _ _ _ _ hsc (fun y hy => hy) ?_
        intro y hy
        have hlt1 : prev.length + 1 < (chartLoop g (nullableSet g)
            (prev ++ [(closeSet g (nullableSet g) prev (some t) cur).1])
            (closeSet g (nullableSet g) prev (some t) cur).2 rest).length := by
          have h3 := hlen3
          simp only [List.length_append, List.length_singleton] at h3
          omega
        obtain ⟨ss2, hss2⟩ : ∃ ss2, (chartLoop g (nullableSet g)
            (prev ++ [(closeSet g (nullableSet g) prev (some t) cur).1])
            (closeSet g (nullableSet g) prev (some t) cur).2 rest).get?
            (prev.length + 1) = some ss2 := by
          rcases hg : (chartLoop g (nullableSet g)
              (prev ++ [(closeSet g (nullableSet g) prev (some t) cur).1])
              (closeSet g (nullableSet g) prev (some t) cur).2 rest).get?
              (prev.length + 1) with _ | ss2
          · exfalso
            rw [List.get?_eq_none] at hg
            omega
          · exact ⟨ss2, rfl⟩
        rcases hext3 ss2 (by rw [hlen2]; exact hss2) with ⟨ext, hext⟩
        rw [hss2]
        simp only [Option.getD_some]
        rw [hext]
        exact List.mem_append_left _ hy
      · exact hclosed3 i (by rw [hlen2]; omega)

end Earlgrey

namespace Earlgrey

theorem iterateN_succ_out {α : Type} (f : α → α) (k : Nat) (a : α) :
    iterateN f (k + 1) a = f (iterateN f k a) := by
  induction k generalizing a with
  | zero => rfl
  | succ k ih =>
    show iterateN f (k + 1) (f a) = f (iterateN f (k + 1) a)
    rw [ih (f a)]
    rfl

theorem iterateN_fix {α : Type} (f : α → α) (a : α) (h : f a = a) :
    ∀ k, iterateN f k a = a := by
  intro k
  induction k with
  | zero => rfl
  | succ k ih =>
    rw [iterateN_succ_out, ih, h]

theorem iterateN_add {α : Type} (f : α → α) (m n : Nat) (a : α) :
    iterateN f (m + n) a = iterateN f n (iterateN f m a) := by
  induction m generalizing a with
  | zero => simp [iterateN]
  | succ m ih =>
    have h1 : m + 1 + n = (m + n) + 1 := by omega
    rw [h1]
    show iterateN f (m + n) (f a) = iterateN f n (iterateN f (m + 1) a)
    rw [ih (f a)]
    rfl

theorem nullStep_ext (rules : List GRule) (acc : List String) :
    ∃ ext, nullStep rules acc = acc ++ ext := by
  unfold nullStep
  induction rules generalizing acc with
  | nil => exact ⟨[], by simp⟩
  | cons r rest ih =>
    simp only [List.foldl_cons]
    by_cases h1 : acc.contains r.head
    · rw [if_pos h1]
      exact ih acc
    · rw [if_neg h1]
      by_cases h2 : r.body.all (fun n => acc.contains n)
      · rw [if_pos h2]
        rcases ih (acc ++ [r.head]) with ⟨ext, hext⟩
        exact ⟨r.head :: ext, by rw [hext]; simp⟩
      · rw [if_neg h2]
        exact ih acc

theorem append_eq_self {α : Type} (acc ext : List α) (h : acc ++ ext = acc) :
    ext = [] := by
  have := congrArg List.length h
  simp only [List.length_append] at this
  exact List.eq_nil_of_length_eq_zero (by omega)

theorem nullStep_fixed_mem (rules : List GRule) (acc : List String)
    (hfix : nullStep rules acc = acc) :
    ∀ r ∈ rules, r.body.all (fun n => acc.contains n) = true →
    acc.contains r.head = true := by
  unfold nullStep at hfix
  induction rules generalizing acc with
  | nil => intro r hr; cases hr
  | cons r0 rest ih =>
    simp only [List.foldl_cons] at hfix
    intro r hr hbody
    by_cases h1 : acc.contains r0.head
    · rw [if_pos h1] at hfix
      rcases List.mem_cons.mp hr with hr0 | hr0
      · subst hr0
        exact h1
      · exact ih acc hfix r hr0 hbody
    · rw [if_neg h1] at hfix
      by_cases h2 : r0.body.all (fun n => acc.contains n)
      · rw [if_pos h2] at hfix
        exfalso
        rcases nullStep_ext rest (acc ++ [r0.head]) with ⟨ext, hext⟩
        unfold nullStep at hext
        rw [hext] at hfix
        have := congrArg List.length hfix
        simp at this
      · rw [if_neg h2] at hfix
        rcases List.mem_cons.mp hr with hr0 | hr0
        · subst hr0
          exact absurd hbody h2
        · exact ih acc hfix r hr0 hbody

theorem nullStep_nodup (rules : List GRule) (acc : List String)
    (h : acc.Nodup) : (nullStep rules acc).Nodup := by
  unfold nullStep
  induction rules generalizing acc with
  | nil => exact h
  | cons r rest ih =>
    simp only [List.foldl_cons]
    by_cases h1 : acc.contains r.head
    · rw [if_pos h1]
      exact ih acc h
    · rw [if_neg h1]
      by_cases h2 : r.body.all (fun n => acc.contains n)
      · rw [if_pos h2]
        refine ih _ ?_
        refine List.Nodup.append h (List.nodup_singleton _) ?_
        intro a ha hb
        rw [List.mem_singleton] at hb
        subst hb
        simp only [List.contains, List.elem_eq_mem, decide_eq_true_eq] at h1
        exact h1 ha
      · rw [if_neg h2]
        exact ih acc h

end Earlgrey

namespace Earlgrey

theorem nullStep_subset (rules : List GRule) (acc : List String)
    (hsub : ∀ x ∈ acc, x ∈ rules.map GRule.head ∨ x ∈ acc) :
    ∀ x ∈ nullStep rules acc, x ∈ rules.map GRule.head ∨ x ∈ acc := by
  unfold nullStep
  have main : ∀ (rs : List GRule) (a0 : List String),
      (∀ x ∈ a0, x ∈ rules.map GRule.head ∨ x ∈ acc) →
      (∀ r ∈ rs, r ∈ rules) →
      ∀ x ∈ rs.foldl
        (fun acc2 r =>
          if acc2.contains r.head then acc2
          else if r.body.all (fun n => acc2.contains n) then acc2 ++ [r.head]
          else acc2) a0,
        x ∈ rules.map GRule.head ∨ x ∈ acc := by
    intro rs
    induction rs with
    | nil => intro a0 h0 _ x hx; exact h0 x hx
    | cons r rest ih =>
      intro a0 h0 hrs x hx
      simp only [List.foldl_cons] at hx
      by_cases h1 : a0.contains r.head
      · rw [if_pos h1] at hx
        exact ih a0 h0 (fun q hq => hrs q (List.mem_cons_of_mem _ hq)) x hx
      · rw [if_neg h1] at hx
        by_cases h2 : r.body.all (fun n => a0.contains n)
        · rw [if_pos h2] at hx
          refine ih (a0 ++ [r.head]) ?_ (fun q hq => hrs q (List.mem_cons_of_mem _ hq)) x hx
          intro y hy
          rcases List.mem_append.mp hy with hy1 | hy1
          · exact h0 y hy1
          · rw [List.mem_singleton] at hy1
            subst hy1
            exact Or.inl (List.mem_map_of_mem GRule.head
              (hrs r (List.mem_cons_self _ _)))
        · rw [if_neg h2] at hx
          exact ih a0 h0 (fun q hq => hrs q (List.mem_cons_of_mem _ hq)) x hx
  exact main rules acc hsub (fun r hr => hr)

theorem nullableSet_iter_props (g : Grammar) (k : Nat) :
    (iterateN (nullStep g.rules) k []).Nodup ∧
    (∀ x ∈ iterateN (nullStep g.rules) k [], x ∈ g.rules.map GRule.head) := by
  induction k with
  | zero => exact ⟨List.nodup_nil, by intro x hx; cases hx⟩
  | succ k ih =>
    rw [iterateN_succ_out]
    refine ⟨nullStep_nodup g.rules _ ih.1, ?_⟩
    intro x hx
    rcases nullStep_subset g.rules _ (fun y hy => Or.inr hy) x hx with h | h
    · exact h
    · exact ih.2 x h

theorem nullableSet_fix (g : Grammar) :
    nullStep g.rules (nullableSet g) = nullableSet g := by
  have hbound : ∀ k, (iterateN (nullStep g.rules) k []).length ≤ g.rules.length := by
    intro k
    rcases nullableSet_iter_props g k with ⟨hnd, hsub⟩
    have hsp := hnd.subperm (fun x hx => hsub x hx)
    have := hsp.length_le
    simpa using this
  have key : ∀ k, (∃ m, m ≤ k ∧
      nullStep g.rules (iterateN (nullStep g.rules) m []) =
        iterateN (nullStep g.rules) m []) ∨
      (iterateN (nullStep g.rules) k []).length ≥ k := by
    intro k
    induction k with
    | zero => exact Or.inr (Nat.zero_le _)
    | succ k ih =>
      rcases ih with ⟨m, hm, hfix⟩ | hlen
      · exact Or.inl ⟨m, by omega, hfix⟩
      · by_cases hf : nullStep g.rules (iterateN (nullStep g.rules) k []) =
            iterateN (nullStep g.rules) k []
        · exact Or.inl ⟨k, by omega, hf⟩
        · refine Or.inr ?_
          rw [iterateN_succ_out]
          rcases nullStep_ext g.rules (iterateN (nullStep g.rules) k []) with ⟨ext, hext⟩
          rcases ext with _ | ⟨e, ext⟩
          · exfalso
            rw [List.append_nil] at hext
            exact hf hext
          · rw [hext]
            simp only [List.length_append, List.length_cons]
            omega
  rcases key (g.rules.length + 1) with ⟨m, hm, hfix⟩ | hlen
  · have hrest : nullableSet g = iterateN (nullStep g.rules) m [] := by
      unfold nullableSet
      have hsplit : g.rules.length + 1 = m + (g.rules.length + 1 - m) := by omega
      rw [hsplit, iterateN_add]
      exact iterateN_fix _ _ hfix _
    rw [hrest]
    exact hfix
  · exfalso
    have := hbound (g.rules.length + 1)
    omega

theorem nullable_closed (g : Grammar) (r : GRule) (hr : r ∈ g.rules)
    (hbody : ∀ x ∈ r.body, (nullableSet g).contains x = true) :
    (nullableSet g).contains r.head = true := by
  refine nullStep_fixed_mem g.rules (nullableSet g) (nullableSet_fix g) r hr ?_
  rw [List.all_eq_true]
  intro x hx
  exact hbody x hx

theorem nullable_complete (g : Grammar) (ns ts : List String)
    (hd : SymDerives g ns ts) (hts : ts = []) :
    ∀ x ∈ ns, (nullableSet g).contains x = true := by
  induction hd with
  | nil => intro x hx; cases hx
  | consTerm name pred lex ns2 ts2 hlk hpl hrest ih =>
    cases hts
  | consNT r ns2 ts1 ts2 hr hbody hrest ih1 ih2 =>
    rcases List.append_eq_nil.mp hts with ⟨h1, h2⟩
    intro x hx
    rcases List.mem_cons.mp hx with hx1 | hx1
    · subst hx1
      exact nullable_closed g r hr (ih1 h1)
    · exact ih2 h2 x hx1

end Earlgrey

namespace Earlgrey

theorem sliceAt_append (toks : List String) (i : Nat) (ts1 ts2 : List String)
    (h : sliceAt toks i (ts1 ++ ts2)) :
    sliceAt toks i ts1 ∧ sliceAt toks (i + ts1.length) ts2 := by
  unfold sliceAt at h ⊢
  constructor
  · have h1 := congrArg (List.take ts1.length) h
    rw [List.take_take] at h1
    simp only [List.length_append] at h1
    rw [Nat.min_def] at h1
    rw [if_pos (by omega)] at h1
    rw [h1]
    exact (List.take_left ts1 ts2).symm ▸ rfl
  · have h1 := congrArg (List.drop ts1.length) h
    rw [List.drop_left] at h1
    simp only [List.length_append] at h1
    have h2 : List.drop ts1.length ((toks.drop i).take (ts1.length + ts2.length)) =
        (toks.drop (i + ts1.length)).take ts2.length := by
      rw [List.take_drop, List.drop_drop, List.take_drop]
      have heq : i + (ts1.length + ts2.length) = i + ts1.length + ts2.length := by omega
      rw [heq]
    rw [h2] at h1
    exact h1

theorem sliceAt_cons (toks : List String) (i : Nat) (x : String) (ts : List String)
    (h : sliceAt toks i (x :: ts)) :
    toks.get? i = some x ∧ sliceAt toks (i + 1) ts := by
  unfold sliceAt at h ⊢
  rcases hD : toks.drop i with _ | ⟨d0, drest⟩
  · rw [hD] at h
    simp at h
  · rw [hD] at h
    simp only [List.length_cons, List.take_succ_cons] at h
    injection h with h1 h2
    subst h1
    constructor
    · have h0 : (toks.drop i).get? 0 = toks.get? (i + 0) := List.get?_drop toks i 0
      rw [hD] at h0
      simpa using h0.symm
    · have hd1 : toks.drop (i + 1) = drest := by
        rw [← List.drop_drop]
        rw [hD]
        simp [List.drop_one]
      rw [hd1]
      exact h2

theorem mem_items_exists (ss : StateSet) (it : EItem) (h : it ∈ items ss) :
    ∃ pe, pe ∈ ss ∧ pe.fst = it := by
  rcases List.mem_map.mp h with ⟨pe, hpe, hfst⟩
  exact ⟨pe, hpe, hfst⟩

theorem get?_of_drop_cons {α : Type} (l : List α) (d : Nat) (x : α) (rest : List α)
    (h : l.drop d = x :: rest) : l.get? d = some x := by
  have h0 : (l.drop d).get? 0 = l.get? (d + 0) := List.get?_drop l d 0
  rw [h] at h0
  simpa using h0.symm

theorem drop_succ_of_drop {α : Type} (l : List α) (d : Nat) (x : α) (rest : List α)
    (h : l.drop d = x :: rest) : l.drop (d + 1) = rest := by
  rw [← List.drop_drop]
  rw [h]
  simp [List.drop_one]

end Earlgrey

namespace Earlgrey

theorem ne_nil_of_mem_items (ss : StateSet) (x : EItem) (h : x ∈ items ss) :
    ss ≠ [] := by
  intro he
  subst he
  simp [items] at h

theorem symDerives_advance (g : Grammar) (toks : List String) (chart : List StateSet)
    (hlen : chart.length = toks.length + 1)
    (hclosed : ∀ i2, ChartClosedAt g toks chart i2)
    (hheads : ∀ r0 ∈ g.rules, ∃ nm, lookupSym g.symbols r0.head = some (Symbol.nt nm))
    {ns ts : List String} (hd : SymDerives g ns ts) :
    ∀ (i k d s : Nat) (r : GRule) (rest : List String) (ssi : StateSet),
    g.rules.get? k = some r →
    r.body.drop d = ns ++ rest →
    chart.get? i = some ssi →
    EItem.mk k d s ∈ items ssi →
    sliceAt toks i ts →
    ∃ ssj, chart.get? (i + ts.length) = some ssj ∧
      EItem.mk k (d + ns.length) s ∈ items ssj ∧
      ∀ m, i < m → m ≤ i + ts.length → ∃ ssm, chart.get? m = some ssm ∧ ssm ≠ [] := by
  induction hd with
  | nil =>
    intro i k d s r rest ssi hk hdrop hssi hmem hslice
    refine ⟨ssi, by simpa using hssi, by simpa using hmem, ?_⟩
    intro m hm1 hm2
    exfalso
    simp only [List.length_nil] at hm2
    omega
  | consTerm name pred lex ns2 ts2 hlk hpl hrestd ih =>
    intro i k d s r rest ssi hk hdrop hssi hmem hslice
    rw [List.cons_append] at hdrop
    have hget : r.body.get? d = some name := get?_of_drop_cons _ _ _ _ hdrop
    have hrule0 : ruleOf g (EItem.mk k d s) = some r := hk
    have hns : nextSym g (EItem.mk k d s) = some name := by
      rw [nextSym_of_rule g (EItem.mk k d s) r hrule0]
      exact hget
    rcases sliceAt_cons toks i lex ts2 hslice with ⟨htoki, hslice2⟩
    have hcl := hclosed i ssi hssi (EItem.mk k d s) hmem
    rcases hcl with ⟨_, hscan, _⟩
    have hmemnext := hscan name name pred lex hns hlk htoki hpl
    have hi1 : i + 1 < chart.length := by
      rcases List.get?_eq_some.mp htoki with ⟨hlt, _⟩
      omega
    obtain ⟨ss1, hss1⟩ : ∃ ss1, chart.get? (i + 1) = some ss1 :=
      ⟨chart.get ⟨i + 1, hi1⟩, List.get?_eq_get hi1⟩
    rw [hss1] at hmemnext
    simp only [Option.getD_some] at hmemnext
    have hdrop2 : r.body.drop (d + 1) = ns2 ++ rest := drop_succ_of_drop _ _ _ _ hdrop
    rcases ih (i + 1) k (d + 1) s r rest ss1 hk hdrop2 hss1 hmemnext hslice2 with
      ⟨ssj, hssj, hmemj, hnon⟩
    refine ⟨ssj, ?_, ?_, ?_⟩
    · have hidx : i + (lex :: ts2).length = i + 1 + ts2.length := by
        simp only [List.length_cons]
        omega
      rw [hidx]
      exact hssj
    · have hidx2 : d + (name :: ns2).length = d + 1 + ns2.length := by
        simp only [List.length_cons]
        omega
      rw [hidx2]
      exact hmemj
    · intro m hm1 hm2
      simp only [List.length_cons] at hm2
      rcases Nat.lt_or_ge m (i + 2) with hm3 | hm3
      · have hm4 : m = i + 1 := by omega
        subst hm4
        exact ⟨ss1, hss1, ne_nil_of_mem_items ss1 _ hmemnext⟩
      · exact hnon m (by omega) (by omega)
  | consNT r' ns2 ts1 ts2 hr' hbody hrestd ih1 ih2 =>
    intro i k d s r rest ssi hk hdrop hssi hmem hslice
    rw [List.cons_append] at hdrop
    have hget : r.body.get? d = some r'.head := get?_of_drop_cons _ _ _ _ hdrop
    have hrule0 : ruleOf g (EItem.mk k d s) = some r := hk
    have hns : nextSym g (EItem.mk k d s) = some r'.head := by
      rw [nextSym_of_rule g (EItem.mk k d s) r hrule0]
      exact hget
    rcases hheads r' hr' with ⟨nm, hlknt⟩
    obtain ⟨k2, hk2⟩ : ∃ k2, g.rules.get? k2 = some r' := List.mem_iff_get?.mp hr'
    have hcl := hclosed i ssi hssi (EItem.mk k d s) hmem
    rcases hcl with ⟨hpred, _, _⟩
    rcases hpred r'.head nm hns hlknt with ⟨hpredict, hAH⟩
    have hmemk2 : EItem.mk k2 0 i ∈ items ssi := hpredict k2 r' hk2 rfl
    rcases sliceAt_append toks i ts1 ts2 hslice with ⟨hslice1, hslice2⟩
    have hdrop2 : r.body.drop (d + 1) = ns2 ++ rest := drop_succ_of_drop _ _ _ _ hdrop
    cases ts1 with
    | nil =>
      have hnull : (nullableSet g).contains r'.head = true :=
        nullable_closed g r' hr' (nullable_complete g r'.body [] hbody rfl)
      have hmemAH : EItem.mk k (d + 1) s ∈ items ssi := hAH hnull
      have hsl2 : sliceAt toks i ts2 := by simpa using hslice2
      rcases ih2 i k (d + 1) s r rest ssi hk hdrop2 hssi hmemAH hsl2 with
        ⟨ssj, hssj, hmemj, hnon2⟩
      refine ⟨ssj, ?_, ?_, ?_⟩
      · have hidx : i + (([] : List String) ++ ts2).length = i + ts2.length := by simp
        rw [hidx]
        exact hssj
      · have hidx2 : d + (r'.head :: ns2).length = d + 1 + ns2.length := by
          simp only [List.length_cons]
          omega
        rw [hidx2]
        exact hmemj
      · intro m hm1 hm2
        simp only [List.nil_append] at hm2
        exact hnon2 m hm1 hm2
    | cons t0 ts1x =>
      have hdropr2 : r'.body.drop 0 = r'.body ++ [] := by simp
      rcases ih1 i k2 0 i r' [] ssi hk2 hdropr2 hssi hmemk2 hslice1 with
        ⟨ssj1, hssj1, hmemc, hnon1⟩
      have hruleE : ruleOf g (EItem.mk k2 (0 + r'.body.length) i) = some r' := hk2
      have hclE := hclosed (i + (t0 :: ts1x).length) ssj1 hssj1
        (EItem.mk k2 (0 + r'.body.length) i) hmemc
      rcases hclE with ⟨_, _, hcomp⟩
      have hnsE : nextSym g (EItem.mk k2 (0 + r'.body.length) i) = none := by
        rw [nextSym_of_rule g _ r' hruleE]
        rw [List.get?_eq_none]
        simp
      have hne : (EItem.mk k2 (0 + r'.body.length) i).start ≠ i + (t0 :: ts1x).length := by
        show i ≠ i + (t0 :: ts1x).length
        simp only [List.length_cons]
        omega
      have htake : (chart.take (i + (t0 :: ts1x).length)).get? i = some ssi := by
        rw [List.get?_eq_getElem?]
        rw [List.getElem?_take_of_lt (by simp only [List.length_cons]; omega)]
        rw [← List.get?_eq_getElem?]
        exact hssi
      rcases mem_items_exists ssi (EItem.mk k d s) hmem with ⟨pe, hpe, hpefst⟩
      have hpens : nextSym g pe.fst = some r'.head := by
        rw [hpefst]
        exact hns
      have hadv := hcomp r' hruleE hnsE hne ssi htake pe hpe hpens
      have hadv2 : EItem.mk k (d + 1) s ∈ items ssj1 := by
        rw [hpefst] at hadv
        exact hadv
      rcases ih2 (i + (t0 :: ts1x).length) k (d + 1) s r rest ssj1 hk hdrop2 hssj1
        hadv2 hslice2 with ⟨ssj, hssj, hmemj, hnon2⟩
      refine ⟨ssj, ?_, ?_, ?_⟩
      · have hidx : i + ((t0 :: ts1x) ++ ts2).length =
            i + (t0 :: ts1x).length + ts2.length := by
          simp only [List.length_append]
          omega
        rw [hidx]
        exact hssj
      · have hidx2 : d + (r'.head :: ns2).length = d + 1 + ns2.length := by
          simp only [List.length_cons]
          omega
        rw [hidx2]
        exact hmemj
      · intro m hm1 hm2
        simp only [List.length_append] at hm2
        rcases Nat.lt_or_ge m (i + (t0 :: ts1x).length + 1) with hm3 | hm3
        · exact hnon1 m hm1 (by omega)
        · exact hnon2 m (by omega) (by omega)

end Earlgrey

namespace Earlgrey

theorem findIdx?_eq_none {α : Type} (l : List α) (p : α → Bool)
    (h : ∀ x ∈ l, p x = false) : l.findIdx? p = none :=
  List.findIdx?_eq_none_iff.mpr h

theorem seedSet_mem (g : Grammar) (k : Nat) (r : GRule)
    (hk : g.rules.get? k = some r) (hhead : r.head = g.start) :
    EItem.mk k 0 0 ∈ items (seedSet g) := by
  unfold seedSet
  refine foldl_insert_mem _ _ _ g.rules.enum [] (k, r) ?_ ?_
  · exact List.mem_enum_iff_get?.mpr (by simpa using hk)
  · simpa using hhead

theorem seedSet_nodup (g : Grammar) : (items (seedSet g)).Nodup := by
  unfold seedSet
  exact foldl_insert_nodup _ _ _ g.rules.enum [] (by simp [items])

theorem seedSet_valid (g : Grammar) : ∀ x ∈ items (seedSet g), ValidItem g 0 x := by
  unfold seedSet
  refine foldl_insert_valid _ _ _ g 0 g.rules.enum [] (by simp [items]) ?_
  intro kr hkr hp
  have hk : g.rules.get? kr.fst = some kr.snd := by
    have := List.mem_enum_iff_get?.mp hkr
    simpa using this
  exact ⟨⟨kr.snd, hk, Nat.zero_le _⟩, Nat.le_refl 0⟩

theorem buildChart_spec (g : Grammar) (toks : List String) :
    (buildChart g toks).length = toks.length + 1 ∧
    (∀ ss, (buildChart g toks).get? 0 = some ss →
      ∃ ext, items ss = items (seedSet g) ++ ext) ∧
    (∀ i, ChartClosedAt g toks (buildChart g toks) i) := by
  have hspec := chartLoop_spec g toks toks [] (seedSet g) (by simp)
    (by intro m ss hss; cases hss) (seedSet_nodup g) (seedSet_valid g)
  rcases hspec with ⟨_, hlen, hext, _, hclosed⟩
  exact ⟨by simpa using hlen, by simpa using hext,
    fun i => hclosed i (Nat.zero_le i)⟩

theorem acceptingIdx_ne_nil (g : Grammar) (ss : StateSet) (it : EItem) (r : GRule)
    (hmem : it ∈ items ss) (hstart : it.start = 0)
    (hrule : ruleOf g it = some r) (hdot : it.dot = r.body.length)
    (hhead : r.head = g.start) : acceptingIdx g ss ≠ [] := by
  rcases mem_items_exists ss it hmem with ⟨pe, hpe, hpefst⟩
  rcases List.mem_iff_get?.mp hpe with ⟨idx, hidx⟩
  have hpred : (fun (e : Nat × (EItem × List Deriv)) =>
      e.snd.fst.start == 0 && isComplete g e.snd.fst &&
      (match ruleOf g e.snd.fst with
       | some r2 => r2.head == g.start
       | none => false)) (idx, pe) = true := by
    simp only [hpefst]
    rw [hstart]
    have hcomp : isComplete g it = true := by
      unfold isComplete
      rw [hrule, hdot]
      simp
    rw [hcomp, hrule]
    simp [hhead]
  have henum : (idx, pe) ∈ ss.enum := List.mem_enum_iff_get?.mpr (by simpa using hidx)
  have hfil : (idx, pe) ∈ ss.enum.filter
      (fun e => e.snd.fst.start == 0 && isComplete g e.snd.fst &&
        (match ruleOf g e.snd.fst with
         | some r2 => r2.head == g.start
         | none => false)) := List.mem_filter.mpr ⟨henum, hpred⟩
  unfold acceptingIdx
  intro hempty
  rw [List.map_eq_nil] at hempty
  rw [hempty] at hfil
  cases hfil

theorem earley_completeness (g : Grammar) (toks : List String)
    (hheads : ∀ r0 ∈ g.rules, ∃ nm, lookupSym g.symbols r0.head = some (Symbol.nt nm))
    (k : Nat) (r : GRule) (hk : g.rules.get? k = some r) (hhead : r.head = g.start)
    (hd : SymDerives g r.body toks) :
    ∃ ps, EarleyParser.parse g toks = Except.ok ps := by
  rcases buildChart_spec g toks with ⟨hlen, hext0, hclosed⟩
  have h0lt : 0 < (buildChart g toks).length := by omega
  obtain ⟨ss0, hss0⟩ : ∃ ss0, (buildChart g toks).get? 0 = some ss0 :=
    ⟨(buildChart g toks).get ⟨0, h0lt⟩, List.get?_eq_get h0lt⟩
  rcases hext0 ss0 hss0 with ⟨ext, hext⟩
  have hseedmem : EItem.mk k 0 0 ∈ items ss0 := by
    rw [hext]
    exact List.mem_append_left _ (seedSet_mem g k r hk hhead)
  have hslice : sliceAt toks 0 toks := by
    unfold sliceAt
    simp
  have hmain := symDerives_advance g toks (buildChart g toks) hlen hclosed hheads hd
    0 k 0 0 r [] ss0 hk (by simp) hss0 hseedmem hslice
  rcases hmain with ⟨ssj, hssj, hmemj, hnon⟩
  have hssjn : (buildChart g toks).get? toks.length = some ssj := by simpa using hssj
  have hlast : (buildChart g toks).getLast? = some ssj := by
    rw [List.getLast?_eq_get?]
    rw [hlen]
    simpa using hssjn
  have hnoempty : ((buildChart g toks).drop 1).findIdx?
      (fun s => s.isEmpty) = none := by
    refine findIdx?_eq_none _ _ ?_
    intro x hx
    rcases List.mem_iff_get?.mp hx with ⟨j, hj⟩
    have hj2 : (buildChart g toks).get? (1 + j) = some x := by
      rw [← List.get?_drop]
      exact hj
    have hjlt : 1 + j ≤ toks.length := by
      rcases List.get?_eq_some.mp hj2 with ⟨hlt, _⟩
      omega
    rcases hnon (1 + j) (by omega) (by omega) with ⟨ssm, hssm, hssmne⟩
    have : (buildChart g toks).get? (1 + j) = some ssm := by simpa using hssm
    rw [hj2] at this
    injection this with this
    subst this
    simpa [List.isEmpty_iff] using hssmne
  have hacc : acceptingIdx g ssj ≠ [] := by
    refine acceptingIdx_ne_nil g ssj (EItem.mk k (0 + r.body.length) 0) r ?_ rfl hk
      (by simp) hhead
    exact hmemj
  refine ⟨⟨buildChart g toks⟩, ?_⟩
  simp only [EarleyParser.parse, hnoempty, hlast]
  rw [if_neg (by simpa [List.isEmpty_iff] using hacc)]

end Earlgrey

namespace Earlgrey

set_option maxRecDepth 1000000 in
/-- Claim C2: for every grammar whose rule heads are all declared
nonterminals and every token string derived from the start symbol's body
by a finite derivation, the recognizer accepts the string; in particular
it accepts `1 + 2` under the left-recursive grammar `S -> S + N | N`,
`1 ^ 2` under the right-recursive grammar `P -> N ^ P | N`, and
`containsmainword` under the grammar with the nullable `Letters`
production. -/
theorem claim_C2_completeness :
    (∀ (g : Grammar) (toks : List String),
      (∀ r0 ∈ g.rules, ∃ nm, lookupSym g.symbols r0.head = some (Symbol.nt nm)) →
      (∃ k r, g.rules.get? k = some r ∧ r.head = g.start ∧
        SymDerives g r.body toks) →
      ∃ ps, EarleyParser.parse g toks = Except.ok ps) ∧
    recognizes bLeftRec "S" ["1", "+", "2"] = true ∧
    recognizes bRightRec "P" ["1", "^", "2"] = true ∧
    recognizes bMainWords "Program" toksMain = true := by
  refine ⟨?_, rfl, rfl, rfl⟩
  rintro g toks hheads ⟨k, r, hk, hhead, hd⟩
  exact earley_completeness g toks hheads k r hk hhead hd

set_option maxRecDepth 1000000 in
/-- Witness for claim C2: the universal completeness statement applied at
the concrete left-recursive grammar and the derivable input `1`. -/
theorem claim_C2_witness :
    (EarleyParser.parse gLeftRec ["1"]).toBool = true := by
  have hrules : gLeftRec.rules =
      [⟨"S", ["S", "[+]", "N"]⟩, ⟨"S", ["N"]⟩, ⟨"N", ["[0-9]"]⟩] := rfl
  have hheads : ∀ r0 ∈ gLeftRec.rules, ∃ nm,
      lookupSym gLeftRec.symbols r0.head = some (Symbol.nt nm) := by
    intro r0 hr0
    rw [hrules] at hr0
    simp only [List.mem_cons, List.not_mem_nil, or_false] at hr0
    rcases hr0 with rfl | rfl | rfl
    · exact ⟨"S", rfl⟩
    · exact ⟨"S", rfl⟩
    · exact ⟨"N", rfl⟩
  have hterm : SymDerives gLeftRec ["[0-9]"] ["1"] :=
    SymDerives.consTerm "[0-9]"
      (fun n => n.toList.all (fun c => "1234567890".toList.contains c)) "1" [] []
      rfl rfl SymDerives.nil
  have hmem : (⟨"N", ["[0-9]"]⟩ : GRule) ∈ gLeftRec.rules := by
    rw [hrules]
    decide
  have hder : SymDerives gLeftRec ["N"] ["1"] :=
    SymDerives.consNT (⟨"N", ["[0-9]"]⟩ : GRule) [] ["1"] [] hmem
      hterm SymDerives.nil
  obtain ⟨ps, hps⟩ := claim_C2_completeness.1 gLeftRec ["1"] hheads
    ⟨1, ⟨"S", ["N"]⟩, rfl, rfl, hder⟩
  rw [hps]
  rfl

end Earlgrey


namespace Lox

/-- Claim C9: for every token-type list, when `LoxParser::accept` returns
false the scanner is restored to exactly its prior state (no token
consumed), and when it returns true exactly one token has been consumed
(the position advanced by one over the unchanged buffer) and that
token's type matches a member of the list. -/
theorem claim_C9_accept_frame (p : LoxParser) (tokenTypes : List TT)
    (b : Bool) (q : LoxParser) (h : p.accept tokenTypes = (b, q)) :
    (b = false → q = p) ∧
    (b = true →
      q.scanner.buf = p.scanner.buf ∧
      q.scanner.pos = p.scanner.pos + 1 ∧
      q.errors = p.errors ∧
      ∃ t, p.scanner.buf.get? p.scanner.pos = some t ∧
        tokenTypes.any (fun ttype => ttMatch t.token ttype) = true) := by
  rcases hg : p.scanner.buf.get? p.scanner.pos with _ | t
  · simp only [LoxParser.accept, Scanner.next, hg] at h
    injection h with h1 h2
    subst h1
    subst h2
    exact ⟨fun _ => rfl, fun hb => nomatch hb⟩
  · simp only [LoxParser.accept, Scanner.next, hg] at h
    by_cases hf : tokenTypes.any (fun ttype => ttMatch t.token ttype) = true
    · rw [if_pos hf] at h
      injection h with h1 h2
      subst h1
      subst h2
      refine And.intro (fun hb => nomatch hb) (fun hb => ?_)
      exact ⟨rfl, rfl, rfl, t, rfl, hf⟩
    · rw [if_neg hf] at h
      injection h with h1 h2
      subst h1
      subst h2
      exact ⟨fun _ => rfl, fun hb => nomatch hb⟩

/-- Witness for claim C9 at a concrete input: accepting a PLUS token from
a one-token buffer consumes exactly that token. -/
theorem claim_C9_witness :
    ((acceptP.accept [TT.PLUS]).snd.scanner.pos = acceptP.scanner.pos + 1 ∧
      ∃ t, acceptP.scanner.buf.get? acceptP.scanner.pos = some t ∧
        List.any [TT.PLUS] (fun ttype => ttMatch t.token ttype) = true) := by
  have h := claim_C9_accept_frame acceptP [TT.PLUS]
      (acceptP.accept [TT.PLUS]).fst (acceptP.accept [TT.PLUS]).snd rfl
  exact ⟨((h.2 (by decide)).2.1), ((h.2 (by decide)).2.2.2)⟩

/-- Claim C10: evaluating Expr::Logical short-circuits and returns the
operand value itself, not a boolean coercion: with op OR and a truthy
lhs value the result is that lhs value (for every rhs, so an error in
rhs cannot surface); with op AND and a falsy lhs value the result is
that lhs value; in all other cases the result is the evaluation of rhs
in the environment the lhs evaluation produced. -/
theorem claim_C10_logical_short_circuit (env env1 : Env) (lhs rhs : Expr)
    (op : Token) (v : V) (hl : eval env lhs = .ok (v, env1)) :
    (op.token = .OR → v.is_truthy = true →
      eval env (.Logical lhs op rhs) = .ok (v, env1)) ∧
    (op.token = .AND → v.is_truthy = false →
      eval env (.Logical lhs op rhs) = .ok (v, env1)) ∧
    (op.token = .OR → v.is_truthy = false →
      eval env (.Logical lhs op rhs) = eval env1 rhs) ∧
    (op.token = .AND → v.is_truthy = true →
      eval env (.Logical lhs op rhs) = eval env1 rhs) ∧
    (op.token ≠ .OR → op.token ≠ .AND →
      eval env (.Logical lhs op rhs) = eval env1 rhs) := by
  have he : eval env (.Logical lhs op rhs) =
      (match op.token with
       | .OR => if v.is_truthy then Except.ok (v, env1) else eval env1 rhs
       | .AND => if !v.is_truthy then Except.ok (v, env1) else eval env1 rhs
       | _ => eval env1 rhs) := by
    rw [eval, hl]
    rfl
  refine ⟨?_, ?_, ?_, ?_, ?_⟩
  · intro ho ht
    rw [he, ho, ht]
    rfl
  · intro ha ht
    rw [he, ha, ht]
    rfl
  · intro ho ht
    rw [he, ho, ht]
    rfl
  · intro ha ht
    rw [he, ha, ht]
    rfl
  · intro ho ha
    rw [he]
    rcases op with ⟨tt, lex, line⟩
    cases tt <;> simp_all

/-- Witness for claim C10 at a concrete input: `true or x` evaluates to
true even though evaluating `x` alone errors (undefined variable). -/
theorem claim_C10_witness :
    eval [] (.Logical (.Bool true) (Token.mk .OR "or" 1) (.Var "x")) =
      .ok (.Bool true, []) ∧
    eval [] (.Var "x") = .error "undefined variable x" := by
  refine ⟨?_, rfl⟩
  exact (claim_C10_logical_short_circuit [] [] (.Bool true) (.Var "x")
    (Token.mk .OR "or" 1) (.Bool true) rfl).1 rfl rfl

end Lox

namespace Earlgrey

theorem leafCountList_append (a b : List Tree) :
    Tree.leafCountList (a ++ b) = Tree.leafCountList a + Tree.leafCountList b := by
  induction a with
  | nil => simp [Tree.leafCountList]
  | cons t ts ih =>
    simp only [List.cons_append, Tree.leafCountList, List.append_eq]
    rw [ih]
    omega

theorem mem_insertItem (s : StateSet) (it : EItem) (d : Option Deriv) :
    ∀ p ∈ insertItem s it d,
      p ∈ s ∨
      (∃ q ∈ s, ∃ dv, d = some dv ∧ dv ∉ q.snd ∧ p = (q.fst, q.snd ++ [dv])) ∨
      p = (it, d.toList) := by
  induction s with
  | nil =>
    intro p hp
    simp only [insertItem] at hp
    rcases List.mem_singleton.mp hp with rfl
    exact Or.inr (Or.inr rfl)
  | cons e rest ih =>
    intro p hp
    simp only [insertItem] at hp
    by_cases he : e.fst = it
    · rw [if_pos he] at hp
      rcases List.mem_cons.mp hp with hp1 | hp1
      · cases d with
        | none =>
          refine Or.inl ?_
          rw [hp1]
          exact List.mem_cons_self _ _
        | some dv =>
          have hp2 : p = if dv ∈ e.snd then e else (e.fst, e.snd ++ [dv]) := hp1
          by_cases hd : dv ∈ e.snd
          · rw [if_pos hd] at hp2
            refine Or.inl ?_
            rw [hp2]
            exact List.mem_cons_self _ _
          · rw [if_neg hd] at hp2
            exact Or.inr (Or.inl ⟨e, List.mem_cons_self e rest, dv, rfl, hd, hp2⟩)
      · exact Or.inl (List.mem_cons_of_mem _ hp1)
    · rw [if_neg he] at hp
      rcases List.mem_cons.mp hp with hp1 | hp1
      · exact Or.inl (hp1 ▸ List.mem_cons_self e rest)
      · rcases ih p hp1 with h1 | ⟨q, hq, dv, hdv, hnm, hpq⟩ | h1
        · exact Or.inl (List.mem_cons_of_mem _ h1)
        · exact Or.inr (Or.inl ⟨q, List.mem_cons_of_mem _ hq, dv, hdv, hnm, hpq⟩)
        · exact Or.inr (Or.inr h1)

end Earlgrey

namespace Earlgrey

theorem items_get?_insertItem (s : StateSet) (it : EItem) (d : Option Deriv)
    (j : Nat) (c : EItem) (h : (items s).get? j = some c) :
    (items (insertItem s it d)).get? j = some c := by
  rw [items_insertItem]
  by_cases hm : it ∈ items s
  · rw [if_pos hm]
    exact h
  · rw [if_neg hm]
    rw [List.get?_append]
    · exact h
    · rcases List.get?_eq_some.mp h with ⟨hlt, _⟩
      exact hlt

theorem derivInv_insertItem (g : Grammar) (i : Nat) (s : StateSet)
    (it : EItem) (d : Option Deriv)
    (h : DerivInv g i s)
    (hd0 : it.dot = 0 → it.start = i)
    (hdc : ∀ j, d = some (Deriv.complete j) →
      ∃ c, (items s).get? j = some c ∧ isComplete g c = true ∧ c.start < i)
    (hds : ∀ lex, d = some (Deriv.scan lex) → 1 ≤ i) :
    DerivInv g i (insertItem s it d) := by
  rcases h with ⟨h1, h2, h3, h4⟩
  refine ⟨?_, ?_, ?_, ?_⟩
  · intro p hp
    rcases mem_insertItem s it d p hp with hc | ⟨q, hq, dv, hdv, hnm, rfl⟩ | rfl
    · exact h1 p hc
    · exact h1 q hq
    · exact hd0
  · intro p hp
    rcases mem_insertItem s it d p hp with hc | ⟨q, hq, dv, hdv, hnm, rfl⟩ | rfl
    · exact h2 p hc
    · exact List.nodup_append.mpr ⟨h2 q hq, List.nodup_singleton dv,
        by intro a ha hb; rw [List.mem_singleton.mp hb] at ha; exact hnm ha⟩
    · cases d <;> simp [Option.toList]
  · intro p hp j hj
    rcases mem_insertItem s it d p hp with hc | ⟨q, hq, dv, hdv, hnm, rfl⟩ | rfl
    · rcases h3 p hc j hj with ⟨c, hcj, hcc, hcs⟩
      exact ⟨c, items_get?_insertItem s it d j c hcj, hcc, hcs⟩
    · rcases List.mem_append.mp hj with hj1 | hj1
      · rcases h3 q hq j hj1 with ⟨c, hcj, hcc, hcs⟩
        exact ⟨c, items_get?_insertItem s it d j c hcj, hcc, hcs⟩
      · rw [← List.mem_singleton.mp hj1] at hdv
        rcases hdc j hdv with ⟨c, hcj, hcc, hcs⟩
        exact ⟨c, items_get?_insertItem s it d j c hcj, hcc, hcs⟩
    · have hdj : d = some (Deriv.complete j) := by
        cases d with
        | none => cases hj
        | some dv =>
          simp only [Option.toList] at hj
          rw [List.mem_singleton.mp hj]
      rcases hdc j hdj with ⟨c, hcj, hcc, hcs⟩
      exact ⟨c, items_get?_insertItem s it d j c hcj, hcc, hcs⟩
  · intro p hp lex hj
    rcases mem_insertItem s it d p hp with hc | ⟨q, hq, dv, hdv, hnm, rfl⟩ | rfl
    · exact h4 p hc lex hj
    · rcases List.mem_append.mp hj with hj1 | hj1
      · exact h4 q hq lex hj1
      · rw [← List.mem_singleton.mp hj1] at hdv
        exact hds lex hdv
    · have hdj : d = some (Deriv.scan lex) := by
        cases d with
        | none => cases hj
        | some dv =>
          simp only [Option.toList] at hj
          rw [List.mem_singleton.mp hj]
      exact hds lex hdj

end Earlgrey

namespace Earlgrey

section FoldInsertInv

variable {α : Type} (P : α → Bool) (f : α → EItem) (dv : α → Option Deriv)

theorem foldl_insert_derivInv (g : Grammar) (i : Nat) (l : List α) (s : StateSet)
    (h : DerivInv g i s)
    (hf0 : ∀ a ∈ l, P a = true → (f a).dot = 0 → (f a).start = i)
    (hfc : ∀ a ∈ l, P a = true → ∀ j, dv a = some (Deriv.complete j) →
      ∃ c, (items s).get? j = some c ∧ isComplete g c = true ∧ c.start < i)
    (hfs : ∀ a ∈ l, P a = true → ∀ lex, dv a = some (Deriv.scan lex) → 1 ≤ i) :
    DerivInv g i (l.foldl
      (fun acc y => if P y then insertItem acc (f y) (dv y) else acc) s) := by
  induction l generalizing s with
  | nil => exact h
  | cons b l ih =>
    simp only [List.foldl_cons]
    by_cases hp : P b
    · rw [if_pos hp]
      refine ih (insertItem s (f b) (dv b))
        (derivInv_insertItem g i s (f b) (dv b) h
          (hf0 b (List.mem_cons_self _ _) hp)
          (hfc b (List.mem_cons_self _ _) hp)
          (hfs b (List.mem_cons_self _ _) hp))
        (fun a ha => hf0 a (List.mem_cons_of_mem _ ha))
        ?_
        (fun a ha => hfs a (List.mem_cons_of_mem _ ha))
      intro a ha hpa j hj
      rcases hfc a (List.mem_cons_of_mem _ ha) hpa j hj with ⟨c, hcj, hcc, hcs⟩
      exact ⟨c, items_get?_insertItem s (f b) (dv b) j c hcj, hcc, hcs⟩
    · rw [if_neg hp]
      exact ih s h (fun a ha => hf0 a (List.mem_cons_of_mem _ ha))
        (fun a ha => hfc a (List.mem_cons_of_mem _ ha))
        (fun a ha => hfs a (List.mem_cons_of_mem _ ha))

end FoldInsertInv

end Earlgrey

namespace Earlgrey

theorem processStep_derivInv (g : Grammar) (nulls : List String)
    (prev : List StateSet) (i : Nat) (tok : Option String)
    (cur nxt : StateSet) (j : Nat)
    (hval : ∀ x ∈ items cur, ValidItem g i x)
    (hcur : DerivInv g i cur) (hnxt : DerivInv g (i + 1) nxt) :
    DerivInv g i (processStep g nulls prev i tok cur nxt j).1 ∧
    DerivInv g (i + 1) (processStep g nulls prev i tok cur nxt j).2 := by
  rcases hj : cur.get? j with _ | ed
  · simp only [processStep, hj]
    exact ⟨hcur, hnxt⟩
  obtain ⟨it, ds⟩ := ed
  have hitmem : it ∈ items cur := by
    have := List.get?_mem hj
    exact List.mem_map_of_mem Prod.fst this
  have hitval : ValidItem g i it := hval it hitmem
  rcases hr : ruleOf g it with _ | r
  · simp only [processStep, hj, hr]
    exact ⟨hcur, hnxt⟩
  rcases hb : r.body.get? it.dot with _ | sym
  · by_cases hsi : it.start = i
    · simp only [processStep, hj, hr, hb, if_pos hsi]
      exact ⟨hcur, hnxt⟩
    · rcases hp : prev.get? it.start with _ | ss
      · simp only [processStep, hj, hr, hb, if_neg hsi, hp]
        exact ⟨hcur, hnxt⟩
      · simp only [processStep, hj, hr, hb, if_neg hsi, hp]
        refine ⟨?_, hnxt⟩
        refine foldl_insert_derivInv _ _ _ g i ss cur hcur ?_ ?_ ?_
        · intro a ha hpa h0
          exact absurd h0 (Nat.succ_ne_zero _)
        · intro a ha hpa j2 hj2
          injection hj2 with hj2
          injection hj2 with hj2
          subst hj2
          refine ⟨it, ?_, ?_, ?_⟩
          · simp only [items, List.get?_map, hj, Option.map_some']
          · unfold isComplete
            rw [hr]
            have hlen : r.body.length ≤ it.dot := List.get?_eq_none.mp hb
            rcases hitval.1 with ⟨r2, hr2, hd2⟩
            have hr3 : g.rules.get? it.rule = some r := hr
            rw [hr3] at hr2
            injection hr2 with hr2
            subst hr2
            simp only [beq_iff_eq]
            omega
          · have := hitval.2
            omega
        · intro a ha hpa lex hlex
          injection hlex with hlex
          cases hlex
  · rcases hl : lookupSym g.symbols sym with _ | s0
    · simp only [processStep, hj, hr, hb, hl]
      exact ⟨hcur, hnxt⟩
    rcases s0 with x0 | ⟨nm0, pred0⟩
    · have hfold : DerivInv g i (g.rules.enum.foldl
          (fun acc kr =>
            if kr.snd.head == sym then insertItem acc (EItem.mk kr.fst 0 i) none
            else acc) cur) := by
        refine foldl_insert_derivInv _ _ _ g i g.rules.enum cur hcur ?_ ?_ ?_
        · intro a ha hpa h0
          rfl
        · intro a ha hpa j2 hj2
          cases hj2
        · intro a ha hpa lex hlex
          cases hlex
      by_cases hn : nulls.contains sym
      · simp only [processStep, hj, hr, hb, hl, if_pos hn]
        refine ⟨?_, hnxt⟩
        refine derivInv_insertItem g i _ _ _ hfold ?_ ?_ ?_
        · intro h0
          exact absurd h0 (Nat.succ_ne_zero _)
        · intro j2 hj2
          injection hj2 with hj2
          cases hj2
        · intro lex hlex
          injection hlex with hlex
          cases hlex
      · simp only [processStep, hj, hr, hb, hl, if_neg hn]
        exact ⟨hfold, hnxt⟩
    · rcases tok with _ | lex
      · simp only [processStep, hj, hr, hb, hl]
        exact ⟨hcur, hnxt⟩
      · by_cases hm : pred0 lex
        · simp only [processStep, hj, hr, hb, hl, if_pos hm]
          refine ⟨hcur, ?_⟩
          refine derivInv_insertItem g (i + 1) nxt _ _ hnxt ?_ ?_ ?_
          · intro h0
            exact absurd h0 (Nat.succ_ne_zero _)
          · intro j2 hj2
            injection hj2 with hj2
            cases hj2
          · intro lex2 hlex
            omega
        · simp only [processStep, hj, hr, hb, hl, if_neg hm]
          exact ⟨hcur, hnxt⟩

end Earlgrey

namespace Earlgrey

theorem closeLoop_derivInv (g : Grammar) (nulls : List String)
    (prev : List StateSet) (i : Nat) (tok : Option String)
    (hprevval : ∀ m ss, prev.get? m = some ss → ∀ x ∈ items ss, ValidItem g m x) :
    ∀ (fuel : Nat) (cur nxt : StateSet) (j : Nat),
    (items cur).Nodup → (items nxt).Nodup →
    (∀ x ∈ items cur, ValidItem g i x) →
    (∀ x ∈ items nxt, ValidItem g (i + 1) x) →
    DerivInv g i cur → DerivInv g (i + 1) nxt →
    DerivInv g i (closeLoop g nulls prev i tok fuel cur nxt j).1 ∧
    DerivInv g (i + 1) (closeLoop g nulls prev i tok fuel cur nxt j).2 := by
  intro fuel
  induction fuel with
  | zero =>
    intro cur nxt j _ _ _ _ hdc hdn
    simp only [closeLoop]
    exact ⟨hdc, hdn⟩
  | succ fuel ih =>
    intro cur nxt j hnod hnodn hval hvaln hdc hdn
    by_cases hj : j < cur.length
    · have hloop : closeLoop g nulls prev i tok (fuel + 1) cur nxt j =
          closeLoop g nulls prev i tok fuel
            (processStep g nulls prev i tok cur nxt j).1
            (processStep g nulls prev i tok cur nxt j).2 (j + 1) := by
        rw [closeLoop]
        rw [if_pos hj]
      rw [hloop]
      rcases processStep_spec g nulls prev i tok cur nxt j hnod hnodn
        hval hvaln hprevval with ⟨_, _, hnod1, hnodn1, hval1, hvaln1, _⟩
      rcases processStep_derivInv g nulls prev i tok cur nxt j hval hdc hdn with
        ⟨hdc1, hdn1⟩
      exact ih _ _ (j + 1) hnod1 hnodn1 hval1 hvaln1 hdc1 hdn1
    · have hloop : closeLoop g nulls prev i tok (fuel + 1) cur nxt j = (cur, nxt) := by
        rw [closeLoop]
        rw [if_neg hj]
      rw [hloop]
      exact ⟨hdc, hdn⟩

theorem closeSet_derivInv (g : Grammar) (nulls : List String)
    (prev : List StateSet) (tok : Option String) (cur : StateSet)
    (hprevval : ∀ m ss, prev.get? m = some ss → ∀ x ∈ items ss, ValidItem g m x)
    (hnod : (items cur).Nodup)
    (hval : ∀ x ∈ items cur, ValidItem g prev.length x)
    (hdc : DerivInv g prev.length cur) :
    DerivInv g prev.length (closeSet g nulls prev tok cur).1 ∧
    DerivInv g (prev.length + 1) (closeSet g nulls prev tok cur).2 := by
  exact closeLoop_derivInv g nulls prev prev.length tok hprevval
    (ruleSlots g * (prev.length + 1) + cur.length + 1) cur [] 0
    hnod (by simp [items]) hval (by simp [items]) hdc
    ⟨by simp, by simp, by simp, by simp⟩

end Earlgrey

namespace Earlgrey

theorem chartLoop_derivInv (g : Grammar) :
    ∀ (rest : List String) (prev : List StateSet) (cur : StateSet),
    (∀ m ss, prev.get? m = some ss → ∀ x ∈ items ss, ValidItem g m x) →
    (∀ m ss, prev.get? m = some ss → DerivInv g m ss ∧ (items ss).Nodup) →
    (items cur).Nodup →
    (∀ x ∈ items cur, ValidItem g prev.length x) →
    DerivInv g prev.length cur →
    ∀ m ss, (chartLoop g (nullableSet g) prev cur rest).get? m = some ss →
      DerivInv g m ss ∧ (items ss).Nodup := by
  intro rest
  induction rest with
  | nil =>
    intro prev cur hprevval hprevinv hnod hval hdc m ss hss
    simp only [chartLoop] at hss
    rcases Nat.lt_trichotomy m prev.length with hm | hm | hm
    · rw [List.get?_append hm] at hss
      exact hprevinv m ss hss
    · subst hm
      rw [List.get?_concat_length] at hss
      injection hss with hss
      subst hss
      rcases closeSet_spec g (nullableSet g) prev none cur hprevval hnod hval with
        ⟨_, hnod1, _, _, _, _⟩
      rcases closeSet_derivInv g (nullableSet g) prev none cur hprevval hnod hval hdc
        with ⟨hd1, _⟩
      exact ⟨hd1, hnod1⟩
    · exfalso
      rcases List.get?_eq_some.mp hss with ⟨hlt, _⟩
      simp only [List.length_append, List.length_singleton] at hlt
      omega
  | cons t rest ih =>
    intro prev cur hprevval hprevinv hnod hval hdc m ss hss
    simp only [chartLoop] at hss
    rcases closeSet_spec g (nullableSet g) prev (some t) cur hprevval hnod hval with
      ⟨_, hnod1, hval1, hnodn1, hvaln1, _⟩
    rcases closeSet_derivInv g (nullableSet g) prev (some t) cur hprevval hnod hval hdc
      with ⟨hd1, hdn1⟩
    refine ih (prev ++ [(closeSet g (nullableSet g) prev (some t) cur).1])
      (closeSet g (nullableSet g) prev (some t) cur).2 ?_ ?_ hnodn1 ?_ ?_ m ss hss
    · intro m2 ss2 hss2 x hx
      rcases Nat.lt_trichotomy m2 prev.length with hm | hm | hm
      · rw [List.get?_append hm] at hss2
        exact hprevval m2 ss2 hss2 x hx
      · subst hm
        rw [List.get?_concat_length] at hss2
        injection hss2 with hss2
        subst hss2
        exact hval1 x hx
      · exfalso
        rcases List.get?_eq_some.mp hss2 with ⟨hlt, _⟩
        simp only [List.length_append, List.length_singleton] at hlt
        omega
    · intro m2 ss2 hss2
      rcases Nat.lt_trichotomy m2 prev.length with hm | hm | hm
      · rw [List.get?_append hm] at hss2
        exact hprevinv m2 ss2 hss2
      · subst hm
        rw [List.get?_concat_length] at hss2
        injection hss2 with hss2
        subst hss2
        exact ⟨hd1, hnod1⟩
      · exfalso
        rcases List.get?_eq_some.mp hss2 with ⟨hlt, _⟩
        simp only [List.length_append, List.length_singleton] at hlt
        omega
    · simpa using hvaln1
    · simpa using hdn1

theorem buildChart_derivInv (g : Grammar) (toks : List String) :
    ∀ m ss, (buildChart g toks).get? m = some ss →
      DerivInv g m ss ∧ (items ss).Nodup := by
  refine chartLoop_derivInv g toks [] (seedSet g) ?_ ?_ (seedSet_nodup g)
    (seedSet_valid g) ?_
  · intro m ss hss
    cases hss
  · intro m ss hss
    cases hss
  · show DerivInv g 0 (seedSet g)
    unfold seedSet
    refine foldl_insert_derivInv _ _ _ g 0 g.rules.enum [] ?_ ?_ ?_ ?_
    · exact ⟨by simp, by simp, by simp, by simp⟩
    · intro a ha hpa h0
      rfl
    · intro a ha hpa j2 hj2
      cases hj2
    · intro a ha hpa lex hlex
      cases hlex

theorem buildChart_valid (g : Grammar) (toks : List String) :
    ∀ m ss, (buildChart g toks).get? m = some ss →
      ∀ x ∈ items ss, ValidItem g m x := by
  have hspec := chartLoop_spec g toks toks [] (seedSet g) (by simp)
    (by intro m ss hss; cases hss) (seedSet_nodup g) (seedSet_valid g)
  rcases hspec with ⟨_, _, _, hval, _⟩
  exact hval

end Earlgrey

namespace Earlgrey

theorem findIdx?_some_get? {α : Type} (l : List α) (p : α → Bool) (i : Nat)
    (h : l.findIdx? p = some i) : ∃ x, l.get? i = some x ∧ p x = true := by
  rcases List.findIdx?_eq_some_iff_getElem.mp h with ⟨hlt, hp, _⟩
  refine ⟨l.get ⟨i, hlt⟩, List.get?_eq_get hlt, ?_⟩
  simpa using hp

theorem recon_leafCount (g : Grammar) (chart : List StateSet)
    (hDI : ∀ e ss, chart.get? e = some ss → DerivInv g e ss) :
    ∀ (fuel : Nat) (vis : List (Nat × Nat)) (e idx : Nat) (ss : StateSet)
      (it : EItem) (ds : List Deriv),
      chart.get? e = some ss → ss.get? idx = some (it, ds) →
      ∀ out ∈ recon g chart fuel vis e idx,
        Tree.leafCountList out + it.start = e := by
  intro fuel
  induction fuel with
  | zero =>
    intro vis e idx ss it ds hss hidx out hout
    cases hout
  | succ fuel ih =>
    intro vis e idx ss it ds hss hidx out hout
    have hpmem : (it, ds) ∈ ss := List.get?_mem hidx
    rcases hDI e ss hss with ⟨hD1, hD2, hD3, hD4⟩
    by_cases hvis : (e, idx) ∈ vis
    · simp only [recon, if_pos hvis] at hout
      cases hout
    rcases hrul : g.rules.get? it.rule with _ | r
    · simp only [recon, if_neg hvis, hss, hidx, hrul] at hout
      cases hout
    simp only [recon, if_neg hvis, hss, hidx, hrul] at hout
    by_cases hd0 : it.dot = 0
    · rw [if_pos hd0] at hout
      rcases List.mem_singleton.mp hout with rfl
      have hse : it.start = e := hD1 (it, ds) hpmem hd0
      simp [Tree.leafCountList, hse]
    rw [if_neg hd0] at hout
    rcases List.mem_flatten.mp hout with ⟨l, hl, houtl⟩
    rcases List.mem_map.mp hl with ⟨d, hdmem, rfl⟩
    cases d with
    | scan lex =>
      have he1 : 1 ≤ e := hD4 (it, ds) hpmem lex hdmem
      simp only [] at houtl
      rcases hq : (chart.getD (e - 1) []).findIdx?
          (fun p => p.fst = EItem.mk it.rule (it.dot - 1) it.start) with _ | pIdx
      · rw [hq] at houtl
        cases houtl
      rw [hq] at houtl
      rcases List.mem_map.mp houtl with ⟨kids, hkids, rfl⟩
      have helt : e < chart.length := (List.get?_eq_some.mp hss).choose
      obtain ⟨ss1, hss1⟩ : ∃ ss1, chart.get? (e - 1) = some ss1 := by
        have h1 : e - 1 < chart.length := by omega
        exact ⟨chart.get ⟨e - 1, h1⟩, List.get?_eq_get h1⟩
      have hgd : chart.getD (e - 1) [] = ss1 := by
        rw [List.getD_eq_get?, hss1]
        rfl
      rw [hgd] at hq
      rcases findIdx?_some_get? ss1 _ pIdx hq with ⟨x, hx, hpx⟩
      have hxf : x.fst = EItem.mk it.rule (it.dot - 1) it.start :=
        of_decide_eq_true hpx
      have hx2 : ss1.get? pIdx = some (x.fst, x.snd) := hx
      have hih := ih ((e, idx) :: vis) (e - 1) pIdx ss1 x.fst x.snd hss1 hx2
        kids hkids
      rw [hxf] at hih
      simp only [leafCountList_append, Tree.leafCountList, Tree.leafCount] at *
      omega
    | nullable =>
      simp only [] at houtl
      rcases List.mem_flatMap.mp houtl with ⟨kids, hkids, hmap⟩
      rcases List.mem_map.mp hmap with ⟨c0, hc0, rfl⟩
      rcases hq : ss.findIdx?
          (fun p => p.fst = EItem.mk it.rule (it.dot - 1) it.start) with _ | pIdx
      · rw [hq] at hkids
        cases hkids
      rw [hq] at hkids
      rcases findIdx?_some_get? ss _ pIdx hq with ⟨x, hx, hpx⟩
      have hxf : x.fst = EItem.mk it.rule (it.dot - 1) it.start :=
        of_decide_eq_true hpx
      have hx2 : ss.get? pIdx = some (x.fst, x.snd) := hx
      have hih := ih ((e, idx) :: vis) e pIdx ss x.fst x.snd hss hx2 kids hkids
      rw [hxf] at hih
      rcases List.mem_flatten.mp hc0 with ⟨l2, hl2, hc0l⟩
      rcases List.mem_map.mp hl2 with ⟨centry, hcf, rfl⟩
      rcases List.mem_map.mp hc0l with ⟨ckids, hckids, rfl⟩
      rcases List.mem_filter.mp hcf with ⟨henum, hqc⟩
      have hcget : ss.get? centry.fst = some centry.snd := by
        have := List.mem_enum_iff_get?.mp henum
        simpa using this
      have hcget2 : ss.get? centry.fst = some (centry.snd.fst, centry.snd.snd) :=
        hcget
      have hih2 := ih ((e, idx) :: vis) e centry.fst ss centry.snd.fst
        centry.snd.snd hss hcget2 ckids hckids
      have hcs : centry.snd.fst.start = e := by
        have h1 := hqc
        simp only [Bool.and_eq_true, beq_iff_eq] at h1
        exact h1.1.1
      rw [hcs] at hih2
      simp only [leafCountList_append, Tree.leafCountList, Tree.leafCount] at *
      omega
    | complete cIdx =>
      simp only [] at houtl
      rcases hC : ss.get? cIdx with _ | cp
      · rw [hC] at houtl
        cases houtl
      obtain ⟨c, cds⟩ := cp
      simp only [hC] at houtl
      rcases hcr : g.rules.get? c.rule with _ | cr
      · rw [hcr] at houtl
        cases houtl
      rw [hcr] at houtl
      rcases List.mem_flatMap.mp houtl with ⟨kids, hkids, hmap⟩
      rcases List.mem_map.mp hmap with ⟨cc, hcc, rfl⟩
      rcases List.mem_map.mp hcc with ⟨ckids, hckids, rfl⟩
      have hih2 := ih ((e, idx) :: vis) e cIdx ss c cds hss hC ckids hckids
      rcases hq : (chart.getD c.start []).findIdx?
          (fun p => p.fst = EItem.mk it.rule (it.dot - 1) it.start) with _ | pIdx
      · rw [hq] at hkids
        cases hkids
      rw [hq] at hkids
      rcases hcs : chart.get? c.start with _ | ss2
      · have hgd : chart.getD c.start [] = [] := by
          rw [List.getD_eq_get?, hcs]
          rfl
        rw [hgd] at hq
        cases hq
      have hgd : chart.getD c.start [] = ss2 := by
        rw [List.getD_eq_get?, hcs]
        rfl
      rw [hgd] at hq
      rcases findIdx?_some_get? ss2 _ pIdx hq with ⟨x, hx, hpx⟩
      have hxf : x.fst = EItem.mk it.rule (it.dot - 1) it.start :=
        of_decide_eq_true hpx
      have hx2 : ss2.get? pIdx = some (x.fst, x.snd) := hx
      have hih := ih ((e, idx) :: vis) c.start pIdx ss2 x.fst x.snd hcs hx2
        kids hkids
      rw [hxf] at hih
      simp only [leafCountList_append, Tree.leafCountList, Tree.leafCount] at *
      omega

end Earlgrey

namespace Earlgrey

theorem append_singleton_inj {α : Type} {as bs : List α} {a b : α}
    (h : as ++ [a] = bs ++ [b]) : as = bs ∧ a = b := by
  have h2 : as.concat a = bs.concat b := by
    rw [List.concat_eq_append, List.concat_eq_append]
    exact h
  exact List.concat_inj.mp h2

theorem nodup_get?_inj {α : Type} (l : List α) (h : l.Nodup) (i j : Nat) (x : α)
    (hi : l.get? i = some x) (hj : l.get? j = some x) : i = j := by
  have hlt : i < l.length := (List.get?_eq_some.mp hi).choose
  refine List.getElem?_inj hlt h ?_
  rw [← List.get?_eq_getElem?, ← List.get?_eq_getElem?, hi, hj]

theorem items_get?_of_get? (ss : StateSet) (i : Nat) (p : EItem × List Deriv)
    (h : ss.get? i = some p) : (items ss).get? i = some p.fst := by
  simp only [items, List.get?_map, h, Option.map_some']

theorem items_get?_of_get?_none (ss : StateSet) (i : Nat)
    (h : ss.get? i = none) : (items ss).get? i = none := by
  simp only [items, List.get?_map, h, Option.map_none']

theorem items_get?_ne (ss : StateSet) (hnod : (items ss).Nodup)
    (i j : Nat) (p q : EItem × List Deriv)
    (hi : ss.get? i = some p) (hj : ss.get? j = some q)
    (hne : i ≠ j) : p.fst ≠ q.fst := by
  intro he
  refine hne (nodup_get?_inj (items ss) hnod i j p.fst
    (items_get?_of_get? ss i p hi) ?_)
  rw [items_get?_of_get? ss j q hj, he]

theorem isComplete_elim (g : Grammar) (c : EItem) (h : isComplete g c = true) :
    ∃ r, g.rules.get? c.rule = some r ∧ c.dot = r.body.length := by
  unfold isComplete at h
  rcases hr : ruleOf g c with _ | r
  · rw [hr] at h
    cases h
  · rw [hr] at h
    exact ⟨r, hr, by simpa using h⟩

theorem labels_inj (g : Grammar) (hLab : (g.rules.map GRule.label).Nodup)
    (k1 k2 : Nat) (r1 r2 : GRule)
    (h1 : g.rules.get? k1 = some r1) (h2 : g.rules.get? k2 = some r2)
    (hne : k1 ≠ k2) : r1.label ≠ r2.label := by
  intro he
  refine hne (nodup_get?_inj (g.rules.map GRule.label) hLab k1 k2 r1.label ?_ ?_)
  · rw [List.get?_map, h1]
    rfl
  · rw [List.get?_map, h2, he]
    rfl

theorem nodup_cross (xs : List (List Tree)) (ys : List Tree)
    (hx : xs.Nodup) (hy : ys.Nodup) :
    (xs.flatMap (fun kids => ys.map (fun c => kids ++ [c]))).Nodup := by
  rw [List.nodup_flatMap]
  constructor
  · intro kids hkids
    refine List.Nodup.map ?_ hy
    intro a b hab
    exact (append_singleton_inj hab).2
  · refine List.Pairwise.imp ?_ hx
    intro k1 k2 hne t ht1 ht2
    rcases List.mem_map.mp ht1 with ⟨c1, hc1, rfl⟩
    rcases List.mem_map.mp ht2 with ⟨c2, hc2, ht⟩
    exact hne (append_singleton_inj ht).1.symm

theorem node_label_inj (lbl : String) : Function.Injective (Tree.node lbl) := by
  intro a b h
  injection h

theorem eitem_ext (a b : EItem) (h1 : a.rule = b.rule) (h2 : a.dot = b.dot)
    (h3 : a.start = b.start) : a = b := by
  cases a
  cases b
  simp_all

end Earlgrey

namespace Earlgrey

theorem recon_nodup (g : Grammar) (chart : List StateSet)
    (hDI : ∀ e ss, chart.get? e = some ss → DerivInv g e ss)
    (hNod : ∀ e ss, chart.get? e = some ss → (items ss).Nodup)
    (hLab : (g.rules.map GRule.label).Nodup) :
    ∀ (fuel : Nat) (vis : List (Nat × Nat)) (e idx : Nat),
      (recon g chart fuel vis e idx).Nodup := by
  intro fuel
  induction fuel with
  | zero =>
    intro vis e idx
    rw [recon]
    exact List.nodup_nil
  | succ fuel ih =>
    intro vis e idx
    by_cases hvis : (e, idx) ∈ vis
    · simp only [recon, if_pos hvis]
      exact List.nodup_nil
    rcases hss : chart.get? e with _ | ss
    · simp only [recon, if_neg hvis, hss]
      exact List.nodup_nil
    rcases hidx : ss.get? idx with _ | p
    · simp only [recon, if_neg hvis, hss, hidx]
      exact List.nodup_nil
    obtain ⟨it, ds⟩ := p
    rcases hrul : g.rules.get? it.rule with _ | r
    · simp only [recon, if_neg hvis, hss, hidx, hrul]
      exact List.nodup_nil
    by_cases hd0 : it.dot = 0
    · simp only [recon, if_neg hvis, hss, hidx, hrul, if_pos hd0]
      exact List.nodup_singleton _
    simp only [recon, if_neg hvis, hss, hidx, hrul, if_neg hd0]
    rw [List.nodup_flatten]
    have hpmem : (it, ds) ∈ ss := List.get?_mem hidx
    rcases hDI e ss hss with ⟨hD1, hD2, hD3, hD4⟩
    have hdsnod : ds.Nodup := hD2 (it, ds) hpmem
    constructor
    · intro l hl
      rcases List.mem_map.mp hl with ⟨d, hdmem, rfl⟩
      cases d with
      | scan lex =>
        simp only []
        rcases hq : (chart.getD (e - 1) []).findIdx?
            (fun p => p.fst = EItem.mk it.rule (it.dot - 1) it.start) with _ | pIdx
        · rw [hq]
          exact List.nodup_nil
        rw [hq]
        refine List.Nodup.map ?_ (ih ((e, idx) :: vis) (e - 1) pIdx)
        intro a b hab
        exact (append_singleton_inj hab).1
      | nullable =>
        simp only []
        refine nodup_cross _ _ ?_ ?_
        · rcases hq : ss.findIdx?
              (fun p => p.fst = EItem.mk it.rule (it.dot - 1) it.start) with _ | pIdx
          · rw [hq]
            exact List.nodup_nil
          · rw [hq]
            exact ih ((e, idx) :: vis) e pIdx
        · rw [List.nodup_flatten]
          constructor
          · intro l2 hl2
            rcases List.mem_map.mp hl2 with ⟨ce, hcf, rfl⟩
            exact List.Nodup.map (node_label_inj _) (ih ((e, idx) :: vis) e ce.fst)
          · rw [List.pairwise_map]
            have hpw : (ss.enum.filter
                (fun c => c.snd.fst.start == e && isComplete g c.snd.fst &&
                  (match ruleOf g c.snd.fst with
                   | some cr => cr.head == (r.body.get? (it.dot - 1)).getD ""
                   | none => false))).Pairwise (fun a b => a.fst ≠ b.fst) := by
              refine List.Pairwise.filter _ ?_
              have h1 : (ss.enum.map Prod.fst).Nodup := by
                rw [List.enum_map_fst]
                exact List.nodup_range _
              exact List.pairwise_map.mp h1
            refine List.Pairwise.imp_of_mem ?_ hpw
            intro ce1 ce2 hm1 hm2 hfne t ht1 ht2
            rcases List.mem_map.mp ht1 with ⟨ck1, hck1, hteq1⟩
            rcases List.mem_map.mp ht2 with ⟨ck2, hck2, hteq2⟩
            rcases List.mem_filter.mp hm1 with ⟨hen1, hq1⟩
            rcases List.mem_filter.mp hm2 with ⟨hen2, hq2⟩
            simp only [Bool.and_eq_true, beq_iff_eq] at hq1 hq2
            obtain ⟨⟨hs1, hco1⟩, hh1⟩ := hq1
            obtain ⟨⟨hs2, hco2⟩, hh2⟩ := hq2
            rcases isComplete_elim g _ hco1 with ⟨cr1, hcr1, hdt1⟩
            rcases isComplete_elim g _ hco2 with ⟨cr2, hcr2, hdt2⟩
            have hget1 : ss.get? ce1.fst = some ce1.snd := by
              have := List.mem_enum_iff_get?.mp hen1
              simpa using this
            have hget2 : ss.get? ce2.fst = some ce2.snd := by
              have := List.mem_enum_iff_get?.mp hen2
              simpa using this
            have hl1 : (ruleOf g ce1.snd.fst).elim "" GRule.label = cr1.label := by
              rw [show ruleOf g ce1.snd.fst = some cr1 from hcr1]
              rfl
            have hl2 : (ruleOf g ce2.snd.fst).elim "" GRule.label = cr2.label := by
              rw [show ruleOf g ce2.snd.fst = some cr2 from hcr2]
              rfl
            have hteq := hteq1.trans hteq2.symm
            rw [hl1, hl2] at hteq
            injection hteq with hlbleq hckeq
            by_cases hrr : ce1.snd.fst.rule = ce2.snd.fst.rule
            · have hcr2b : g.rules.get? ce1.snd.fst.rule = some cr2 := by
                rw [hrr]
                exact hcr2
              rw [hcr1] at hcr2b
              injection hcr2b with hcreq
              have heq : ce1.snd.fst = ce2.snd.fst := by
                refine eitem_ext _ _ hrr ?_ ?_
                · rw [hdt1, hdt2, hcreq]
                · rw [hs1, hs2]
              exact items_get?_ne ss (hNod e ss hss) ce1.fst ce2.fst ce1.snd ce2.snd
                hget1 hget2 hfne heq
            · exact labels_inj g hLab _ _ cr1 cr2 hcr1 hcr2 hrr hlbleq
      | complete cIdx =>
        rcases hD3 (it, ds) hpmem cIdx hdmem with ⟨c0, hc0, hcomp0, hlt0⟩
        obtain ⟨cds0, hC⟩ : ∃ cds0, ss.get? cIdx = some (c0, cds0) := by
          rcases hsc : ss.get? cIdx with _ | p0
          · rw [items_get?_of_get?_none ss cIdx hsc] at hc0
            cases hc0
          · have h1 := items_get?_of_get? ss cIdx p0 hsc
            rw [hc0] at h1
            injection h1 with h1
            refine ⟨p0.snd, ?_⟩
            exact congrArg some (by rw [h1])
        simp only [hC]
        rcases isComplete_elim g c0 hcomp0 with ⟨cr0, hcr0, hdt0⟩
        simp only [hcr0]
        refine nodup_cross _ _ ?_ ?_
        · rcases hq : (chart.getD c0.start []).findIdx?
              (fun p => p.fst = EItem.mk it.rule (it.dot - 1) it.start) with _ | pIdx
          · rw [hq]
            exact List.nodup_nil
          · rw [hq]
            exact ih ((e, idx) :: vis) c0.start pIdx
        · exact List.Nodup.map (node_label_inj _) (ih ((e, idx) :: vis) e cIdx)
    · rw [List.pairwise_map]
      refine List.Pairwise.imp_of_mem ?_ hdsnod
      intro d1 d2 hm1 hm2 hne x hx1 hx2
      cases d1 with
      | scan lex1 =>
        simp only [] at hx1
        rcases hq1 : (chart.getD (e - 1) []).findIdx?
            (fun p => p.fst = EItem.mk it.rule (it.dot - 1) it.start) with _ | pIdx1
        · rw [hq1] at hx1
          cases hx1
        rw [hq1] at hx1
        rcases List.mem_map.mp hx1 with ⟨kids1, hk1, hxeq1⟩
        cases d2 with
        | scan lex2 =>
          simp only [] at hx2
          rw [hq1] at hx2
          rcases List.mem_map.mp hx2 with ⟨kids2, hk2, hxeq2⟩
          have hx12 := hxeq1.trans hxeq2.symm
          rcases append_singleton_inj hx12 with ⟨_, hleaf⟩
          injection hleaf with _ hlex
          exact hne (by rw [hlex])
        | nullable =>
          simp only [] at hx2
          rcases List.mem_flatMap.mp hx2 with ⟨kids2, hk2, hmap2⟩
          rcases List.mem_map.mp hmap2 with ⟨t2, ht2, hxeq2⟩
          rcases List.mem_flatten.mp ht2 with ⟨l2, hl2, ht2l⟩
          rcases List.mem_map.mp hl2 with ⟨ce2, hcf2, rfl⟩
          rcases List.mem_map.mp ht2l with ⟨ck2, hck2, hteq2⟩
          have hx12 := hxeq1.trans hxeq2.symm
          rcases append_singleton_inj hx12 with ⟨_, hleaf⟩
          rw [← hteq2] at hleaf
          cases hleaf
        | complete cIdx2 =>
          simp only [] at hx2
          rcases hC2 : ss.get? cIdx2 with _ | cp2
          · rw [hC2] at hx2
            cases hx2
          obtain ⟨c2, cds2⟩ := cp2
          simp only [hC2] at hx2
          rcases hcr2 : g.rules.get? c2.rule with _ | cr2
          · rw [hcr2] at hx2
            cases hx2
          rw [hcr2] at hx2
          rcases List.mem_flatMap.mp hx2 with ⟨kids2, hk2, hmap2⟩
          rcases List.mem_map.mp hmap2 with ⟨cc2, hcc2, hxeq2⟩
          rcases List.mem_map.mp hcc2 with ⟨ck2, hck2, hteq2⟩
          have hx12 := hxeq1.trans hxeq2.symm
          rcases append_singleton_inj hx12 with ⟨_, hleaf⟩
          rw [← hteq2] at hleaf
          cases hleaf
      | nullable =>
        simp only [] at hx1
        rcases List.mem_flatMap.mp hx1 with ⟨kids1, hk1, hmap1⟩
        rcases List.mem_map.mp hmap1 with ⟨t1, ht1, hxeq1⟩
        rcases List.mem_flatten.mp ht1 with ⟨l1, hl1, ht1l⟩
        rcases List.mem_map.mp hl1 with ⟨ce1, hcf1, rfl⟩
        rcases List.mem_map.mp ht1l with ⟨ck1, hck1, hteq1⟩
        rcases List.mem_filter.mp hcf1 with ⟨hen1, hq1f⟩
        simp only [Bool.and_eq_true, beq_iff_eq] at hq1f
        obtain ⟨⟨hs1, hco1⟩, hh1⟩ := hq1f
        have hget1 : ss.get? ce1.fst = some ce1.snd := by
          have := List.mem_enum_iff_get?.mp hen1
          simpa using this
        have hget1b : ss.get? ce1.fst = some (ce1.snd.fst, ce1.snd.snd) := hget1
        have hlc1 := recon_leafCount g chart hDI fuel ((e, idx) :: vis) e ce1.fst
          ss ce1.snd.fst ce1.snd.snd hss hget1b ck1 hck1
        rw [hs1] at hlc1
        cases d2 with
        | scan lex2 =>
          simp only [] at hx2
          rcases hq2 : (chart.getD (e - 1) []).findIdx?
              (fun p => p.fst = EItem.mk it.rule (it.dot - 1) it.start) with _ | pIdx2
          · rw [hq2] at hx2
            cases hx2
          rw [hq2] at hx2
          rcases List.mem_map.mp hx2 with ⟨kids2, hk2, hxeq2⟩
          have hx12 := hxeq1.trans hxeq2.symm
          rcases append_singleton_inj hx12 with ⟨_, hleaf⟩
          rw [← hteq1] at hleaf
          cases hleaf
        | nullable =>
          exact hne rfl
        | complete cIdx2 =>
          simp only [] at hx2
          rcases hC2 : ss.get? cIdx2 with _ | cp2
          · rw [hC2] at hx2
            cases hx2
          obtain ⟨c2, cds2⟩ := cp2
          simp only [hC2] at hx2
          rcases hcr2 : g.rules.get? c2.rule with _ | cr2
          · rw [hcr2] at hx2
            cases hx2
          rw [hcr2] at hx2
          rcases List.mem_flatMap.mp hx2 with ⟨kids2, hk2, hmap2⟩
          rcases List.mem_map.mp hmap2 with ⟨cc2, hcc2, hxeq2⟩
          rcases List.mem_map.mp hcc2 with ⟨ck2, hck2, hteq2⟩
          rcases hD3 (it, ds) hpmem cIdx2 hm2 with ⟨c2b, hc2b, hcomp2, hlt2⟩
          have hc2c : (items ss).get? cIdx2 = some c2 :=
            items_get?_of_get? ss cIdx2 (c2, cds2) hC2
          rw [hc2c] at hc2b
          injection hc2b with hc2b
          subst hc2b
          have hlc2 := recon_leafCount g chart hDI fuel ((e, idx) :: vis) e cIdx2
            ss c2 cds2 hss hC2 ck2 hck2
          have hx12 := hxeq1.trans hxeq2.symm
          rcases append_singleton_inj hx12 with ⟨_, hnodes⟩
          rw [← hteq1, ← hteq2] at hnodes
          injection hnodes with _ hckeq
          rw [hckeq] at hlc1
          omega
      | complete cIdx1 =>
        simp only [] at hx1
        rcases hC1 : ss.get? cIdx1 with _ | cp1
        · rw [hC1] at hx1
          cases hx1
        obtain ⟨c1, cds1⟩ := cp1
        simp only [hC1] at hx1
        rcases hcr1 : g.rules.get? c1.rule with _ | cr1
        · rw [hcr1] at hx1
          cases hx1
        rw [hcr1] at hx1
        rcases List.mem_flatMap.mp hx1 with ⟨kids1, hk1, hmap1⟩
        rcases List.mem_map.mp hmap1 with ⟨cc1, hcc1, hxeq1⟩
        rcases List.mem_map.mp hcc1 with ⟨ck1, hck1, hteq1⟩
        rcases hD3 (it, ds) hpmem cIdx1 hm1 with ⟨c1b, hc1b, hcomp1, hlt1⟩
        have hc1c : (items ss).get? cIdx1 = some c1 :=
          items_get?_of_get? ss cIdx1 (c1, cds1) hC1
        rw [hc1c] at hc1b
        injection hc1b with hc1b
        subst hc1b
        have hlc1 := recon_leafCount g chart hDI fuel ((e, idx) :: vis) e cIdx1
          ss c1 cds1 hss hC1 ck1 hck1
        cases d2 with
        | scan lex2 =>
          simp only [] at hx2
          rcases hq2 : (chart.getD (e - 1) []).findIdx?
              (fun p => p.fst = EItem.mk it.rule (it.dot - 1) it.start) with _ | pIdx2
          · rw [hq2] at hx2
            cases hx2
          rw [hq2] at hx2
          rcases List.mem_map.mp hx2 with ⟨kids2, hk2, hxeq2⟩
          have hx12 := hxeq1.trans hxeq2.symm
          rcases append_singleton_inj hx12 with ⟨_, hleaf⟩
          rw [← hteq1] at hleaf
          cases hleaf
        | nullable =>
          simp only [] at hx2
          rcases List.mem_flatMap.mp hx2 with ⟨kids2, hk2, hmap2⟩
          rcases List.mem_map.mp hmap2 with ⟨t2, ht2, hxeq2⟩
          rcases List.mem_flatten.mp ht2 with ⟨l2, hl2, ht2l⟩
          rcases List.mem_map.mp hl2 with ⟨ce2, hcf2, rfl⟩
          rcases List.mem_map.mp ht2l with ⟨ck2, hck2, hteq2⟩
          rcases List.mem_filter.mp hcf2 with ⟨hen2, hq2f⟩
          simp only [Bool.and_eq_true, beq_iff_eq] at hq2f
          obtain ⟨⟨hs2, hco2⟩, hh2⟩ := hq2f
          have hget2 : ss.get? ce2.fst = some ce2.snd := by
            have := List.mem_enum_iff_get?.mp hen2
            simpa using this
          have hget2b : ss.get? ce2.fst = some (ce2.snd.fst, ce2.snd.snd) := hget2
          have hlc2 := recon_leafCount g chart hDI fuel ((e, idx) :: vis) e ce2.fst
            ss ce2.snd.fst ce2.snd.snd hss hget2b ck2 hck2
          rw [hs2] at hlc2
          have hx12 := hxeq1.trans hxeq2.symm
          rcases append_singleton_inj hx12 with ⟨_, hnodes⟩
          rw [← hteq1, ← hteq2] at hnodes
          injection hnodes with _ hckeq
          rw [hckeq] at hlc1
          omega
        | complete cIdx2 =>
          have hci : cIdx1 ≠ cIdx2 := by
            intro h
            exact hne (by rw [h])
          simp only [] at hx2
          rcases hC2 : ss.get? cIdx2 with _ | cp2
          · rw [hC2] at hx2
            cases hx2
          obtain ⟨c2, cds2⟩ := cp2
          simp only [hC2] at hx2
          rcases hcr2 : g.rules.get? c2.rule with _ | cr2
          · rw [hcr2] at hx2
            cases hx2
          rw [hcr2] at hx2
          rcases List.mem_flatMap.mp hx2 with ⟨kids2, hk2, hmap2⟩
          rcases List.mem_map.mp hmap2 with ⟨cc2, hcc2, hxeq2⟩
          rcases List.mem_map.mp hcc2 with ⟨ck2, hck2, hteq2⟩
          rcases hD3 (it, ds) hpmem cIdx2 hm2 with ⟨c2b, hc2b, hcomp2, hlt2⟩
          have hc2c : (items ss).get? cIdx2 = some c2 :=
            items_get?_of_get? ss cIdx2 (c2, cds2) hC2
          rw [hc2c] at hc2b
          injection hc2b with hc2b
          subst hc2b
          have hlc2 := recon_leafCount g chart hDI fuel ((e, idx) :: vis) e cIdx2
            ss c2 cds2 hss hC2 ck2 hck2
          have hcne : c1 ≠ c2 := items_get?_ne ss (hNod e ss hss) cIdx1 cIdx2
            (c1, cds1) (c2, cds2) hC1 hC2 hci
          have hx12 := hxeq1.trans hxeq2.symm
          rcases append_singleton_inj hx12 with ⟨_, hnodes⟩
          rw [← hteq1, ← hteq2] at hnodes
          injection hnodes with hlbleq hckeq
          rcases isComplete_elim g c1 hcomp1 with ⟨cr1b, hcr1b, hdt1⟩
          rcases isComplete_elim g c2 hcomp2 with ⟨cr2b, hcr2b, hdt2⟩
          rw [hcr1] at hcr1b
          injection hcr1b with hcr1b
          subst hcr1b
          rw [hcr2] at hcr2b
          injection hcr2b with hcr2b
          subst hcr2b
          by_cases hrr : c1.rule = c2.rule
          · have hcr2c : g.rules.get? c1.rule = some cr2 := by
              rw [hrr]
              exact hcr2
            rw [hcr1] at hcr2c
            injection hcr2c with hcreq
            refine hcne (eitem_ext c1 c2 hrr ?_ ?_)
            · rw [hdt1, hdt2, hcreq]
            · rw [hckeq] at hlc1
              omega
          · exact labels_inj g hLab c1.rule c2.rule cr1 cr2 hcr1 hcr2 hrr hlbleq

end Earlgrey

namespace Earlgrey

theorem acceptingIdx_nodup (g : Grammar) (ss : StateSet) :
    (acceptingIdx g ss).Nodup := by
  unfold acceptingIdx
  refine List.Nodup.sublist (List.Sublist.map _ (List.filter_sublist _)) ?_
  rw [List.enum_map_fst]
  exact List.nodup_range _

theorem acceptingIdx_mem (g : Grammar) (ss : StateSet) (idx : Nat)
    (h : idx ∈ acceptingIdx g ss) :
    ∃ p, ss.get? idx = some p ∧ p.fst.start = 0 ∧ isComplete g p.fst = true ∧
      ∃ r, g.rules.get? p.fst.rule = some r ∧ r.head = g.start := by
  unfold acceptingIdx at h
  rcases List.mem_map.mp h with ⟨en, hen, rfl⟩
  rcases List.mem_filter.mp hen with ⟨henum, hq⟩
  simp only [Bool.and_eq_true, beq_iff_eq] at hq
  obtain ⟨⟨hs, hc⟩, hh⟩ := hq
  have hget : ss.get? en.fst = some en.snd := by
    have := List.mem_enum_iff_get?.mp henum
    simpa using this
  rcases isComplete_elim g en.snd.fst hc with ⟨r, hr, hd⟩
  refine ⟨en.snd, hget, hs, hc, r, hr, ?_⟩
  rw [show ruleOf g en.snd.fst = some r from hr] at hh
  simpa using hh

theorem evalAll_nodup_chart (g : Grammar) (chart : List StateSet)
    (hDI : ∀ e ss, chart.get? e = some ss → DerivInv g e ss)
    (hNod : ∀ e ss, chart.get? e = some ss → (items ss).Nodup)
    (hLab : (g.rules.map GRule.label).Nodup) :
    (evalAll g ⟨chart⟩).Nodup := by
  show (match chart.getLast? with
    | none => []
    | some last =>
      (acceptingIdx g last).flatMap
        (fun idx =>
          match last.get? idx with
          | none => []
          | some (it, _) =>
            (recon g chart (chartFuel chart) [] (chart.length - 1) idx).map
              (fun kids =>
                Tree.node ((ruleOf g it).elim "" GRule.label) kids))).Nodup
  rcases hlast : chart.getLast? with _ | last
  · exact List.nodup_nil
  have hlast2 : chart.get? (chart.length - 1) = some last := by
    rw [← List.getLast?_eq_get?]
    exact hlast
  show ((acceptingIdx g last).flatMap
      (fun idx =>
        match last.get? idx with
        | none => []
        | some (it, _) =>
          (recon g chart (chartFuel chart) [] (chart.length - 1) idx).map
            (fun kids =>
              Tree.node ((ruleOf g it).elim "" GRule.label) kids))).Nodup
  rw [List.nodup_flatMap]
  constructor
  · intro idx hidx
    rcases acceptingIdx_mem g last idx hidx with ⟨p, hget, _, _, _⟩
    obtain ⟨pit, pds⟩ := p
    simp only [hget]
    exact List.Nodup.map (node_label_inj _)
      (recon_nodup g chart hDI hNod hLab (chartFuel chart) [] (chart.length - 1) idx)
  · refine List.Pairwise.imp_of_mem ?_
      ((acceptingIdx_nodup g last) : (acceptingIdx g last).Pairwise (· ≠ ·))
    intro idx1 idx2 h1 h2 hne t ht1 ht2
    rcases acceptingIdx_mem g last idx1 h1 with ⟨p1, hget1, hs1, hc1, r1, hr1, hh1⟩
    rcases acceptingIdx_mem g last idx2 h2 with ⟨p2, hget2, hs2, hc2, r2, hr2, hh2⟩
    obtain ⟨pit1, pds1⟩ := p1
    obtain ⟨pit2, pds2⟩ := p2
    simp only [hget1] at ht1
    simp only [hget2] at ht2
    rcases List.mem_map.mp ht1 with ⟨ck1, hck1, hteq1⟩
    rcases List.mem_map.mp ht2 with ⟨ck2, hck2, hteq2⟩
    have hl1 : (ruleOf g pit1).elim "" GRule.label = r1.label := by
      rw [show ruleOf g pit1 = some r1 from hr1]
      rfl
    have hl2 : (ruleOf g pit2).elim "" GRule.label = r2.label := by
      rw [show ruleOf g pit2 = some r2 from hr2]
      rfl
    have hteq := hteq1.trans hteq2.symm
    rw [hl1, hl2] at hteq
    injection hteq with hlbleq _
    have hpne : pit1 ≠ pit2 := items_get?_ne last
      (hNod (chart.length - 1) last hlast2) idx1 idx2 (pit1, pds1) (pit2, pds2)
      hget1 hget2 hne
    rcases isComplete_elim g pit1 hc1 with ⟨r1b, hr1b, hd1⟩
    rcases isComplete_elim g pit2 hc2 with ⟨r2b, hr2b, hd2⟩
    rw [hr1] at hr1b
    injection hr1b with hr1b
    subst hr1b
    rw [hr2] at hr2b
    injection hr2b with hr2b
    subst hr2b
    by_cases hrr : pit1.rule = pit2.rule
    · have hr2c : g.rules.get? pit1.rule = some r2 := by
        rw [hrr]
        exact hr2
      rw [hr1] at hr2c
      injection hr2c with hreq
      refine hpne (eitem_ext pit1 pit2 hrr ?_ ?_)
      · rw [hd1, hd2, hreq]
      · rw [hs1, hs2]
    · exact labels_inj g hLab pit1.rule pit2.rule r1 r2 hr1 hr2 hrr hlbleq

theorem parse_ok_chart (g : Grammar) (toks : List String) (ps : ParseState)
    (h : EarleyParser.parse g toks = Except.ok ps) :
    ps.chart = buildChart g toks := by
  simp only [EarleyParser.parse] at h
  rcases hf : ((buildChart g toks).drop 1).findIdx? (fun s => s.isEmpty) with _ | i
  · simp only [hf] at h
    rcases hl : (buildChart g toks).getLast? with _ | last
    · simp only [hl] at h
      cases h
    · simp only [hl] at h
      by_cases hacc : (acceptingIdx g last).isEmpty = true
      · rw [if_pos hacc] at h
        cases h
      · rw [if_neg hacc] at h
        injection h with h
        rw [← h]
  · simp only [hf] at h
    cases h

theorem builder_rule_labels (b : GrammarBuilder) (head : String)
    (body : List String) (h : (b.rules.map GRule.label).Nodup) :
    (((b.rule head body).rules).map GRule.label).Nodup := by
  rcases herr : b.err with _ | e
  · rcases hls : lookupSym b.symbols head with _ | s0
    · simp only [GrammarBuilder.rule, herr, hls]
      exact h
    rcases s0 with nm | ⟨nm, pred⟩
    · by_cases hall : body.all (fun n => (lookupSym b.symbols n).isSome) = true
      · by_cases hany : b.rules.any
            (fun r0 => r0.label == GRule.label ⟨head, body⟩) = true
        · simp only [GrammarBuilder.rule, herr, hls, hall, hany, if_true]
          exact h
        · simp only [GrammarBuilder.rule, herr, hls, hall, if_true,
            Bool.not_eq_true] at hany ⊢
          rw [if_neg (by rw [hany]; exact Bool.false_ne_true)]
          show ((b.rules ++ [(⟨head, body⟩ : GRule)]).map GRule.label).Nodup
          rw [List.map_append]
          refine List.nodup_append.mpr ⟨h, List.nodup_singleton _, ?_⟩
          intro a ha hb
          rcases List.mem_map.mp ha with ⟨r0, hr0, rfl⟩
          simp only [List.map_singleton, List.mem_singleton] at hb
          have : b.rules.any
              (fun r0 => r0.label == GRule.label ⟨head, body⟩) = true := by
            rw [List.any_eq_true]
            refine ⟨r0, hr0, ?_⟩
            rw [hb]
            exact beq_self_eq_true _
          rw [this] at hany
          cases hany
      · simp only [GrammarBuilder.rule, herr, hls, Bool.not_eq_true] at hall ⊢
        rw [if_neg (by rw [hall]; exact Bool.false_ne_true)]
        exact h
    · simp only [GrammarBuilder.rule, herr, hls]
      exact h
  · simp only [GrammarBuilder.rule, herr]
    exact h

theorem builder_addSymbol_rules (b : GrammarBuilder) (s : Symbol) :
    (b.addSymbol s).rules = b.rules := by
  rcases herr : b.err with _ | e
  · rcases hls : lookupSym b.symbols s.name with _ | old
    · simp only [GrammarBuilder.addSymbol, herr, hls]
    · by_cases hv : old.sameVariant s = true
      · simp only [GrammarBuilder.addSymbol, herr, hls, hv, if_true]
      · simp only [GrammarBuilder.addSymbol, herr, hls, Bool.not_eq_true] at hv ⊢
        rw [if_neg (by rw [hv]; exact Bool.false_ne_true)]
  · simp only [GrammarBuilder.addSymbol, herr]

theorem intoGrammar_rules (b : GrammarBuilder) (start : String) (g : Grammar)
    (h : b.intoGrammar start = Except.ok g) : g.rules = b.rules := by
  rcases herr : b.err with _ | e
  · simp only [GrammarBuilder.intoGrammar, herr] at h
    by_cases h1 : (lookupSym b.symbols start).isNone = true
    · rw [if_pos h1] at h
      cases h
    · rw [if_neg h1] at h
      by_cases h2 : b.rules.all (fun r => r.head != start) = true
      · rw [if_pos h2] at h
        cases h
      · rw [if_neg h2] at h
        injection h with h
        rw [← h]
  · simp only [GrammarBuilder.intoGrammar, herr] at h
    cases h

end Earlgrey

namespace Earlgrey

set_option maxRecDepth 1000000 in
/-- Claim C5: for every grammar with duplicate-free rule labels — as every
grammar reachable through the builder has, since the rule operation
preserves label distinctness, symbol declarations leave the rules
unchanged, finalizing passes them through, and the fresh builder has
none — and every input whose parse succeeds, eval_all returns a list
with no two structurally equal trees. -/
theorem claim_C5_dedup :
    (∀ (g : Grammar) (toks : List String) (ps : ParseState),
      (g.rules.map GRule.label).Nodup →
      EarleyParser.parse g toks = Except.ok ps →
      (evalAll g ps).Nodup) ∧
    (∀ (b : GrammarBuilder) (head : String) (body : List String),
      (b.rules.map GRule.label).Nodup →
      (((b.rule head body).rules).map GRule.label).Nodup) ∧
    (∀ (b : GrammarBuilder) (s : Symbol), (b.addSymbol s).rules = b.rules) ∧
    (∀ (b : GrammarBuilder) (start : String) (g : Grammar),
      b.intoGrammar start = Except.ok g → g.rules = b.rules) ∧
    ((GrammarBuilder.new.rules.map GRule.label).Nodup) := by
  refine ⟨?_, ?_, ?_, ?_, ?_⟩
  · intro g toks ps hLab hp
    have hchart : ps.chart = buildChart g toks := parse_ok_chart g toks ps hp
    have hps : ps = ⟨buildChart g toks⟩ := by
      cases ps
      simpa using hchart
    rw [hps]
    exact evalAll_nodup_chart g (buildChart g toks)
      (fun e ss h => (buildChart_derivInv g toks e ss h).1)
      (fun e ss h => (buildChart_derivInv g toks e ss h).2)
      hLab
  · intro b head body h
    exact builder_rule_labels b head body h
  · exact builder_addSymbol_rules
  · exact intoGrammar_rules
  · simp [GrammarBuilder.new]

set_option maxRecDepth 1000000 in
/-- Witness for claim C5: the dedup theorem applied at the concrete
left-recursive grammar on the input `1`. -/
theorem claim_C5_witness :
    (evalAll gLeftRec (ParseState.mk (buildChart gLeftRec ["1"]))).Nodup := by
  refine claim_C5_dedup.1 gLeftRec ["1"]
    (ParseState.mk (buildChart gLeftRec ["1"])) ?_ ?_
  · decide
  · rfl

end Earlgrey

namespace Earlgrey

end Earlgrey

namespace Earlgrey

end Earlgrey
